import Mathlib

/-!
# makefs buffer cache (usr.sbin/makefs/ffs/buf.c)

A shallow embedding of `getblk`, `bread`, `brelse`, `bwrite_impl`, `bwrite`
and `bcleanup`, and the properties of the block-buffer registry `buftail`.

Modelling conventions
* A `struct buf *` is an address (`Nat`); the allocated `struct buf` objects
  live in `State.heap`.  `free` unmaps the address.  The allocator hands out
  addresses in increasing order (`State.next`), so a new object never aliases
  an earlier one.
* `struct vnode` and `fsinfo_t` are read-only for this file; a `struct vnode *`
  is embedded by the value it points to (the volume flags are fixed).
* `makefs_daddr_t`, `long`, `off_t` values are `Int`; the only arithmetic of
  this file that can overflow is the byte offset of `bread` and `bwrite_impl`,
  which is computed in 64-bit two's complement (`to_off_t`, `byte_offset`).
* `err(1, ...)` and a failed `assert` end the process: `Except.error`.
* The `debug` printing is omitted.
-/

namespace Makefs

/-- The fields of `fsinfo_t` that buf.c reads. -/
structure fsinfo_t where
  fd : Int
  sectorsize : Int
  offset : Int
deriving DecidableEq, Repr

/-- The fields of `struct vnode` that buf.c reads. -/
structure vnode where
  fs : fsinfo_t
  v_data : Nat
  v_type : Int
  v_logical : Bool
  v_vflushed : Bool
deriving DecidableEq, Repr

/-- The fields of `struct buf` that buf.c uses; `b_data = none` is `NULL`,
`b_tailq` is the position of the address in `State.buftail`. -/
structure buf where
  b_lblkno : Int
  b_blkno : Int
  b_bcount : Int
  b_bufsize : Int
  b_data : Option (List Nat)
  b_fs : fsinfo_t
  b_vp : Option vnode
  b_is_hammer2 : Bool
  b_loffset : Int
  b_cmd : Int
deriving DecidableEq, Repr

/-- Ways the process ends instead of returning. -/
inductive Fatal where
  | alloc_failed
  | assertion
  | bad_pointer
  | lseek_failed
  | read_error
  | short_read
deriving DecidableEq, Repr

/-- The process state buf.c works on: the allocated buffers, the allocator,
the static `buftail` queue with the static `buftailinitted` of `getblk`, and
the contents of the files behind the descriptors. -/
structure State where
  heap : Nat → Option buf
  next : Nat
  buftail : List Nat
  buftailinitted : Bool
  disk : Int → List Nat

/-- Process start: nothing allocated, `buftail` zero-initialised. Address 0
is `NULL` and is never handed out. -/
def State.init (disk : Int → List Nat) : State :=
  { heap := fun _ => none, next := 1, buftail := [], buftailinitted := false, disk := disk }

/-- Store through a buffer pointer. -/
def heap_set (h : Nat → Option buf) (p : Nat) (v : Option buf) : Nat → Option buf :=
  fun q => if q = p then v else h q

/-- Contents of memory that was allocated and not yet written. -/
def junk : Nat := 165

/-- Modelled from the spec: `erealloc` of libutil (not under src/), "Fails only
on allocation failure, which is fatal to the process". It returns a block of
`size` bytes that keeps the old bytes up to the smaller of the two sizes; the
rest is uninitialised. An `int` size below zero converts to a `size_t` no
allocator can satisfy. `getblk` asks for zero bytes only with `old = NULL`,
where `realloc` is `malloc(0)`, which returns a non-NULL block. -/
def erealloc (old : Option (List Nat)) (size : Int) : Except Fatal (List Nat) :=
  if size < 0 then .error .alloc_failed
  else
    let o := (old.getD []).take size.toNat
    .ok (o ++ List.replicate (size.toNat - o.length) junk)

/-- `memset(n, c, len)` on a block `n`. -/
def memset (n : List Nat) (c : Nat) (len : Int) : List Nat :=
  List.replicate (min len.toNat n.length) c ++ n.drop len.toNat

/-- `ecalloc(1, sizeof(struct buf))`: an all-zero `struct buf`. -/
def buf_zero : buf :=
  { b_lblkno := 0, b_blkno := 0, b_bcount := 0, b_bufsize := 0, b_data := none,
    b_fs := { fd := 0, sectorsize := 0, offset := 0 }, b_vp := none,
    b_is_hammer2 := false, b_loffset := 0, b_cmd := 0 }

/-- The `TAILQ_FOREACH` of `getblk`: the first queue entry whose `b_lblkno` is
`blkno`, `none` (`bp == NULL`) when the loop runs off the end. -/
def getblk_lookup (heap : Nat → Option buf) (blkno : Int) : List Nat → Except Fatal (Option Nat)
  | [] => .ok none
  | q :: rest =>
    match heap q with
    | none => .error .bad_pointer
    | some b => if b.b_lblkno ≠ blkno then getblk_lookup heap blkno rest else .ok (some q)

/-- Lines 209-227 of `getblk`: the lookup, skipped for a `v_logical` vnode,
replaced by `TAILQ_INIT` on the first call that gets here. -/
def getblk_find (s : State) (vp : vnode) (blkno : Int) : Except Fatal (Option Nat × State) :=
  if vp.v_logical then .ok (none, s)
  else if !s.buftailinitted then
    .ok (none, { s with buftail := [], buftailinitted := true })
  else
    match getblk_lookup s.heap blkno s.buftail with
    | .error e => .error e
    | .ok r => .ok (r, s)

/-- Lines 229-239 of `getblk`: allocate and fill in a new `struct buf` when
`bp == NULL`, queue it at the head unless the vnode is `v_logical`. -/
def getblk_new (s : State) (vp : vnode) (blkno : Int) : Option Nat → Nat × State
  | some bp => (bp, s)
  | none =>
    let bp := s.next
    let b : buf := { buf_zero with
      b_bufsize := 0, b_blkno := blkno, b_lblkno := blkno, b_fs := vp.fs,
      b_data := none, b_vp := some vp }
    (bp, { s with
      heap := heap_set s.heap bp (some b),
      next := s.next + 1,
      buftail := if !vp.v_logical then bp :: s.buftail else s.buftail })

/-- Lines 240-246 of `getblk`: set `b_bcount`, and reallocate and clear the
data when there is none or it is too small. -/
def getblk_size (s : State) (bp : Nat) (size : Int) : Except Fatal State :=
  match s.heap bp with
  | none => .error .bad_pointer
  | some b0 =>
    let b := { b0 with b_bcount := size }
    if b.b_data = none ∨ b.b_bcount > b.b_bufsize then
      match erealloc b.b_data size with
      | .error e => .error e
      | .ok n =>
        let n := memset n 0 size
        .ok { s with heap := heap_set s.heap bp (some { b with b_data := some n, b_bufsize := size }) }
    else
      .ok { s with heap := heap_set s.heap bp (some b) }

/-- `getblk(vp, blkno, size, 0, 0, 0)`: the returned pointer and the state. -/
def getblk (s : State) (vp : vnode) (blkno : Int) (size : Int) : Except Fatal (Nat × State) :=
  match getblk_find s vp blkno with
  | .error e => .error e
  | .ok (r, s1) =>
    match getblk_new s1 vp blkno r with
    | (bp, s2) =>
      match getblk_size s2 bp size with
      | .error e => .error e
      | .ok s3 => .ok (bp, s3)

/-- `brelse(bp)`. The two leading asserts need a valid `bp` with data; a
buffer with a negative `b_lblkno` only has `b_bcount` cleared; any other is
taken off `buftail` (`TAILQ_REMOVE`) unless its vnode is `v_logical`, and
freed together with its data. -/
def brelse (s : State) (bp : Nat) : Except Fatal State :=
  match s.heap bp with
  | none => .error .bad_pointer
  | some b =>
    if b.b_data = none then .error .assertion
    else if b.b_lblkno < 0 then
      .ok { s with heap := heap_set s.heap bp (some { b with b_bcount := 0 }) }
    else
      match b.b_vp with
      | none => .error .assertion
      | some vp =>
        .ok { s with
          buftail := if !vp.v_logical then s.buftail.erase bp else s.buftail,
          heap := heap_set s.heap bp none }

/-- An `errno` value set by a failed system call: never zero. -/
abbrev errno_t := { e : Int // 0 < e }

/-- The `errno` constants used below (sys/errno.h). -/
def EFAULT : errno_t := ⟨14, by decide⟩

/-- See `EFAULT`. -/
def EINVAL : errno_t := ⟨22, by decide⟩

/-- See `EFAULT`. -/
def EAGAIN : errno_t := ⟨35, by decide⟩

/-- What the operating system does to the `lseek` and to the `read` or `write`
of one call of `bread` or `bwrite`: fail either with an `errno`, or stop the
transfer after `rw_limit` bytes. -/
structure sys_outcome where
  lseek_errno : Option errno_t
  rw_errno : Option errno_t
  rw_limit : Option Nat
deriving DecidableEq

/-- The system calls all succeed and transfer all they can. -/
def sys_fine : sys_outcome := { lseek_errno := none, rw_errno := none, rw_limit := none }

/-- Result of a `read` or `write`: the return value, `errno` when that is -1,
the memory block and the file contents afterwards. -/
structure rw_result where
  rv : Int
  errno : errno_t
  data : Option (List Nat)
  file : List Nat

/-- Modelled from the spec: `lseek(fd, offset, SEEK_SET)` of the kernel (not
under src/), "absolute-offset seek". The result is the `errno` when the call
returns -1: a negative offset is invalid, any offset from 0 on is accepted
unless the system fails the call. -/
def sys_lseek (env : sys_outcome) (offset : Int) : Option errno_t :=
  if offset < 0 then some EINVAL else env.lseek_errno

/-- Truncate a transfer at the limit the system imposes on it. -/
def sys_cap (env : sys_outcome) (bytes : List Nat) : List Nat :=
  match env.rw_limit with
  | some k => bytes.take k
  | none => bytes

/-- Modelled from the spec: `read(fd, data, count)` of the kernel (not under
src/), "blocking read", at file position `offset`: the bytes of the file from
`offset` on, at most `count` of them, land at the start of `data`. A count that
was negative as a `long`, or that exceeds the block, is rejected. -/
def sys_read (env : sys_outcome) (file : List Nat) (offset : Int) (data : Option (List Nat))
    (count : Int) : rw_result :=
  match env.rw_errno with
  | some e => { rv := -1, errno := e, data := data, file := file }
  | none =>
    if count < 0 then { rv := -1, errno := EINVAL, data := data, file := file }
    else if (data.getD []).length < count.toNat then
      { rv := -1, errno := EFAULT, data := data, file := file }
    else
      let got := sys_cap env ((file.drop offset.toNat).take count.toNat)
      { rv := got.length, errno := EINVAL,
        data := data.map (fun d => got ++ d.drop got.length), file := file }

/-- Modelled from the spec: `write(fd, data, count)` of the kernel (not under
src/), "blocking write", at file position `offset`: the first `count` bytes of
`data`, or fewer, replace the bytes of the file from `offset` on; a hole before
`offset` reads as zeros. -/
def sys_write (env : sys_outcome) (file : List Nat) (offset : Int) (data : Option (List Nat))
    (count : Int) : rw_result :=
  match env.rw_errno with
  | some e => { rv := -1, errno := e, data := data, file := file }
  | none =>
    if count < 0 then { rv := -1, errno := EINVAL, data := data, file := file }
    else if (data.getD []).length < count.toNat then
      { rv := -1, errno := EFAULT, data := data, file := file }
    else
      let sent := sys_cap env ((data.getD []).take count.toNat)
      let off := offset.toNat
      { rv := sent.length, errno := EINVAL, data := data,
        file := if sent = [] then file
          else (file ++ List.replicate (off - file.length) 0).take off ++ sent
            ++ file.drop (off + sent.length) }

/-- A value as an `off_t`, a 64-bit signed integer in two's complement: the
result lies in `[-2^63, 2^63)` and differs from `x` by a multiple of `2^64`. -/
def to_off_t (x : Int) : Int :=
  (x + 9223372036854775808) % 18446744073709551616 - 9223372036854775808

/-- The expression `(off_t)b_blkno * fs->sectorsize + fs->offset` of lines 72
and 134, each operation carried out in `off_t`. -/
def byte_offset (b_blkno : Int) (fs : fsinfo_t) : Int :=
  to_off_t (to_off_t (to_off_t b_blkno * fs.sectorsize) + fs.offset)

/-- Lines 71-91 of `bread`, after the assertion: the return value, `*bpp` and
the state; every failure is an `err(1, ...)`. -/
def bread_read (env : sys_outcome) (s : State) (vp : vnode) (blkno : Int) (size : Int) :
    Except Fatal (Int × Nat × State) :=
  let fs := vp.fs
  match getblk s vp blkno size with
  | .error e => .error e
  | .ok (bpp, s1) =>
    match s1.heap bpp with
    | none => .error .bad_pointer
    | some b =>
      let offset := byte_offset b.b_blkno fs
      match sys_lseek env offset with
      | some _ => .error .lseek_failed
      | none =>
        let r := sys_read env (s1.disk b.b_fs.fd) offset b.b_data b.b_bcount
        if r.rv = -1 then .error .read_error
        else if r.rv ≠ b.b_bcount then .error .short_read
        else
          .ok (0, bpp,
            { s1 with heap := heap_set s1.heap bpp (some { b with b_data := r.data }) })

/-- `bread(vp, blkno, size, NULL, bpp)`. The argument `bpp` is the address of
the caller's `struct buf *` variable, `none` for `NULL`, on which
`assert(bpp != NULL)` of line 66 ends the process; the pointer the call stores
in `*bpp` is returned with the return value and the state. -/
def bread (env : sys_outcome) (s : State) (vp : vnode) (blkno : Int) (size : Int)
    (bpp : Option Nat) : Except Fatal (Int × Nat × State) :=
  match bpp with
  | none => .error .assertion
  | some _ => bread_read env s vp blkno size

/-- `bwrite_impl(bp)`: the returned error code and the state. -/
def bwrite_impl (env : sys_outcome) (s : State) (bp : Nat) : Except Fatal (Int × State) :=
  match s.heap bp with
  | none => .error .bad_pointer
  | some b =>
    let fs := b.b_fs
    let offset := byte_offset b.b_blkno fs
    match sys_lseek env offset with
    | some errno => .ok (errno.val, s)
    | none =>
      let r := sys_write env (s.disk b.b_fs.fd) offset b.b_data b.b_bcount
      let s1 := { s with disk := fun fd => if fd = b.b_fs.fd then r.file else s.disk fd }
      if r.rv = b.b_bcount then .ok (0, s1)
      else if r.rv = -1 then .ok (r.errno.val, s1)
      else .ok (EAGAIN.val, s1)

/-- `bwrite(bp)`: `bwrite_impl`, then `brelse` when `b_is_hammer2` is set. -/
def bwrite (env : sys_outcome) (s : State) (bp : Nat) : Except Fatal (Int × State) :=
  match bwrite_impl env s bp with
  | .error e => .error e
  | .ok (error, s1) =>
    match s1.heap bp with
    | none => .error .bad_pointer
    | some b =>
      if b.b_is_hammer2 then
        match brelse s1 bp with
        | .error e => .error e
        | .ok s2 => .ok (error, s2)
      else .ok (error, s1)

/-- One line of the `bcleanup` listing. -/
structure cleanup_line where
  bp : Nat
  lblkno : Int
  blkno : Int
  count : Int
  bufsize : Int
  loffset : Int
  cmd : Int
  vp : Option vnode
  logical : Int
deriving DecidableEq, Repr

/-- What `bcleanup` prints: "clean", or the heading and one line per buffer. -/
inductive cleanup_report where
  | clean
  | unflushed (lines : List cleanup_line)
deriving DecidableEq, Repr

/-- The line `bcleanup` prints for the buffer at `bp`. -/
def bcleanup_line (bp : Nat) (b : buf) : cleanup_line :=
  { bp := bp, lblkno := b.b_lblkno, blkno := b.b_blkno, count := b.b_bcount,
    bufsize := b.b_bufsize, loffset := b.b_loffset, cmd := b.b_cmd, vp := b.b_vp,
    logical := match b.b_vp with
      | some vp => if vp.v_logical then 1 else 0
      | none => -1 }

/-- The `TAILQ_FOREACH` of `bcleanup`: print each buffer, assert that its
vnode, when it has one, is not `v_logical`. -/
def bcleanup_loop (heap : Nat → Option buf) : List Nat → Except Fatal (List cleanup_line)
  | [] => .ok []
  | bp :: rest =>
    match heap bp with
    | none => .error .bad_pointer
    | some b =>
      if (match b.b_vp with
          | some vp => vp.v_logical
          | none => false) then .error .assertion
      else
        match bcleanup_loop heap rest with
        | .error e => .error e
        | .ok ls => .ok (bcleanup_line bp b :: ls)

/-- `bcleanup()`: it has no effect on the state. -/
def bcleanup (s : State) : Except Fatal cleanup_report :=
  if s.buftail.isEmpty then .ok .clean
  else
    match bcleanup_loop s.heap s.buftail with
    | .error e => .error e
    | .ok ls => .ok (.unflushed ls)

/-- What the callers of buf.c do to a buffer they hold between calls: fill
the data block in place (within its allocation), assign the physical block
number `b_blkno`, set `b_is_hammer2`. They leave `b_lblkno`, `b_vp`, `b_fs`,
`b_bcount` and `b_bufsize` alone. -/
def caller_store (s : State) (bp : Nat) (blkno : Int) (is_hammer2 : Bool) (bytes : List Nat) :
    Except Fatal State :=
  match s.heap bp with
  | none => .error .bad_pointer
  | some b =>
    .ok { s with heap := heap_set s.heap bp (some { b with
      b_blkno := blkno, b_is_hammer2 := is_hammer2,
      b_data := b.b_data.map (fun d => (bytes ++ d.drop bytes.length).take d.length) }) }

/-- The calls a client of buf.c makes. -/
inductive Op where
  | getblk (vp : vnode) (blkno : Int) (size : Int)
  | bread (env : sys_outcome) (vp : vnode) (blkno : Int) (size : Int) (bpp : Option Nat)
  | bwrite (env : sys_outcome) (bp : Nat)
  | brelse (bp : Nat)
  | store (bp : Nat) (blkno : Int) (is_hammer2 : Bool) (bytes : List Nat)

/-- The state after one call that returns. -/
def step (s : State) : Op → Except Fatal State
  | .getblk vp blkno size => (getblk s vp blkno size).map Prod.snd
  | .bread env vp blkno size bpp => (bread env s vp blkno size bpp).map (fun r => r.2.2)
  | .bwrite env bp => (bwrite env s bp).map Prod.snd
  | .brelse bp => brelse s bp
  | .store bp blkno h2 bytes => caller_store s bp blkno h2 bytes

/-- The states a run of the program can be in: those reached from process
start by calls that return. -/
inductive Reachable : State → Prop where
  | start (disk : Int → List Nat) : Reachable (State.init disk)
  | call {s s1 : State} (op : Op) : Reachable s → step s op = .ok s1 → Reachable s1

/-- The `b_lblkno` of the queued buffers, head first. -/
def registry_lblknos (s : State) : List Int :=
  s.buftail.filterMap (fun p => (s.heap p).map (fun b => b.b_lblkno))

/-- The (volume, block) pairs of the queued buffers, head first. -/
def registry_keys (s : State) : List (Option vnode × Int) :=
  s.buftail.filterMap (fun p => (s.heap p).map (fun b => (b.b_vp, b.b_lblkno)))

/-! ## Auxiliary definitions for the statements -/

/-- The `b_lblkno` found through a pointer, `none` when nothing is mapped there. -/
def lblkno_at (heap : Nat → Option buf) (p : Nat) : Option Int :=
  (heap p).map (fun b => b.b_lblkno)

/-- A block of `size` zero bytes. -/
def zeros (size : Int) : List Nat := List.replicate size.toNat 0

/-- Consistency of the queue with the heap: every allocated buffer has data,
a vnode and a capacity that is not negative; every queued pointer is mapped, has data and a vnode that is not
`v_logical`; nothing is mapped at or above the allocator mark; the queued
`b_lblkno` are pairwise distinct; and the queue is empty as long as `getblk`
has not initialised it. -/
structure Inv (s : State) : Prop where
  alloc : ∀ p b, s.heap p = some b → b.b_data ≠ none ∧ ∃ vp, b.b_vp = some vp
  cap : ∀ p b, s.heap p = some b → 0 ≤ b.b_bufsize
  live : ∀ p ∈ s.buftail, ∃ b vp, s.heap p = some b ∧ b.b_data ≠ none ∧
    b.b_vp = some vp ∧ vp.v_logical = false
  bound : ∀ p, s.next ≤ p → s.heap p = none
  uniq : (s.buftail.map (lblkno_at s.heap)).Nodup
  initted : s.buftailinitted = false → s.buftail = []

/-- The buffer `getblk` leaves behind when it has created one. -/
def new_buf (vp : vnode) (blkno : Int) (size : Int) : buf :=
  { buf_zero with
    b_lblkno := blkno, b_blkno := blkno, b_bcount := size, b_bufsize := size,
    b_data := some (zeros size), b_fs := vp.fs, b_vp := some vp }

/-- The state `getblk` leaves behind when it has created a buffer. -/
def fresh_state (s : State) (vp : vnode) (blkno : Int) (size : Int) : State :=
  { heap := heap_set s.heap s.next (some (new_buf vp blkno size)),
    next := s.next + 1,
    buftail := if vp.v_logical then s.buftail else s.next :: s.buftail,
    buftailinitted := if vp.v_logical then s.buftailinitted else true,
    disk := s.disk }

/-- The buffer `getblk` leaves behind when it has found `b` in the queue. -/
def resized (b : buf) (size : Int) : buf :=
  if b.b_data = none ∨ size > b.b_bufsize then
    { b with b_bcount := size, b_data := some (zeros size), b_bufsize := size }
  else { b with b_bcount := size }

/-- A run of calls, stopped by the first one that does not return. -/
def run (s : State) : List Op → Except Fatal State
  | [] => .ok s
  | op :: ops =>
    match step s op with
    | .error e => .error e
    | .ok s1 => run s1 ops

/-- The state after a run of calls (the starting state if one of them does
not return). -/
def after (s : State) (ops : List Op) : State :=
  match run s ops with
  | .ok s1 => s1
  | .error _ => s

/-- Successive `getblk` calls for one (volume, block) pair with the given
sizes: the pointers returned, in call order, and the final state. -/
def getblk_seq (s : State) (vp : vnode) (blkno : Int) : List Int → Except Fatal (List Nat × State)
  | [] => .ok ([], s)
  | size :: rest =>
    match getblk s vp blkno size with
    | .error e => .error e
    | .ok (p, s1) =>
      match getblk_seq s1 vp blkno rest with
      | .error e => .error e
      | .ok (ps, s2) => .ok (p :: ps, s2)

/-- The calls that, made in state `s`, run `brelse` on the buffer at `p`:
`brelse(p)` itself, and `bwrite(p)` when `b_is_hammer2` is set. -/
def releases (s : State) (p : Nat) : Op → Bool
  | .brelse q => decide (q = p)
  | .bwrite _ q =>
    decide (q = p) &&
      (match s.heap p with
       | some b => b.b_is_hammer2
       | none => true)
  | _ => false

/-- No call of the run runs `brelse` on the buffer at `p`. -/
def unreleased (p : Nat) (s : State) : List Op → Bool
  | [] => true
  | op :: ops =>
    !releases s p op &&
      (match step s op with
       | .ok s1 => unreleased p s1 ops
       | .error _ => true)

/-- The buffer at `p` is queued and carries the block number `blkno`. -/
def queued_as (s : State) (p : Nat) (blkno : Int) : Prop :=
  p ∈ s.buftail ∧ ∃ b, s.heap p = some b ∧ b.b_lblkno = blkno

/-! ## Concrete volumes and states -/

/-- A disk with no data behind any descriptor. -/
def disk0 : Int → List Nat := fun _ => []

/-- A cached volume. -/
def volA : vnode :=
  { fs := { fd := 3, sectorsize := 512, offset := 0 }, v_data := 1, v_type := 1,
    v_logical := false, v_vflushed := false }

/-- A second cached volume, on another image. -/
def volB : vnode :=
  { fs := { fd := 4, sectorsize := 2048, offset := 65536 }, v_data := 2, v_type := 1,
    v_logical := false, v_vflushed := false }

/-- A volume that is not cached. -/
def volL : vnode :=
  { fs := { fd := 3, sectorsize := 512, offset := 0 }, v_data := 3, v_type := 1,
    v_logical := true, v_vflushed := false }

/-- Blocks 5 and 9 of `volA` acquired: buffer 1 holds block 5, buffer 2 block 9. -/
def st_two : State :=
  after (State.init disk0) [.getblk volA 5 4, .getblk volA 9 2]

/-- Block 5 acquired for `volB` only. -/
def st_volB : State :=
  after (State.init disk0) [.getblk volB 5 4]

/-- Block 7 of `volA` acquired with 4 bytes and filled with ones by the caller. -/
def st_ones4 : State :=
  after (State.init disk0) [.getblk volA 7 4, .store 1 7 false [1, 1, 1, 1]]

/-- Block 7 of `volA` acquired with 2 bytes and filled with ones by the caller. -/
def st_ones2 : State :=
  after (State.init disk0) [.getblk volA 7 2, .store 1 7 false [1, 1]]

/-- Placeholder block -1 of `volA` acquired, given the physical block 100 and
data by the caller. -/
def st_placeholder : State :=
  after (State.init disk0) [.getblk volA (-1) 4, .store 1 100 false [9, 8, 7, 6]]

/-- Block 3 of the non-cached `volL` acquired next to two blocks of `volA`. -/
def st_loose : State :=
  after (State.init disk0) [.getblk volA 5 4, .getblk volL 3 4, .getblk volA 9 2]

/-- Placeholder block -1 of the non-cached `volL` acquired. -/
def st_loose_neg : State :=
  after (State.init disk0) [.getblk volL (-1) 4]

/-- What a caller sees of a `getblk` return: the pointer, the queue, and the
buffer behind the pointer. -/
def returned (r : Except Fatal (Nat × State)) : Option (Nat × List Nat × Option buf) :=
  match r with
  | .error _ => none
  | .ok (p, s) => some (p, s.buftail, s.heap p)

/-- The buffer `b` after a caller's store. -/
def stored (b : buf) (blkno : Int) (is_hammer2 : Bool) (bytes : List Nat) : buf :=
  { b with
    b_blkno := blkno, b_is_hammer2 := is_hammer2,
    b_data := b.b_data.map (fun d => (bytes ++ d.drop bytes.length).take d.length) }

/-- What is left after a `brelse` that returns: the queue and what is
allocated at the pointer. -/
def released (r : Except Fatal State) (p : Nat) : Option (List Nat × Option buf) :=
  match r with
  | .error _ => none
  | .ok s => some (s.buftail, s.heap p)

/-- The buffer 1 of `st_ones4`. -/
def buf_ones4 : buf :=
  { buf_zero with
    b_lblkno := 7, b_blkno := 7, b_bcount := 4, b_bufsize := 4,
    b_data := some [1, 1, 1, 1], b_fs := volA.fs, b_vp := some volA }

/-- The buffer 1 of `st_placeholder`. -/
def buf_placeholder : buf :=
  { buf_zero with
    b_lblkno := -1, b_blkno := 100, b_bcount := 4, b_bufsize := 4,
    b_data := some [9, 8, 7, 6], b_fs := volA.fs, b_vp := some volA }

/-! ## Definitions for the size, capacity and storage statements -/

/-- The calls whose size argument is a byte count: every call but a `getblk`
with a size below zero. -/
def sized : Op → Bool
  | .getblk _ _ size => decide (0 ≤ size)
  | _ => true

/-- The states reached from process start by calls that return, every
`getblk` among them given a size from 0 up. -/
inductive ReachableSized : State → Prop where
  | start (disk : Int → List Nat) : ReachableSized (State.init disk)
  | call {s s1 : State} (op : Op) :
      ReachableSized s → sized op = true → step s op = .ok s1 → ReachableSized s1

/-- The size is within the capacity, the data block holds exactly `b_bufsize`
bytes, and `b_fs` is the `fs` of the vnode in `b_vp`. -/
def buf_shape (b : buf) : Prop :=
  b.b_bcount ≤ b.b_bufsize ∧
  (∃ d, b.b_data = some d ∧ (d.length : Int) = b.b_bufsize) ∧
  ∃ vp, b.b_vp = some vp ∧ b.b_fs = vp.fs

/-- What one call may do to a buffer that stays allocated: the block number,
the vnode and the `fs` stay, the capacity does not shrink, the shape is kept,
and the size stays at or above 0 when the call is `sz`. -/
def buf_step (sz : Prop) (b b1 : buf) : Prop :=
  b1.b_lblkno = b.b_lblkno ∧ b1.b_vp = b.b_vp ∧ b1.b_fs = b.b_fs ∧
  b.b_bufsize ≤ b1.b_bufsize ∧ (buf_shape b → buf_shape b1) ∧
  (sz → 0 ≤ b.b_bcount → 0 ≤ b1.b_bcount)

/-- What one call may do to an address: free it, change the buffer there by
`buf_step`, or allocate a buffer of the right shape there. -/
def heap_step (sz : Prop) : Option buf → Option buf → Prop
  | _, none => True
  | some b, some b1 => buf_step sz b b1
  | none, some b1 => buf_shape b1 ∧ 0 ≤ b1.b_bcount

/-- `bcleanup()` as a state transition: the listing, and the state it
leaves, which is the state it found, since the function assigns to no
variable and to no buffer and makes no system call but `printf`. -/
def bcleanup_call (s : State) : Except Fatal (cleanup_report × State) :=
  match bcleanup s with
  | .error e => .error e
  | .ok report => .ok (report, s)

/-- What a caller sees of a `bread` return: the return value, `*bpp`, and the
buffer behind it. -/
def bread_view (r : Except Fatal (Int × Nat × State)) : Option (Int × Nat × Option buf) :=
  match r with
  | .error _ => none
  | .ok (rc, p, s) => some (rc, p, s.heap p)

/-- What a caller sees of a `bwrite` return: the return value, the queue, and
what is allocated at the pointer. -/
def bwrite_view (r : Except Fatal (Int × State)) (p : Nat) :
    Option (Int × List Nat × Option buf) :=
  match r with
  | .error _ => none
  | .ok (e, s) => some (e, s.buftail, s.heap p)

/-- A disk with eight bytes behind descriptor 3 and eight behind descriptor 4. -/
def disk34 : Int → List Nat := fun fd =>
  if fd = 3 then [30, 31, 32, 33, 34, 35, 36, 37]
  else if fd = 4 then [40, 41, 42, 43, 44, 45, 46, 47]
  else []

/-- A cached volume on descriptor 3: two-byte sectors, image at byte 1. -/
def volC : vnode :=
  { fs := { fd := 3, sectorsize := 2, offset := 1 }, v_data := 4, v_type := 1,
    v_logical := false, v_vflushed := false }

/-- A cached volume on descriptor 4: two-byte sectors, image at byte 2. -/
def volD : vnode :=
  { fs := { fd := 4, sectorsize := 2, offset := 2 }, v_data := 5, v_type := 1,
    v_logical := false, v_vflushed := false }

/-- On `disk34`, block 1 acquired for `volD` only: buffer 1. -/
def st_volD : State :=
  after (State.init disk34) [.getblk volD 1 2]

/-- On `disk34`, block 1 of `volC` read: buffer 1 holds the bytes 33, 34. -/
def st_readC : State :=
  after (State.init disk34) [.bread sys_fine volC 1 2 (some 0)]

/-- On `disk34`, block 1 of `volC` acquired, filled with 7, 8 by the caller
and marked `b_is_hammer2`: buffer 1. -/
def st_hammer : State :=
  after (State.init disk34) [.getblk volC 1 2, .store 1 1 true [7, 8]]

/-- The way a `bread` call ended the process, if it did. -/
def bread_fatal (r : Except Fatal (Int × Nat × State)) : Option Fatal :=
  match r with
  | .error e => some e
  | .ok _ => none

/-- The system fails every `read` and `write` with `EIO` (5). -/
def sys_eio : sys_outcome := { sys_fine with rw_errno := some ⟨5, by decide⟩ }

/-- Block 7 of `volA` acquired with 4 bytes and acquired again, a hit, with
the size -1: buffer 1 keeps its four bytes and has `b_bcount = -1`. -/
def st_minus : State :=
  after (State.init disk0) [.getblk volA 7 4, .getblk volA 7 (-1)]

/-- The buffer 1 of `st_minus`. -/
def buf_minus : buf := { new_buf volA 7 4 with b_bcount := -1 }

/-- On `disk34`, block 2^62 of `volC` acquired: buffer 1, whose byte offset
2^62 * 2 + 1 does not fit in an `off_t`. -/
def st_far : State :=
  after (State.init disk34) [.getblk volC 4611686018427387904 2]

/-! ## Lemmas on the allocation and the queue lookup -/

/-- A `bread` that returns was given a `bpp` and ran lines 71-91. -/
theorem bread_returns {env : sys_outcome} {s : State} {vp : vnode} {blkno size : Int}
    {bpp : Option Nat} {r : Int × Nat × State}
    (h : bread env s vp blkno size bpp = .ok r) : bread_read env s vp blkno size = .ok r := by
  cases bpp with
  | none => simp [bread] at h
  | some a => exact h

/-- The byte offset is the 64-bit wrap of the exact product and sum. -/
theorem byte_offset_wrap (b_blkno : Int) (fs : fsinfo_t) :
    byte_offset b_blkno fs = to_off_t (b_blkno * fs.sectorsize + fs.offset) := by
  unfold byte_offset
  have key : ∀ a c : Int, to_off_t (to_off_t a + c) = to_off_t (a + c) := by
    intro a c
    unfold to_off_t
    omega
  rw [key]
  unfold to_off_t
  have h2 : (b_blkno + 9223372036854775808) % 18446744073709551616 - 9223372036854775808
      = b_blkno - 18446744073709551616
        * ((b_blkno + 9223372036854775808) / 18446744073709551616) := by omega
  have h1 : ((b_blkno + 9223372036854775808) % 18446744073709551616 - 9223372036854775808)
      * fs.sectorsize
      = b_blkno * fs.sectorsize
        - 18446744073709551616
          * (((b_blkno + 9223372036854775808) / 18446744073709551616) * fs.sectorsize) := by
    rw [h2]; ring
  rw [h1]
  generalize ((b_blkno + 9223372036854775808) / 18446744073709551616) * fs.sectorsize = k
  generalize b_blkno * fs.sectorsize = a
  omega

/-- A value that fits in 64 bits is its own `off_t`. -/
theorem to_off_t_exact (x : Int)
    (h : -9223372036854775808 ≤ x ∧ x < 9223372036854775808) : to_off_t x = x := by
  unfold to_off_t
  omega

/-- The byte offset is the exact product and sum whenever that fits in 64 bits. -/
theorem byte_offset_exact (b_blkno : Int) (fs : fsinfo_t)
    (h : -9223372036854775808 ≤ b_blkno * fs.sectorsize + fs.offset ∧
      b_blkno * fs.sectorsize + fs.offset < 9223372036854775808) :
    byte_offset b_blkno fs = b_blkno * fs.sectorsize + fs.offset := by
  rw [byte_offset_wrap]
  exact to_off_t_exact _ h


theorem heap_set_same (h : Nat → Option buf) (p : Nat) (v : Option buf) :
    heap_set h p v p = v := by
  simp [heap_set]

theorem heap_set_other (h : Nat → Option buf) (p q : Nat) (v : Option buf) (hq : q ≠ p) :
    heap_set h p v q = h q := by
  simp [heap_set, hq]

theorem heap_set_twice (h : Nat → Option buf) (p : Nat) (v w : Option buf) :
    heap_set (heap_set h p v) p w = heap_set h p w := by
  funext q
  by_cases hq : q = p <;> simp [heap_set, hq]

theorem erealloc_memset (old : Option (List Nat)) (size : Int) (h0 : 0 ≤ size) :
    ∃ n, erealloc old size = .ok n ∧ memset n 0 size = zeros size := by
  refine ⟨_, by simp only [erealloc, if_neg (not_lt.mpr h0)]; rfl, ?_⟩
  have hlen : (List.take size.toNat (old.getD []) ++
      List.replicate (size.toNat - (List.take size.toNat (old.getD [])).length) junk).length
        = size.toNat := by
    simp only [List.length_append, List.length_replicate, List.length_take]
    omega
  simp only [memset, zeros, hlen, min_self]
  rw [List.drop_of_length_le (le_of_eq hlen)]
  simp

theorem erealloc_neg (old : Option (List Nat)) (size : Int) (h0 : size < 0) :
    erealloc old size = .error .alloc_failed := by
  simp [erealloc, h0]

theorem getblk_size_eq (s : State) (bp : Nat) (size : Int) (b : buf)
    (hb : s.heap bp = some b) (h0 : 0 ≤ size ∨ (b.b_data ≠ none ∧ size ≤ b.b_bufsize)) :
    getblk_size s bp size = .ok { s with heap := heap_set s.heap bp (some (resized b size)) } := by
  unfold getblk_size resized
  simp only [hb]
  by_cases hg : b.b_data = none ∨ size > b.b_bufsize
  · have h0s : 0 ≤ size := by
      rcases h0 with h | ⟨h1, h2⟩
      · exact h
      · rcases hg with hg | hg
        · exact absurd hg h1
        · omega
    obtain ⟨n, hn, hm⟩ := erealloc_memset b.b_data size h0s
    simp only [if_pos hg, hn, hm]
  · simp only [if_neg hg]

theorem getblk_size_fail (s : State) (bp : Nat) (size : Int) (b : buf)
    (hb : s.heap bp = some b) (h0 : size < 0) (hg : b.b_data = none ∨ size > b.b_bufsize) :
    getblk_size s bp size = .error .alloc_failed := by
  unfold getblk_size
  simp only [hb, if_pos hg, erealloc_neg _ _ h0]

theorem getblk_lookup_miss (heap : Nat → Option buf) (blkno : Int) (l : List Nat)
    (hl : ∀ p ∈ l, ∃ b, heap p = some b)
    (hm : ∀ p ∈ l, lblkno_at heap p ≠ some blkno) :
    getblk_lookup heap blkno l = .ok none := by
  induction l with
  | nil => rfl
  | cons a t ih =>
    obtain ⟨b, hb⟩ := hl a (List.mem_cons_self a t)
    have hne : b.b_lblkno ≠ blkno := by
      have := hm a (List.mem_cons_self a t)
      simpa [lblkno_at, hb] using this
    simp only [getblk_lookup, hb, if_pos hne]
    exact ih (fun p hp => hl p (List.mem_cons_of_mem a hp))
      (fun p hp => hm p (List.mem_cons_of_mem a hp))

theorem getblk_lookup_hit (heap : Nat → Option buf) (blkno : Int) (q : Nat) (b : buf)
    (hq : heap q = some b) (hbl : b.b_lblkno = blkno) (l : List Nat)
    (hl : ∀ p ∈ l, ∃ b, heap p = some b)
    (hu : (l.map (lblkno_at heap)).Nodup) (hmem : q ∈ l) :
    getblk_lookup heap blkno l = .ok (some q) := by
  induction l with
  | nil => simp at hmem
  | cons a t ih =>
    obtain ⟨ba, hba⟩ := hl a (List.mem_cons_self a t)
    rw [List.map_cons, List.nodup_cons] at hu
    by_cases hne : ba.b_lblkno ≠ blkno
    · simp only [getblk_lookup, hba, if_pos hne]
      have hqa : q ≠ a := by
        rintro rfl
        rw [hq] at hba
        cases hba
        exact hne hbl
      rcases List.mem_cons.mp hmem with h | h
      · exact absurd h hqa
      · exact ih (fun p hp => hl p (List.mem_cons_of_mem a hp)) hu.2 h
    · simp only [getblk_lookup, hba, if_neg hne]
      rcases List.mem_cons.mp hmem with h | h
      · rw [h]
      · exfalso
        apply hu.1
        have hnn : ba.b_lblkno = blkno := not_not.mp hne
        have : lblkno_at heap a = lblkno_at heap q := by
          simp [lblkno_at, hba, hq, hnn, hbl]
        rw [this]
        exact List.mem_map_of_mem _ h

/-! ## What `getblk` returns -/

theorem getblk_alloc (s1 : State) (vp : vnode) (blkno : Int) (size : Int) (h0 : 0 ≤ size) :
    getblk_size (getblk_new s1 vp blkno none).2 (getblk_new s1 vp blkno none).1 size =
      .ok { heap := heap_set s1.heap s1.next (some (new_buf vp blkno size)),
            next := s1.next + 1,
            buftail := if vp.v_logical then s1.buftail else s1.next :: s1.buftail,
            buftailinitted := s1.buftailinitted,
            disk := s1.disk } := by
  simp only [getblk_new]
  rw [getblk_size_eq _ _ size _ (heap_set_same _ _ _) (Or.inl h0)]
  simp only [heap_set_twice]
  cases hv : vp.v_logical <;> simp [resized, new_buf, buf_zero]

theorem getblk_alloc_fail (s1 : State) (vp : vnode) (blkno : Int) (size : Int) (h0 : size < 0) :
    getblk_size (getblk_new s1 vp blkno none).2 (getblk_new s1 vp blkno none).1 size =
      .error .alloc_failed := by
  simp only [getblk_new]
  exact getblk_size_fail _ _ size _ (heap_set_same _ _ _) h0 (Or.inl rfl)

theorem getblk_logical (s : State) (vp : vnode) (blkno : Int) (size : Int)
    (hv : vp.v_logical = true) (h0 : 0 ≤ size) :
    getblk s vp blkno size = .ok (s.next, fresh_state s vp blkno size) := by
  have hf : getblk_find s vp blkno = .ok (none, s) := by simp [getblk_find, hv]
  have ha := getblk_alloc s vp blkno size h0
  simp only [getblk, hf]
  rw [ha]
  simp [getblk_new, fresh_state, hv]

theorem getblk_find_miss (s : State) (vp : vnode) (blkno : Int) (hinv : Inv s)
    (hv : vp.v_logical = false)
    (hm : ∀ p ∈ s.buftail, lblkno_at s.heap p ≠ some blkno) :
    getblk_find s vp blkno = .ok (none, { s with buftailinitted := true }) := by
  unfold getblk_find
  simp only [hv, Bool.false_eq_true, if_false]
  cases hi : s.buftailinitted
  · have he := hinv.initted hi
    simp [he]
  · have hl : ∀ p ∈ s.buftail, ∃ b, s.heap p = some b := by
      intro p hp
      obtain ⟨b, _, hb, _⟩ := hinv.live p hp
      exact ⟨b, hb⟩
    simp only [Bool.not_true, Bool.false_eq_true, if_false, getblk_lookup_miss _ _ _ hl hm]
    cases s
    simp_all

theorem getblk_miss (s : State) (vp : vnode) (blkno : Int) (size : Int) (hinv : Inv s)
    (hv : vp.v_logical = false)
    (hm : ∀ p ∈ s.buftail, lblkno_at s.heap p ≠ some blkno) (h0 : 0 ≤ size) :
    getblk s vp blkno size = .ok (s.next, fresh_state s vp blkno size) := by
  have ha := getblk_alloc { s with buftailinitted := true } vp blkno size h0
  simp only [getblk, getblk_find_miss s vp blkno hinv hv hm]
  rw [ha]
  simp [getblk_new, fresh_state, hv]

theorem getblk_miss_fail (s : State) (vp : vnode) (blkno : Int) (size : Int) (hinv : Inv s)
    (hv : vp.v_logical = false)
    (hm : ∀ p ∈ s.buftail, lblkno_at s.heap p ≠ some blkno) (h0 : size < 0) :
    getblk s vp blkno size = .error .alloc_failed := by
  have ha := getblk_alloc_fail { s with buftailinitted := true } vp blkno size h0
  simp only [getblk, getblk_find_miss s vp blkno hinv hv hm]
  rw [ha]

theorem getblk_logical_fail (s : State) (vp : vnode) (blkno : Int) (size : Int)
    (hv : vp.v_logical = true) (h0 : size < 0) :
    getblk s vp blkno size = .error .alloc_failed := by
  have hf : getblk_find s vp blkno = .ok (none, s) := by simp [getblk_find, hv]
  have ha := getblk_alloc_fail s vp blkno size h0
  simp only [getblk, hf]
  rw [ha]

theorem getblk_find_hit (s : State) (vp : vnode) (blkno : Int) (q : Nat) (b : buf)
    (hinv : Inv s) (hv : vp.v_logical = false) (hmem : q ∈ s.buftail)
    (hq : s.heap q = some b) (hbl : b.b_lblkno = blkno) :
    getblk_find s vp blkno = .ok (some q, s) := by
  unfold getblk_find
  simp only [hv, Bool.false_eq_true, if_false]
  cases hi : s.buftailinitted
  · have he := hinv.initted hi
    rw [he] at hmem
    simp at hmem
  · have hl : ∀ p ∈ s.buftail, ∃ b, s.heap p = some b := by
      intro p hp
      obtain ⟨b, _, hb, _⟩ := hinv.live p hp
      exact ⟨b, hb⟩
    simp only [Bool.not_true, Bool.false_eq_true, if_false,
      getblk_lookup_hit _ _ q b hq hbl _ hl hinv.uniq hmem]

theorem getblk_hit (s : State) (vp : vnode) (blkno : Int) (size : Int) (q : Nat) (b : buf)
    (hinv : Inv s) (hv : vp.v_logical = false) (hmem : q ∈ s.buftail)
    (hq : s.heap q = some b) (hbl : b.b_lblkno = blkno)
    (h0 : 0 ≤ size ∨ size ≤ b.b_bufsize) :
    getblk s vp blkno size =
      .ok (q, { s with heap := heap_set s.heap q (some (resized b size)) }) := by
  have hd : b.b_data ≠ none := by
    obtain ⟨b1, _, hb1, hd1, _⟩ := hinv.live q hmem
    rw [hq] at hb1
    cases hb1
    exact hd1
  have h1 : 0 ≤ size ∨ (b.b_data ≠ none ∧ size ≤ b.b_bufsize) := by
    rcases h0 with h | h
    · exact Or.inl h
    · exact Or.inr ⟨hd, h⟩
  simp only [getblk, getblk_find_hit s vp blkno q b hinv hv hmem hq hbl, getblk_new,
    getblk_size_eq s q size b hq h1]

theorem getblk_hit_fail (s : State) (vp : vnode) (blkno : Int) (size : Int) (q : Nat) (b : buf)
    (hinv : Inv s) (hv : vp.v_logical = false) (hmem : q ∈ s.buftail)
    (hq : s.heap q = some b) (hbl : b.b_lblkno = blkno)
    (h0 : size < 0) (hg : size > b.b_bufsize) :
    getblk s vp blkno size = .error .alloc_failed := by
  simp only [getblk, getblk_find_hit s vp blkno q b hinv hv hmem hq hbl, getblk_new,
    getblk_size_fail s q size b hq h0 (Or.inr hg)]

/-- Every return of `getblk` is one of the two shapes: a buffer was created,
or a queued one was found. -/
theorem getblk_cases (s : State) (vp : vnode) (blkno : Int) (size : Int) (p : Nat) (s3 : State)
    (hinv : Inv s) (h : getblk s vp blkno size = .ok (p, s3)) :
    (p = s.next ∧ s3 = fresh_state s vp blkno size ∧ 0 ≤ size ∧
      (vp.v_logical = true ∨ ∀ q ∈ s.buftail, lblkno_at s.heap q ≠ some blkno)) ∨
    (vp.v_logical = false ∧ p ∈ s.buftail ∧ ∃ b, s.heap p = some b ∧ b.b_lblkno = blkno ∧
      (0 ≤ size ∨ size ≤ b.b_bufsize) ∧
      s3 = { s with heap := heap_set s.heap p (some (resized b size)) }) := by
  cases hv : vp.v_logical
  · by_cases hm : ∀ q ∈ s.buftail, lblkno_at s.heap q ≠ some blkno
    · by_cases h0 : 0 ≤ size
      · rw [getblk_miss s vp blkno size hinv hv hm h0] at h
        simp only [Except.ok.injEq, Prod.mk.injEq] at h
        exact Or.inl ⟨h.1.symm, h.2.symm, h0, Or.inr hm⟩
      · rw [getblk_miss_fail s vp blkno size hinv hv hm (not_le.mp h0)] at h
        cases h
    · push_neg at hm
      obtain ⟨q, hmem, hql⟩ := hm
      obtain ⟨b, _, hb, _⟩ := hinv.live q hmem
      have hbl : b.b_lblkno = blkno := by simpa [lblkno_at, hb] using hql
      by_cases h0 : 0 ≤ size ∨ size ≤ b.b_bufsize
      · rw [getblk_hit s vp blkno size q b hinv hv hmem hb hbl h0] at h
        simp only [Except.ok.injEq, Prod.mk.injEq] at h
        obtain ⟨h1, h2⟩ := h
        subst h1
        exact Or.inr ⟨rfl, hmem, b, hb, hbl, h0, h2.symm⟩
      · push_neg at h0
        rw [getblk_hit_fail s vp blkno size q b hinv hv hmem hb hbl h0.1 h0.2] at h
        cases h
  · by_cases h0 : 0 ≤ size
    · rw [getblk_logical s vp blkno size hv h0] at h
      simp only [Except.ok.injEq, Prod.mk.injEq] at h
      exact Or.inl ⟨h.1.symm, h.2.symm, h0, Or.inl rfl⟩
    · rw [getblk_logical_fail s vp blkno size hv (not_le.mp h0)] at h
      cases h

/-! ## The invariant holds in every reachable state -/

theorem inv_init (disk : Int → List Nat) : Inv (State.init disk) := by
  refine ⟨?_, ?_, ?_, ?_, ?_, ?_⟩ <;> simp [State.init]

theorem lblkno_at_update (heap : Nat → Option buf) (p : Nat) (b b1 : buf)
    (hp : heap p = some b) (hl : b1.b_lblkno = b.b_lblkno) :
    lblkno_at (heap_set heap p (some b1)) = lblkno_at heap := by
  funext q
  by_cases hq : q = p
  · subst hq
    simp [lblkno_at, heap_set, hp, hl]
  · simp [lblkno_at, heap_set, hq]

theorem inv_update (s : State) (p : Nat) (b b1 : buf) (hinv : Inv s)
    (hp : s.heap p = some b) (hl : b1.b_lblkno = b.b_lblkno) (hvp : b1.b_vp = b.b_vp)
    (hd : b.b_data ≠ none → b1.b_data ≠ none) (hc : 0 ≤ b.b_bufsize → 0 ≤ b1.b_bufsize) :
    Inv { s with heap := heap_set s.heap p (some b1) } := by
  refine ⟨?_, ?_, ?_, ?_, ?_, ?_⟩
  · intro q bq hq
    replace hq : heap_set s.heap p (some b1) q = some bq := hq
    by_cases hqp : q = p
    · subst hqp
      rw [heap_set_same] at hq
      cases hq
      obtain ⟨h1, h2⟩ := hinv.alloc q b hp
      exact ⟨hd h1, by rw [hvp]; exact h2⟩
    · rw [heap_set_other _ _ _ _ hqp] at hq
      exact hinv.alloc q bq hq
  · intro q bq hq
    replace hq : heap_set s.heap p (some b1) q = some bq := hq
    by_cases hqp : q = p
    · subst hqp
      rw [heap_set_same] at hq
      cases hq
      exact hc (hinv.cap q b hp)
    · rw [heap_set_other _ _ _ _ hqp] at hq
      exact hinv.cap q bq hq
  · intro q hq
    obtain ⟨bq, vq, h1, h2, h3, h4⟩ := hinv.live q hq
    by_cases hqp : q = p
    · subst hqp
      rw [hp] at h1
      cases h1
      exact ⟨b1, vq, heap_set_same _ _ _, hd h2, hvp.trans h3, h4⟩
    · exact ⟨bq, vq, (heap_set_other _ _ _ _ hqp).trans h1, h2, h3, h4⟩
  · intro q hq
    have hn := hinv.bound q hq
    have hqp : q ≠ p := by
      rintro rfl
      rw [hp] at hn
      cases hn
    exact (heap_set_other _ _ _ _ hqp).trans hn
  · show (s.buftail.map (lblkno_at (heap_set s.heap p (some b1)))).Nodup
    rw [lblkno_at_update s.heap p b b1 hp hl]
    exact hinv.uniq
  · exact hinv.initted

theorem inv_disk (s : State) (d : Int → List Nat) (hinv : Inv s) : Inv { s with disk := d } :=
  ⟨hinv.alloc, hinv.cap, hinv.live, hinv.bound, hinv.uniq, hinv.initted⟩

theorem queued_below_next (s : State) (hinv : Inv s) (q : Nat) (hq : q ∈ s.buftail) :
    q < s.next := by
  by_contra hge
  obtain ⟨b, _, hb, _⟩ := hinv.live q hq
  rw [hinv.bound q (not_lt.mp hge)] at hb
  cases hb

theorem map_lblkno_fresh (s : State) (hinv : Inv s) (v : Option buf) :
    s.buftail.map (lblkno_at (heap_set s.heap s.next v)) = s.buftail.map (lblkno_at s.heap) := by
  apply List.map_congr_left
  intro q hq
  have hlt := queued_below_next s hinv q hq
  simp [lblkno_at, heap_set, Nat.ne_of_lt hlt]

theorem inv_fresh (s : State) (vp : vnode) (blkno : Int) (size : Int) (hinv : Inv s)
    (h0 : 0 ≤ size)
    (hm : vp.v_logical = true ∨ ∀ q ∈ s.buftail, lblkno_at s.heap q ≠ some blkno) :
    Inv (fresh_state s vp blkno size) := by
  have hold : ∀ q ∈ s.buftail, ∃ b vq, heap_set s.heap s.next (some (new_buf vp blkno size)) q
      = some b ∧ b.b_data ≠ none ∧ b.b_vp = some vq ∧ vq.v_logical = false := by
    intro q hq
    obtain ⟨bq, vq, h1, h2, h3, h4⟩ := hinv.live q hq
    have hlt := queued_below_next s hinv q hq
    exact ⟨bq, vq, (heap_set_other _ _ _ _ (Nat.ne_of_lt hlt)).trans h1, h2, h3, h4⟩
  have hbound : ∀ q, s.next + 1 ≤ q →
      heap_set s.heap s.next (some (new_buf vp blkno size)) q = none := by
    intro q hq
    have hne : q ≠ s.next := by omega
    exact (heap_set_other _ _ _ _ hne).trans (hinv.bound q (by omega))
  have halloc : ∀ q bq, heap_set s.heap s.next (some (new_buf vp blkno size)) q = some bq →
      bq.b_data ≠ none ∧ ∃ vq, bq.b_vp = some vq := by
    intro q bq hq
    by_cases hqp : q = s.next
    · subst hqp
      rw [heap_set_same] at hq
      cases hq
      exact ⟨by simp [new_buf], vp, rfl⟩
    · rw [heap_set_other _ _ _ _ hqp] at hq
      exact hinv.alloc q bq hq
  have hcap : ∀ q bq, heap_set s.heap s.next (some (new_buf vp blkno size)) q = some bq →
      0 ≤ bq.b_bufsize := by
    intro q bq hq
    by_cases hqp : q = s.next
    · subst hqp
      rw [heap_set_same] at hq
      cases hq
      exact h0
    · rw [heap_set_other _ _ _ _ hqp] at hq
      exact hinv.cap q bq hq
  cases hv : vp.v_logical
  · have hmiss : ∀ q ∈ s.buftail, lblkno_at s.heap q ≠ some blkno := by
      rcases hm with h | h
      · rw [hv] at h
        cases h
      · exact h
    refine ⟨halloc, hcap, ?_, ?_, ?_, ?_⟩
    · intro q hq
      simp only [fresh_state, hv, Bool.false_eq_true, if_false, List.mem_cons] at hq
      simp only [fresh_state]
      rcases hq with h | h
      · subst h
        exact ⟨new_buf vp blkno size, vp, heap_set_same _ _ _, by simp [new_buf], rfl, hv⟩
      · exact hold q h
    · simpa [fresh_state] using hbound
    · simp only [fresh_state, hv, Bool.false_eq_true, if_false, List.map_cons, List.nodup_cons]
      rw [map_lblkno_fresh s hinv]
      refine ⟨?_, hinv.uniq⟩
      intro hin
      obtain ⟨q, hq, hqe⟩ := List.mem_map.mp hin
      apply hmiss q hq
      rw [hqe]
      simp [lblkno_at, heap_set, new_buf]
    · intro h
      simp [fresh_state, hv] at h
  · refine ⟨halloc, hcap, ?_, ?_, ?_, ?_⟩
    · intro q hq
      simp only [fresh_state, hv, if_true] at hq
      simp only [fresh_state]
      exact hold q hq
    · simpa [fresh_state] using hbound
    · simp only [fresh_state, hv, if_true]
      rw [map_lblkno_fresh s hinv]
      exact hinv.uniq
    · intro h
      simp only [fresh_state, hv, if_true] at h ⊢
      exact hinv.initted h

theorem inv_free (s : State) (p : Nat) (hinv : Inv s) :
    Inv { s with buftail := s.buftail.erase p, heap := heap_set s.heap p none } := by
  have hnd : s.buftail.Nodup := List.Nodup.of_map _ hinv.uniq
  have hmem : ∀ q, q ∈ s.buftail.erase p → q ∈ s.buftail ∧ q ≠ p := by
    intro q hq
    have := (List.Nodup.mem_erase_iff hnd).mp hq
    exact ⟨this.2, this.1⟩
  refine ⟨?_, ?_, ?_, ?_, ?_, ?_⟩
  · intro q bq hq
    replace hq : heap_set s.heap p none q = some bq := hq
    by_cases hqp : q = p
    · subst hqp
      rw [heap_set_same] at hq
      cases hq
    · rw [heap_set_other _ _ _ _ hqp] at hq
      exact hinv.alloc q bq hq
  · intro q bq hq
    replace hq : heap_set s.heap p none q = some bq := hq
    by_cases hqp : q = p
    · subst hqp
      rw [heap_set_same] at hq
      cases hq
    · rw [heap_set_other _ _ _ _ hqp] at hq
      exact hinv.cap q bq hq
  · intro q hq
    obtain ⟨h1, h2⟩ := hmem q hq
    obtain ⟨bq, vq, h3, h4⟩ := hinv.live q h1
    exact ⟨bq, vq, (heap_set_other _ _ _ _ h2).trans h3, h4⟩
  · intro q hq
    by_cases hqp : q = p
    · subst hqp
      exact heap_set_same _ _ _
    · exact (heap_set_other _ _ _ _ hqp).trans (hinv.bound q hq)
  · show ((s.buftail.erase p).map (lblkno_at (heap_set s.heap p none))).Nodup
    have hc : (s.buftail.erase p).map (lblkno_at (heap_set s.heap p none)) =
        (s.buftail.erase p).map (lblkno_at s.heap) := by
      apply List.map_congr_left
      intro q hq
      simp [lblkno_at, heap_set, (hmem q hq).2]
    rw [hc]
    exact List.Nodup.sublist ((List.erase_sublist p s.buftail).map _) hinv.uniq
  · intro h
    show s.buftail.erase p = []
    rw [hinv.initted h]
    rfl

theorem inv_free_loose (s : State) (p : Nat) (hinv : Inv s) (hp : p ∉ s.buftail) :
    Inv { s with heap := heap_set s.heap p none } := by
  have h := inv_free s p hinv
  rw [List.erase_of_not_mem hp] at h
  exact h

theorem logical_not_queued (s : State) (hinv : Inv s) (p : Nat) (b : buf) (vp : vnode)
    (hp : s.heap p = some b) (hvp : b.b_vp = some vp) (hv : vp.v_logical = true) :
    p ∉ s.buftail := by
  intro hmem
  obtain ⟨b1, v1, h1, _, h3, h4⟩ := hinv.live p hmem
  rw [hp] at h1
  cases h1
  rw [hvp] at h3
  cases h3
  rw [hv] at h4
  cases h4

theorem inv_getblk (s : State) (vp : vnode) (blkno : Int) (size : Int) (p : Nat) (s1 : State)
    (hinv : Inv s) (h : getblk s vp blkno size = .ok (p, s1)) : Inv s1 := by
  rcases getblk_cases s vp blkno size p s1 hinv h with
    ⟨_, h2, h3, h4⟩ | ⟨_, hmem, b, hb, _, h5, h6⟩
  · rw [h2]
    exact inv_fresh s vp blkno size hinv h3 h4
  · rw [h6]
    apply inv_update s p b _ hinv hb
    · unfold resized
      split <;> rfl
    · unfold resized
      split <;> rfl
    · intro hd
      unfold resized
      split
      · simp
      · exact hd
    · intro hc
      unfold resized
      split
      · rename_i hg
        show 0 ≤ size
        rcases hg with hg | hg
        · exact absurd hg (hinv.alloc p b hb).1
        · rcases h5 with h5 | h5
          · exact h5
          · omega
      · exact hc

theorem inv_brelse (s : State) (bp : Nat) (s1 : State) (hinv : Inv s)
    (h : brelse s bp = .ok s1) : Inv s1 := by
  unfold brelse at h
  cases hb : s.heap bp with
  | none => simp [hb] at h
  | some b =>
    simp only [hb] at h
    by_cases hd : b.b_data = none
    · simp [hd] at h
    · simp only [if_neg hd] at h
      by_cases hn : b.b_lblkno < 0
      · simp only [if_pos hn, Except.ok.injEq] at h
        rw [← h]
        exact inv_update s bp b _ hinv hb rfl rfl (fun x => x) (fun x => x)
      · simp only [if_neg hn] at h
        cases hvp : b.b_vp with
        | none => simp [hvp] at h
        | some vp =>
          simp only [hvp, Except.ok.injEq] at h
          rw [← h]
          cases hv : vp.v_logical
          · simpa using inv_free s bp hinv
          · simpa using inv_free_loose s bp hinv (logical_not_queued s hinv bp b vp hb hvp hv)

theorem sys_read_data (env : sys_outcome) (file : List Nat) (offset : Int)
    (data : Option (List Nat)) (count : Int) (hd : data ≠ none) :
    (sys_read env file offset data count).data ≠ none := by
  unfold sys_read
  cases data with
  | none => exact absurd rfl hd
  | some d =>
    split
    · simp
    · split
      · simp
      · split <;> simp

theorem bwrite_impl_state (env : sys_outcome) (s : State) (bp : Nat) (e : Int) (s1 : State)
    (h : bwrite_impl env s bp = .ok (e, s1)) : ∃ d, s1 = { s with disk := d } := by
  unfold bwrite_impl at h
  cases hb : s.heap bp with
  | none => simp [hb] at h
  | some b =>
    simp only [hb] at h
    split at h
    · simp only [Except.ok.injEq, Prod.mk.injEq] at h
      exact ⟨s.disk, h.2.symm⟩
    · split at h
      · simp only [Except.ok.injEq, Prod.mk.injEq] at h
        exact ⟨_, h.2.symm⟩
      · split at h
        · simp only [Except.ok.injEq, Prod.mk.injEq] at h
          exact ⟨_, h.2.symm⟩
        · simp only [Except.ok.injEq, Prod.mk.injEq] at h
          exact ⟨_, h.2.symm⟩

theorem inv_bwrite (env : sys_outcome) (s : State) (bp : Nat) (e : Int) (s1 : State)
    (hinv : Inv s) (h : bwrite env s bp = .ok (e, s1)) : Inv s1 := by
  unfold bwrite at h
  cases hw : bwrite_impl env s bp with
  | error x => simp [hw] at h
  | ok r =>
    obtain ⟨e1, s2⟩ := r
    obtain ⟨d, hd⟩ := bwrite_impl_state env s bp e1 s2 hw
    have hi2 : Inv s2 := by
      rw [hd]
      exact inv_disk s d hinv
    simp only [hw] at h
    cases hb : s2.heap bp with
    | none => simp [hb] at h
    | some b =>
      simp only [hb] at h
      cases hh : b.b_is_hammer2
      · simp only [hh, Bool.false_eq_true, if_false, Except.ok.injEq, Prod.mk.injEq] at h
        rw [← h.2]
        exact hi2
      · simp only [hh, if_true] at h
        cases hr : brelse s2 bp with
        | error x => simp [hr] at h
        | ok s3 =>
          simp only [hr, Except.ok.injEq, Prod.mk.injEq] at h
          rw [← h.2]
          exact inv_brelse s2 bp s3 hi2 hr

theorem inv_bread (env : sys_outcome) (s : State) (vp : vnode) (blkno : Int) (size : Int)
    (r : Int × Nat × State) (hinv : Inv s) (h : bread_read env s vp blkno size = .ok r) :
    Inv r.2.2 := by
  unfold bread_read at h
  cases hg : getblk s vp blkno size with
  | error x => simp [hg] at h
  | ok g =>
    obtain ⟨bpp, s1⟩ := g
    have hi1 := inv_getblk s vp blkno size bpp s1 hinv hg
    simp only [hg] at h
    cases hb : s1.heap bpp with
    | none => simp [hb] at h
    | some b =>
      simp only [hb] at h
      split at h
      · cases h
      · split at h
        · cases h
        · split at h
          · cases h
          · simp only [Except.ok.injEq] at h
            rw [← h]
            exact inv_update s1 bpp b _ hi1 hb rfl rfl (sys_read_data _ _ _ _ _) (fun x => x)

theorem inv_caller_store (s : State) (bp : Nat) (blkno : Int) (h2 : Bool) (bytes : List Nat)
    (s1 : State) (hinv : Inv s) (h : caller_store s bp blkno h2 bytes = .ok s1) : Inv s1 := by
  unfold caller_store at h
  cases hb : s.heap bp with
  | none => simp [hb] at h
  | some b =>
    simp only [hb, Except.ok.injEq] at h
    rw [← h]
    refine inv_update s bp b _ hinv hb ?_ ?_ ?_ ?_
    · rfl
    · rfl
    · intro hd
      cases hdd : b.b_data with
      | none => exact absurd hdd hd
      | some d => simp
    · exact fun x => x

theorem inv_step (s : State) (op : Op) (s1 : State) (hinv : Inv s)
    (h : step s op = .ok s1) : Inv s1 := by
  cases op with
  | getblk vp blkno size =>
    simp only [step] at h
    cases hg : getblk s vp blkno size with
    | error x => simp [hg, Except.map] at h
    | ok g =>
      simp only [hg, Except.map, Except.ok.injEq] at h
      rw [← h]
      exact inv_getblk s vp blkno size g.1 g.2 hinv hg
  | bread env vp blkno size bpp =>
    simp only [step] at h
    cases hg : bread env s vp blkno size bpp with
    | error x => simp [hg, Except.map] at h
    | ok g =>
      simp only [hg, Except.map, Except.ok.injEq] at h
      rw [← h]
      exact inv_bread env s vp blkno size g hinv (bread_returns hg)
  | bwrite env bp =>
    simp only [step] at h
    cases hg : bwrite env s bp with
    | error x => simp [hg, Except.map] at h
    | ok g =>
      simp only [hg, Except.map, Except.ok.injEq] at h
      rw [← h]
      exact inv_bwrite env s bp g.1 g.2 hinv hg
  | brelse bp => exact inv_brelse s bp s1 hinv h
  | store bp blkno h2 bytes => exact inv_caller_store s bp blkno h2 bytes s1 hinv h

theorem inv_reachable (s : State) (hr : Reachable s) : Inv s := by
  induction hr with
  | start disk => exact inv_init disk
  | call op _ hstep ih => exact inv_step _ op _ ih hstep

theorem reachable_run (s : State) (ops : List Op) (s1 : State) (hr : Reachable s)
    (h : run s ops = .ok s1) : Reachable s1 := by
  induction ops generalizing s with
  | nil =>
    simp only [run, Except.ok.injEq] at h
    rw [← h]
    exact hr
  | cons op ops ih =>
    simp only [run] at h
    cases hs : step s op with
    | error e => simp [hs] at h
    | ok s2 =>
      simp only [hs] at h
      exact ih s2 (Reachable.call op hr hs) h

theorem reachable_after (s : State) (hr : Reachable s) (ops : List Op) :
    Reachable (after s ops) := by
  unfold after
  cases h : run s ops with
  | error e => exact hr
  | ok s1 => exact reachable_run s ops s1 hr h

/-! ## C1: the queued block numbers are pairwise distinct -/

theorem map_lblkno_registry (heap : Nat → Option buf) (l : List Nat)
    (hl : ∀ p ∈ l, ∃ b, heap p = some b) :
    l.map (lblkno_at heap) =
      (l.filterMap (fun p => (heap p).map (fun b => b.b_lblkno))).map some := by
  induction l with
  | nil => rfl
  | cons a t ih =>
    obtain ⟨b, hb⟩ := hl a (List.mem_cons_self a t)
    have iht := ih (fun p hp => hl p (List.mem_cons_of_mem a hp))
    simp only [List.map_cons, iht, List.filterMap_cons, hb, Option.map_some', lblkno_at]

theorem registry_keys_snd (heap : Nat → Option buf) (l : List Nat) :
    (l.filterMap (fun p => (heap p).map (fun b => (b.b_vp, b.b_lblkno)))).map Prod.snd =
      l.filterMap (fun p => (heap p).map (fun b => b.b_lblkno)) := by
  induction l with
  | nil => rfl
  | cons a t ih =>
    cases hb : heap a with
    | none =>
      simp only [List.filterMap_cons, hb, Option.map_none']
      exact ih
    | some b =>
      simp only [List.filterMap_cons, hb, Option.map_some', List.map_cons, ih]

theorem inv_registry_nodup (s : State) (hinv : Inv s) : (registry_lblknos s).Nodup := by
  have hl : ∀ p ∈ s.buftail, ∃ b, s.heap p = some b := by
    intro p hp
    obtain ⟨b, _, hb, _⟩ := hinv.live p hp
    exact ⟨b, hb⟩
  have h := hinv.uniq
  rw [map_lblkno_registry s.heap s.buftail hl] at h
  exact List.Nodup.of_map _ h

theorem inv_lblkno_inj (s : State) (hinv : Inv s) (p q : Nat) (bp bq : buf)
    (hp : p ∈ s.buftail) (hq : q ∈ s.buftail) (hbp : s.heap p = some bp)
    (hbq : s.heap q = some bq) (he : bp.b_lblkno = bq.b_lblkno) : p = q := by
  apply List.inj_on_of_nodup_map hinv.uniq hp hq
  simp [lblkno_at, hbp, hbq, he]

/-- C1. In every state reached from process start by `getblk`, `bread`,
`bwrite` and `brelse` calls (and callers writing data, `b_blkno` and
`b_is_hammer2`, never `b_lblkno`), the queue holds no pointer twice, every
queued pointer is an allocated buffer, two queued buffers with the same
`b_lblkno` are the same buffer, and so neither the list of queued block
numbers nor the list of queued (volume, block) pairs has a repetition. -/
theorem registry_unique (s : State) (hr : Reachable s) :
    s.buftail.Nodup ∧
    (∀ p ∈ s.buftail, ∃ b, s.heap p = some b) ∧
    (∀ p q bp bq, p ∈ s.buftail → q ∈ s.buftail → s.heap p = some bp → s.heap q = some bq →
      bp.b_lblkno = bq.b_lblkno → p = q) ∧
    (registry_lblknos s).Nodup ∧
    (registry_keys s).Nodup := by
  have hinv := inv_reachable s hr
  refine ⟨List.Nodup.of_map _ hinv.uniq, ?_, ?_, inv_registry_nodup s hinv, ?_⟩
  · intro p hp
    obtain ⟨b, _, hb, _⟩ := hinv.live p hp
    exact ⟨b, hb⟩
  · intro p q bp bq hp hq hbp hbq he
    exact inv_lblkno_inj s hinv p q bp bq hp hq hbp hbq he
  · apply List.Nodup.of_map Prod.snd
    unfold registry_keys
    rw [registry_keys_snd]
    exact inv_registry_nodup s hinv

/-- Witness of C1: after blocks 5 and 9 were acquired the queue is 2, 1 and
the queued block numbers 9, 5 are distinct. -/
theorem registry_unique_witness :
    Reachable st_two ∧ st_two.buftail = [2, 1] ∧ registry_lblknos st_two = [9, 5] ∧
      (registry_lblknos st_two).Nodup ∧ (registry_keys st_two).Nodup :=
  ⟨reachable_after _ (Reachable.start disk0) _, by decide, by decide,
    (registry_unique st_two (reachable_after _ (Reachable.start disk0) _)).2.2.2.1,
    (registry_unique st_two (reachable_after _ (Reachable.start disk0) _)).2.2.2.2⟩

/-! ## C2: a queued block is found again by every later `getblk` -/

theorem resized_lblkno (b : buf) (size : Int) : (resized b size).b_lblkno = b.b_lblkno := by
  unfold resized
  split <;> rfl

theorem getblk_seq_hits (vp : vnode) (blkno : Int) (hv : vp.v_logical = false)
    (sizes : List Int) (h0 : ∀ z ∈ sizes, 0 ≤ z) (s : State) (p : Nat) (b : buf)
    (hinv : Inv s) (hmem : p ∈ s.buftail) (hp : s.heap p = some b) (hbl : b.b_lblkno = blkno) :
    ∃ s1, getblk_seq s vp blkno sizes = .ok (List.replicate sizes.length p, s1) := by
  induction sizes generalizing s b with
  | nil => exact ⟨s, rfl⟩
  | cons z rest ih =>
    have hz : 0 ≤ z := h0 z (List.mem_cons_self z rest)
    have hg := getblk_hit s vp blkno z p b hinv hv hmem hp hbl (Or.inl hz)
    have hinv1 := inv_getblk s vp blkno z p _ hinv hg
    obtain ⟨s2, hs2⟩ := ih (fun y hy => h0 y (List.mem_cons_of_mem z hy))
      { s with heap := heap_set s.heap p (some (resized b z)) } (resized b z) hinv1 hmem
      (heap_set_same _ _ _) ((resized_lblkno b z).trans hbl)
    exact ⟨s2, by simp only [getblk_seq, hg, hs2, List.length_cons, List.replicate_succ]⟩

theorem queued_as_update (s : State) (p q : Nat) (blkno : Int) (bq b1 : buf)
    (hk : queued_as s p blkno) (hq : s.heap q = some bq) (hl : b1.b_lblkno = bq.b_lblkno) :
    queued_as { s with heap := heap_set s.heap q (some b1) } p blkno := by
  obtain ⟨hmem, b, hp, hbl⟩ := hk
  refine ⟨hmem, ?_⟩
  by_cases hpq : p = q
  · subst hpq
    rw [hp] at hq
    cases hq
    exact ⟨b1, heap_set_same _ _ _, hl.trans hbl⟩
  · exact ⟨b, (heap_set_other _ _ _ _ hpq).trans hp, hbl⟩

theorem queued_as_getblk (s : State) (hinv : Inv s) (p : Nat) (blkno : Int)
    (hk : queued_as s p blkno) (vp : vnode) (blkno2 size : Int) (q : Nat) (s1 : State)
    (h : getblk s vp blkno2 size = .ok (q, s1)) : queued_as s1 p blkno := by
  rcases getblk_cases s vp blkno2 size q s1 hinv h with ⟨_, h2, _, _⟩ | ⟨_, _, bq, hbq, _, _, h6⟩
  · obtain ⟨hmem, b, hp, hbl⟩ := hk
    have hne : p ≠ s.next := Nat.ne_of_lt (queued_below_next s hinv p hmem)
    rw [h2]
    refine ⟨?_, b, (heap_set_other _ _ _ _ hne).trans hp, hbl⟩
    show p ∈ (if vp.v_logical then s.buftail else s.next :: s.buftail)
    split
    · exact hmem
    · exact List.mem_cons_of_mem _ hmem
  · rw [h6]
    exact queued_as_update s p q blkno bq _ hk hbq (resized_lblkno bq size)

theorem queued_as_brelse (s : State) (p : Nat) (blkno : Int) (hk : queued_as s p blkno)
    (q : Nat) (hqp : q ≠ p) (s1 : State) (h : brelse s q = .ok s1) : queued_as s1 p blkno := by
  unfold brelse at h
  cases hb : s.heap q with
  | none => simp [hb] at h
  | some bq =>
    simp only [hb] at h
    by_cases hd : bq.b_data = none
    · simp [hd] at h
    · simp only [if_neg hd] at h
      by_cases hn : bq.b_lblkno < 0
      · simp only [if_pos hn, Except.ok.injEq] at h
        rw [← h]
        exact queued_as_update s p q blkno bq _ hk hb rfl
      · simp only [if_neg hn] at h
        cases hvp : bq.b_vp with
        | none => simp [hvp] at h
        | some vq =>
          simp only [hvp, Except.ok.injEq] at h
          rw [← h]
          obtain ⟨hmem, b, hp, hbl⟩ := hk
          refine ⟨?_, b, (heap_set_other _ _ _ _ (Ne.symm hqp)).trans hp, hbl⟩
          show p ∈ (if (!vq.v_logical) = true then s.buftail.erase q else s.buftail)
          split
          · exact (List.mem_erase_of_ne (Ne.symm hqp)).mpr hmem
          · exact hmem

theorem queued_as_step (s : State) (hinv : Inv s) (p : Nat) (blkno : Int)
    (hk : queued_as s p blkno) (op : Op) (hop : releases s p op = false) (s1 : State)
    (h : step s op = .ok s1) : queued_as s1 p blkno := by
  cases op with
  | getblk vp blkno2 size =>
    simp only [step] at h
    cases hg : getblk s vp blkno2 size with
    | error x => simp [hg, Except.map] at h
    | ok g =>
      simp only [hg, Except.map, Except.ok.injEq] at h
      rw [← h]
      exact queued_as_getblk s hinv p blkno hk vp blkno2 size g.1 g.2 hg
  | bread env vp blkno2 size bpp =>
    simp only [step] at h
    cases hr0 : bread env s vp blkno2 size bpp with
    | error x => simp [hr0, Except.map] at h
    | ok r =>
      simp only [hr0, Except.map, Except.ok.injEq] at h
      rw [← h]
      have hr := bread_returns hr0
      unfold bread_read at hr
      cases hg : getblk s vp blkno2 size with
      | error x => simp [hg] at hr
      | ok g =>
        obtain ⟨bpp, s2⟩ := g
        have hk2 := queued_as_getblk s hinv p blkno hk vp blkno2 size bpp s2 hg
        simp only [hg] at hr
        cases hb : s2.heap bpp with
        | none => simp [hb] at hr
        | some b =>
          simp only [hb] at hr
          split at hr
          · cases hr
          · split at hr
            · cases hr
            · split at hr
              · cases hr
              · simp only [Except.ok.injEq] at hr
                rw [← hr]
                exact queued_as_update s2 p bpp blkno b _ hk2 hb rfl
  | bwrite env q =>
    obtain ⟨hmemp, bp0, hbp0, hblp0⟩ := hk
    have hk : queued_as s p blkno := ⟨hmemp, bp0, hbp0, hblp0⟩
    have hqp : q ≠ p ∨ bp0.b_is_hammer2 = false := by
      simp only [releases, hbp0, Bool.and_eq_false_imp, decide_eq_true_eq] at hop
      by_cases hq : q = p
      · exact Or.inr (hop hq)
      · exact Or.inl hq
    simp only [step] at h
    cases hw : bwrite env s q with
    | error x => simp [hw, Except.map] at h
    | ok r =>
      simp only [hw, Except.map, Except.ok.injEq] at h
      rw [← h]
      unfold bwrite at hw
      cases hi : bwrite_impl env s q with
      | error x => simp [hi] at hw
      | ok g =>
        obtain ⟨e1, s2⟩ := g
        obtain ⟨d, hd⟩ := bwrite_impl_state env s q e1 s2 hi
        have hk2 : queued_as s2 p blkno := by
          rw [hd]
          exact hk
        simp only [hi] at hw
        cases hb : s2.heap q with
        | none => simp [hb] at hw
        | some b =>
          simp only [hb] at hw
          cases hh : b.b_is_hammer2
          · simp only [hh, Bool.false_eq_true, if_false, Except.ok.injEq] at hw
            rw [← hw]
            exact hk2
          · simp only [hh, if_true] at hw
            have hqp2 : q ≠ p := by
              rcases hqp with hqp | hqp
              · exact hqp
              · rintro rfl
                have hb2 : s2.heap q = some bp0 := by
                  rw [hd]
                  exact hbp0
                rw [hb] at hb2
                cases hb2
                rw [hh] at hqp
                cases hqp
            cases hrl : brelse s2 q with
            | error x => simp [hrl] at hw
            | ok s3 =>
              simp only [hrl, Except.ok.injEq] at hw
              rw [← hw]
              exact queued_as_brelse s2 p blkno hk2 q hqp2 s3 hrl
  | brelse q =>
    have hqp : q ≠ p := by simpa [releases] using hop
    exact queued_as_brelse s p blkno hk q hqp s1 h
  | store q blkno2 h2 bytes =>
    simp only [step, caller_store] at h
    cases hb : s.heap q with
    | none => simp [hb] at h
    | some b =>
      simp only [hb, Except.ok.injEq] at h
      rw [← h]
      exact queued_as_update s p q blkno b _ hk hb rfl

theorem queued_as_run (p : Nat) (blkno : Int) (ops : List Op) (s : State)
    (hops : unreleased p s ops = true) (hinv : Inv s)
    (hk : queued_as s p blkno) (s1 : State) (h : run s ops = .ok s1) :
    Inv s1 ∧ queued_as s1 p blkno := by
  induction ops generalizing s with
  | nil =>
    simp only [run, Except.ok.injEq] at h
    rw [← h]
    exact ⟨hinv, hk⟩
  | cons op ops ih =>
    simp only [run] at h
    cases hs : step s op with
    | error e => simp [hs] at h
    | ok s2 =>
      simp only [hs] at h
      simp only [unreleased, hs, Bool.and_eq_true, Bool.not_eq_true'] at hops
      exact ih s2 hops.2 (inv_step s op s2 hinv hs)
        (queued_as_step s hinv p blkno hk op hops.1 s2 hs) h

theorem getblk_cached_queued (s : State) (hinv : Inv s) (vp : vnode)
    (hv : vp.v_logical = false) (blkno size : Int) (p : Nat) (s1 : State)
    (h : getblk s vp blkno size = .ok (p, s1)) : queued_as s1 p blkno := by
  rcases getblk_cases s vp blkno size p s1 hinv h with ⟨h1, h2, _, _⟩ | ⟨_, hmem, b, hb, hbl, _, h6⟩
  · rw [h2, h1]
    exact ⟨by simp [fresh_state, hv], new_buf vp blkno size, heap_set_same _ _ _, rfl⟩
  · rw [h6]
    exact ⟨hmem, resized b size, heap_set_same _ _ _, (resized_lblkno b size).trans hbl⟩

/-- C2, as the code has it. For every cached volume (`v_logical` clear) and
block number, in every reachable state: every sequence of `getblk` calls for
that (volume, block) pair with sizes from 0 up returns, and every call returns
the pointer the first call returned; and once a `getblk` call for the pair
has returned a buffer, then after any further calls that return (`getblk` and
`bread` of any volume and block, caller stores, `bwrite`, `brelse` of other
buffers), none of which runs `brelse` on that buffer, a `getblk` for the pair
with any size returns that same buffer. -/
theorem reacquire_same_buffer (s : State) (hr : Reachable s) (vp : vnode)
    (hv : vp.v_logical = false) (blkno : Int) :
    (∀ sizes : List Int, (∀ z ∈ sizes, 0 ≤ z) →
      ∃ p s1, getblk_seq s vp blkno sizes = .ok (List.replicate sizes.length p, s1)) ∧
    (∀ (size : Int) (p : Nat) (s1 : State), getblk s vp blkno size = .ok (p, s1) →
      ∀ (ops : List Op) (s2 : State), unreleased p s1 ops = true →
        run s1 ops = .ok s2 →
          ∀ size2 : Int, ∃ s3, getblk s2 vp blkno size2 = .ok (p, s3)) := by
  have hinv := inv_reachable s hr
  constructor
  · intro sizes h0
    cases sizes with
    | nil => exact ⟨0, s, rfl⟩
    | cons z rest =>
      have hz : 0 ≤ z := h0 z (List.mem_cons_self z rest)
      have hrest : ∀ y ∈ rest, 0 ≤ y := fun y hy => h0 y (List.mem_cons_of_mem z hy)
      by_cases hm : ∀ q ∈ s.buftail, lblkno_at s.heap q ≠ some blkno
      · have hg := getblk_miss s vp blkno z hinv hv hm hz
        have hinv1 := inv_getblk s vp blkno z _ _ hinv hg
        obtain ⟨s2, hs2⟩ := getblk_seq_hits vp blkno hv rest hrest (fresh_state s vp blkno z)
          s.next (new_buf vp blkno z) hinv1 (by simp [fresh_state, hv])
          (by simp [fresh_state, heap_set]) rfl
        exact ⟨s.next, s2, by simp only [getblk_seq, hg, hs2, List.length_cons,
          List.replicate_succ]⟩
      · push_neg at hm
        obtain ⟨q, hmem, hql⟩ := hm
        obtain ⟨b, _, hb, _⟩ := hinv.live q hmem
        have hbl : b.b_lblkno = blkno := by simpa [lblkno_at, hb] using hql
        obtain ⟨s2, hs2⟩ := getblk_seq_hits vp blkno hv (z :: rest) h0 s q b hinv hmem hb hbl
        exact ⟨q, s2, hs2⟩
  · intro size p s1 hg ops s2 hops hrun size2
    have hinv1 := inv_getblk s vp blkno size p s1 hinv hg
    have hk1 := getblk_cached_queued s hinv vp hv blkno size p s1 hg
    obtain ⟨hinv2, hmem, b, hb, hbl⟩ := queued_as_run p blkno ops s1 hops hinv1 hk1 s2 hrun
    have hc := hinv2.cap p b hb
    have h2 : 0 ≤ size2 ∨ size2 ≤ b.b_bufsize := by omega
    exact ⟨_, getblk_hit s2 vp blkno size2 p b hinv2 hv hmem hb hbl h2⟩

/-- Witness of C2 (amended): block 5 of the cached `volA`, acquired with sizes
4, 8 and 2 in the state where it is queued as buffer 1, is buffer 1 each
time; and it still is after block 9 was released and a block of `volB` read
in between. -/
theorem reacquire_same_buffer_witness :
    Reachable st_two ∧ volA.v_logical = false ∧
      (getblk_seq st_two volA 5 [4, 8, 2]).map Prod.fst = .ok [1, 1, 1] ∧
      unreleased 1 st_two [.brelse 2, .bwrite sys_fine 1, .getblk volB 6 2] = true ∧
      returned (getblk (after st_two [.brelse 2, .bwrite sys_fine 1, .getblk volB 6 2])
          volA 5 3) =
        some (1, [3, 1], some { new_buf volA 5 4 with b_bcount := 3 }) ∧
      ((∀ sizes : List Int, (∀ z ∈ sizes, 0 ≤ z) →
        ∃ p s1, getblk_seq st_two volA 5 sizes = .ok (List.replicate sizes.length p, s1)) ∧
      (∀ (size : Int) (p : Nat) (s1 : State), getblk st_two volA 5 size = .ok (p, s1) →
        ∀ (ops : List Op) (s2 : State), unreleased p s1 ops = true →
          run s1 ops = .ok s2 →
            ∀ size2 : Int, ∃ s3, getblk s2 volA 5 size2 = .ok (p, s3))) :=
  ⟨reachable_after _ (Reachable.start disk0) _, rfl, rfl, by decide, by decide,
    reacquire_same_buffer st_two (reachable_after _ (Reachable.start disk0) _) volA rfl 5⟩

/-- Counterexample to C2 as stated ("for every volume"): on the non-cached
volume `volL`, two `getblk` calls in a row for block 5, nothing in between,
return two different buffers, 1 and 2. -/
theorem reacquire_logical_differs :
    volL.v_logical = true ∧
      (getblk_seq (State.init disk0) volL 5 [4, 4]).map Prod.fst = .ok [1, 2] ∧
      ¬ ∃ p s1, getblk_seq (State.init disk0) volL 5 [4, 4] = .ok (List.replicate 2 p, s1) := by
  refine ⟨rfl, rfl, ?_⟩
  rintro ⟨p, s1, h⟩
  have h2 : (getblk_seq (State.init disk0) volL 5 [4, 4]).map Prod.fst = .ok [1, 2] := rfl
  rw [h] at h2
  simp only [Except.map, List.replicate, Except.ok.injEq, List.cons.injEq] at h2
  omega

/-! ## C3, C4: what a `getblk` that creates a buffer leaves behind -/

theorem fresh_unmapped (s : State) (hinv : Inv s) :
    s.heap s.next = none ∧ s.next ∉ s.buftail :=
  ⟨hinv.bound s.next (le_refl _), fun h => Nat.lt_irrefl _ (queued_below_next s hinv _ h)⟩

/-- C3, as the code has it. In every reachable state, for every cached volume
`vp`, size from 0 up and block number `blkno` that no queued buffer carries
as `b_lblkno` (whichever volume queued it), `getblk(vp, blkno, size)` returns
a newly allocated buffer with `b_lblkno = b_blkno = blkno`, `b_vp = vp`,
`b_fs = vp->fs`, `b_bcount = b_bufsize = size` and `size` zero bytes of data;
the queue afterwards is that buffer followed by the previous queue, one
longer, and no other buffer has changed. -/
theorem getblk_miss_inserts (s : State) (hr : Reachable s) (vp : vnode)
    (hv : vp.v_logical = false) (blkno size : Int) (h0 : 0 ≤ size)
    (hm : ∀ p ∈ s.buftail, ∀ b, s.heap p = some b → b.b_lblkno ≠ blkno) :
    ∃ s1 b, getblk s vp blkno size = .ok (s.next, s1) ∧
      s.heap s.next = none ∧ s.next ∉ s.buftail ∧
      s1.heap s.next = some b ∧
      b.b_lblkno = blkno ∧ b.b_blkno = blkno ∧ b.b_vp = some vp ∧ b.b_fs = vp.fs ∧
      b.b_bcount = size ∧ b.b_bufsize = size ∧ b.b_data = some (List.replicate size.toNat 0) ∧
      s1.buftail = s.next :: s.buftail ∧ s1.buftail.length = s.buftail.length + 1 ∧
      (∀ q, q ≠ s.next → s1.heap q = s.heap q) := by
  have hinv := inv_reachable s hr
  have hm1 : ∀ q ∈ s.buftail, lblkno_at s.heap q ≠ some blkno := by
    intro q hq
    obtain ⟨b, _, hb, _⟩ := hinv.live q hq
    simpa [lblkno_at, hb] using hm q hq b hb
  obtain ⟨hf1, hf2⟩ := fresh_unmapped s hinv
  refine ⟨fresh_state s vp blkno size, new_buf vp blkno size,
    getblk_miss s vp blkno size hinv hv hm1 h0, hf1, hf2, heap_set_same _ _ _,
    rfl, rfl, rfl, rfl, rfl, rfl, rfl, ?_, ?_, ?_⟩
  · simp [fresh_state, hv]
  · simp [fresh_state, hv]
  · intro q hq
    exact heap_set_other _ _ _ _ hq

/-- Witness of C3 (amended): block 7 is not queued in the state with blocks 5
and 9; `getblk(volA, 7, 3)` returns the new buffer 3 and the queue becomes
3, 2, 1. -/
theorem getblk_miss_inserts_witness :
    Reachable st_two ∧ st_two.next = 3 ∧ st_two.buftail = [2, 1] ∧
      ∃ s1 b, getblk st_two volA 7 3 = .ok (st_two.next, s1) ∧
        st_two.heap st_two.next = none ∧ st_two.next ∉ st_two.buftail ∧
        s1.heap st_two.next = some b ∧
        b.b_lblkno = 7 ∧ b.b_blkno = 7 ∧ b.b_vp = some volA ∧ b.b_fs = volA.fs ∧
        b.b_bcount = 3 ∧ b.b_bufsize = 3 ∧ b.b_data = some (List.replicate (3 : Int).toNat 0) ∧
        s1.buftail = st_two.next :: st_two.buftail ∧
        s1.buftail.length = st_two.buftail.length + 1 ∧
        (∀ q, q ≠ st_two.next → s1.heap q = st_two.heap q) :=
  ⟨reachable_after _ (Reachable.start disk0) _, by decide, by decide,
    getblk_miss_inserts st_two (reachable_after _ (Reachable.start disk0) _) volA rfl 7 3
      (by decide) (by decide)⟩

/-- Counterexample to C3 as stated ("never seen before for that volume"):
block 5 was acquired for the cached volume `volB` only, never for the cached
volume `volA`; `getblk(volA, 5, 8)` creates nothing: it returns the queued
buffer 1, whose `b_vp` is `volB` and whose `b_fs` is that of `volB`, and the
queue is still the single entry 1. -/
theorem getblk_unseen_volume_hits :
    Reachable st_volB ∧ volA.v_logical = false ∧ volA ≠ volB ∧
      st_volB = after (State.init disk0) [.getblk volB 5 4] ∧
      st_volB.buftail = [1] ∧ st_volB.next = 2 ∧
      returned (getblk st_volB volA 5 8) =
        some (1, [1], some { buf_zero with
          b_lblkno := 5, b_blkno := 5, b_bcount := 8, b_bufsize := 8,
          b_data := some [0, 0, 0, 0, 0, 0, 0, 0], b_fs := volB.fs, b_vp := some volB }) :=
  ⟨reachable_after _ (Reachable.start disk0) _, rfl, by decide, rfl, by decide, by decide,
    by decide⟩

/-- C4. In every reachable state, for every non-cached volume (`v_logical`
set), block number and size from 0 up, `getblk` returns a newly allocated
buffer that is not in the queue, with `b_bcount = b_bufsize = size` and `size`
zero bytes of data; the queue, its initialisation flag, every buffer in the
queue, every other allocated buffer and the disk are unchanged, whether or not
a queued buffer carries that block number. -/
theorem getblk_logical_bypass (s : State) (hr : Reachable s) (vp : vnode)
    (hv : vp.v_logical = true) (blkno size : Int) (h0 : 0 ≤ size) :
    ∃ s1 b, getblk s vp blkno size = .ok (s.next, s1) ∧
      s.heap s.next = none ∧ s.next ∉ s1.buftail ∧
      s1.heap s.next = some b ∧
      b.b_bcount = size ∧ b.b_bufsize = size ∧ b.b_data = some (List.replicate size.toNat 0) ∧
      b.b_lblkno = blkno ∧ b.b_vp = some vp ∧
      s1.buftail = s.buftail ∧ s1.buftailinitted = s.buftailinitted ∧
      (∀ q ∈ s.buftail, s1.heap q = s.heap q) ∧
      (∀ q, q ≠ s.next → s1.heap q = s.heap q) ∧
      s1.disk = s.disk := by
  have hinv := inv_reachable s hr
  obtain ⟨hf1, hf2⟩ := fresh_unmapped s hinv
  have hbt : (fresh_state s vp blkno size).buftail = s.buftail := by simp [fresh_state, hv]
  refine ⟨fresh_state s vp blkno size, new_buf vp blkno size,
    getblk_logical s vp blkno size hv h0, hf1, ?_, heap_set_same _ _ _,
    rfl, rfl, rfl, rfl, rfl, hbt, ?_, ?_, ?_, rfl⟩
  · rw [hbt]
    exact hf2
  · simp [fresh_state, hv]
  · intro q hq
    have hne : q ≠ s.next := fun h => hf2 (h ▸ hq)
    exact heap_set_other _ _ _ _ hne
  · intro q hq
    exact heap_set_other _ _ _ _ hq

/-- Witness of C4: block 5 is queued (buffer 1) in the state with blocks 5 and
9, and `getblk(volL, 5, 3)` on the non-cached `volL` still returns the new
buffer 3 and leaves the queue 2, 1. -/
theorem getblk_logical_bypass_witness :
    Reachable st_two ∧ st_two.buftail = [2, 1] ∧
      (st_two.heap 1).map (fun b => b.b_lblkno) = some 5 ∧
      returned (getblk st_two volL 5 3) =
        some (3, [2, 1], some (new_buf volL 5 3)) ∧
      ∃ s1 b, getblk st_two volL 5 3 = .ok (st_two.next, s1) ∧
        st_two.heap st_two.next = none ∧ st_two.next ∉ s1.buftail ∧
        s1.heap st_two.next = some b ∧
        b.b_bcount = 3 ∧ b.b_bufsize = 3 ∧ b.b_data = some (List.replicate (3 : Int).toNat 0) ∧
        b.b_lblkno = 5 ∧ b.b_vp = some volL ∧
        s1.buftail = st_two.buftail ∧ s1.buftailinitted = st_two.buftailinitted ∧
        (∀ q ∈ st_two.buftail, s1.heap q = st_two.heap q) ∧
        (∀ q, q ≠ st_two.next → s1.heap q = st_two.heap q) ∧
        s1.disk = st_two.disk :=
  ⟨reachable_after _ (Reachable.start disk0) _, by decide, by decide, by decide,
    getblk_logical_bypass st_two (reachable_after _ (Reachable.start disk0) _) volL rfl 5 3
      (by decide)⟩

/-! ## C5, C6: the data of a buffer that `getblk` finds again -/

theorem getblk_disk (s : State) (vp : vnode) (blkno size : Int) (p : Nat) (s1 : State)
    (hinv : Inv s) (h : getblk s vp blkno size = .ok (p, s1)) : s1.disk = s.disk := by
  rcases getblk_cases s vp blkno size p s1 hinv h with ⟨_, h2, _, _⟩ | ⟨_, _, b, _, _, _, h6⟩
  · rw [h2]
    rfl
  · rw [h6]

theorem caller_store_eq (s : State) (p : Nat) (b : buf) (blkno : Int) (is_hammer2 : Bool)
    (bytes : List Nat) (hp : s.heap p = some b) :
    caller_store s p blkno is_hammer2 bytes =
      .ok { s with heap := heap_set s.heap p (some (stored b blkno is_hammer2 bytes)) } := by
  simp only [caller_store, hp, stored]

/-- On a cached volume `getblk` with a size from 0 up returns a queued buffer
that carries the block number and the size. -/
theorem getblk_cached_total (s : State) (vp : vnode) (blkno size : Int) (hinv : Inv s)
    (hv : vp.v_logical = false) (h0 : 0 ≤ size) :
    ∃ p s1 b1, getblk s vp blkno size = .ok (p, s1) ∧ Inv s1 ∧ p ∈ s1.buftail ∧
      s1.heap p = some b1 ∧ b1.b_lblkno = blkno ∧ b1.b_bcount = size ∧
      ((∀ q ∈ s.buftail, ∀ b, s.heap q = some b → b.b_lblkno ≠ blkno) →
        b1.b_bufsize = size) := by
  by_cases hm : ∀ q ∈ s.buftail, lblkno_at s.heap q ≠ some blkno
  · have hg := getblk_miss s vp blkno size hinv hv hm h0
    exact ⟨s.next, fresh_state s vp blkno size, new_buf vp blkno size, hg,
      inv_getblk s vp blkno size _ _ hinv hg, by simp [fresh_state, hv],
      heap_set_same _ _ _, rfl, rfl, fun _ => rfl⟩
  · push_neg at hm
    obtain ⟨q, hmem, hql⟩ := hm
    obtain ⟨b, _, hb, _⟩ := hinv.live q hmem
    have hbl : b.b_lblkno = blkno := by simpa [lblkno_at, hb] using hql
    have hg := getblk_hit s vp blkno size q b hinv hv hmem hb hbl (Or.inl h0)
    refine ⟨q, _, resized b size, hg, inv_getblk s vp blkno size _ _ hinv hg, hmem,
      heap_set_same _ _ _, (resized_lblkno b size).trans hbl, ?_, ?_⟩
    · unfold resized
      split <;> rfl
    · intro hall
      exact absurd hbl (hall q hmem b hb)

/-- C5, as the code has it. In every reachable state, for every cached volume,
block number and sizes `0 <= size1 < size2`: `getblk(vp, blkno, size1)`
returns a buffer, whose capacity `b_bufsize` is then `size1` if no queued
buffer carried the block number before. Whatever the caller then stores in
the buffer, `getblk(vp, blkno, size2)` returns the same buffer with
`b_bcount = size2`; and when the capacity left by the first call is below
`size2`, the data is reallocated as `size2` zero bytes. -/
theorem getblk_growth_zero_fills (s : State) (hr : Reachable s) (vp : vnode)
    (hv : vp.v_logical = false) (blkno size1 size2 : Int) (h1 : 0 ≤ size1)
    (h2 : size1 < size2) :
    ∃ p s1 b1, getblk s vp blkno size1 = .ok (p, s1) ∧ s1.heap p = some b1 ∧
      ((∀ q ∈ s.buftail, ∀ b, s.heap q = some b → b.b_lblkno ≠ blkno) →
        b1.b_bufsize = size1) ∧
      ∀ (blk : Int) (is_hammer2 : Bool) (bytes : List Nat),
        ∃ s1w, caller_store s1 p blk is_hammer2 bytes = .ok s1w ∧
          ∃ s2 b2, getblk s1w vp blkno size2 = .ok (p, s2) ∧ s2.heap p = some b2 ∧
            b2.b_bcount = size2 ∧
            (b1.b_bufsize < size2 →
              b2.b_bufsize = size2 ∧ b2.b_data = some (List.replicate size2.toNat 0)) := by
  have hinv := inv_reachable s hr
  obtain ⟨p, s1, b1, hg, hinv1, hmem, hp, hbl, _, hcap⟩ :=
    getblk_cached_total s vp blkno size1 hinv hv h1
  refine ⟨p, s1, b1, hg, hp, hcap, ?_⟩
  intro blk ish2 bytes
  have hst := caller_store_eq s1 p b1 blk ish2 bytes hp
  refine ⟨_, hst, ?_⟩
  have hinvw := inv_caller_store s1 p blk ish2 bytes _ hinv1 hst
  have hg2 := getblk_hit _ vp blkno size2 p _ hinvw hv hmem (heap_set_same _ _ _) hbl
    (Or.inl (by omega))
  refine ⟨_, _, hg2, heap_set_same _ _ _, ?_, ?_⟩
  · unfold resized
    split <;> rfl
  · intro hlt
    have hgrow : (stored b1 blk ish2 bytes).b_data = none ∨
        size2 > (stored b1 blk ish2 bytes).b_bufsize := Or.inr hlt
    rw [show resized (stored b1 blk ish2 bytes) size2 =
      { stored b1 blk ish2 bytes with
        b_bcount := size2, b_data := some (zeros size2), b_bufsize := size2 } from by
          simp only [resized, if_pos hgrow]]
    exact ⟨rfl, rfl⟩

/-- Witness of C5 (amended): from process start, `getblk(volA, 7, 2)` creates
buffer 1; after the caller has filled it with ones `getblk(volA, 7, 4)` returns
buffer 1 with four zero bytes. -/
theorem getblk_growth_zero_fills_witness :
    returned (getblk st_ones2 volA 7 4) =
        some (1, [1], some (new_buf volA 7 4)) ∧
      ∃ p s1 b1, getblk (State.init disk0) volA 7 2 = .ok (p, s1) ∧ s1.heap p = some b1 ∧
        ((∀ q ∈ (State.init disk0).buftail, ∀ b, (State.init disk0).heap q = some b →
          b.b_lblkno ≠ 7) → b1.b_bufsize = 2) ∧
        ∀ (blk : Int) (is_hammer2 : Bool) (bytes : List Nat),
          ∃ s1w, caller_store s1 p blk is_hammer2 bytes = .ok s1w ∧
            ∃ s2 b2, getblk s1w volA 7 4 = .ok (p, s2) ∧ s2.heap p = some b2 ∧
              b2.b_bcount = 4 ∧
              (b1.b_bufsize < 4 →
                b2.b_bufsize = 4 ∧ b2.b_data = some (List.replicate (4 : Int).toNat 0)) :=
  ⟨by decide,
    getblk_growth_zero_fills (State.init disk0) (Reachable.start disk0) volA rfl 7 2 4
      (by decide) (by decide)⟩

/-- Counterexample to C5 as stated: buffer 1 holds block 7 of `volA` with
capacity 4 and the caller's four ones. `getblk(volA, 7, 1)` followed by
`getblk(volA, 7, 3)` (sizes 0 <= 1 < 3, nothing in between) returns buffer 1
with `b_bcount = 3` and the data still the four ones: nothing was cleared. -/
theorem getblk_growth_within_capacity_keeps_data :
    Reachable st_ones4 ∧ volA.v_logical = false ∧
      returned (getblk st_ones4 volA 7 1) =
        some (1, [1], some { buf_zero with
          b_lblkno := 7, b_blkno := 7, b_bcount := 1, b_bufsize := 4,
          b_data := some [1, 1, 1, 1], b_fs := volA.fs, b_vp := some volA }) ∧
      returned (getblk (after st_ones4 [.getblk volA 7 1]) volA 7 3) =
        some (1, [1], some { buf_zero with
          b_lblkno := 7, b_blkno := 7, b_bcount := 3, b_bufsize := 4,
          b_data := some [1, 1, 1, 1], b_fs := volA.fs, b_vp := some volA }) :=
  ⟨reachable_after _ (Reachable.start disk0) _, rfl, by decide, by decide⟩

/-- C6, as the code has it. In every reachable state, for every cached volume
and every queued buffer, a `getblk` for the buffer's block number with a size
not above the buffer's capacity `b_bufsize` returns that buffer with the data
bytes and the capacity it had before the call (whatever the caller had stored
there); and no `getblk` call that returns, of any volume, block and size,
changes the disk. -/
theorem getblk_hit_keeps_data (s : State) (hr : Reachable s) (vp : vnode)
    (hv : vp.v_logical = false) (p : Nat) (b : buf) (hmem : p ∈ s.buftail)
    (hp : s.heap p = some b) (size : Int) (hsz : size ≤ b.b_bufsize) :
    (∃ s1 b1, getblk s vp b.b_lblkno size = .ok (p, s1) ∧ s1.heap p = some b1 ∧
      b1.b_data = b.b_data ∧ b1.b_bufsize = b.b_bufsize ∧ b1.b_bcount = size) ∧
    (∀ (vp2 : vnode) (blkno2 size2 : Int) (p2 : Nat) (s2 : State),
      getblk s vp2 blkno2 size2 = .ok (p2, s2) → s2.disk = s.disk) := by
  have hinv := inv_reachable s hr
  constructor
  · have hg := getblk_hit s vp b.b_lblkno size p b hinv hv hmem hp rfl (Or.inr hsz)
    have hd : b.b_data ≠ none := (hinv.alloc p b hp).1
    have hk : ¬ (b.b_data = none ∨ size > b.b_bufsize) := by
      push_neg
      exact ⟨hd, hsz⟩
    refine ⟨_, resized b size, hg, heap_set_same _ _ _, ?_, ?_, ?_⟩ <;>
      simp only [resized, if_neg hk]
  · intro vp2 blkno2 size2 p2 s2 h
    exact getblk_disk s vp2 blkno2 size2 p2 s2 hinv h

/-- Witness of C6 (amended): buffer 1 holds block 7 with capacity 4 and the
caller's four ones; `getblk(volA, 7, 3)` returns it with the four ones. -/
theorem getblk_hit_keeps_data_witness :
    Reachable st_ones4 ∧ st_ones4.heap 1 = some buf_ones4 ∧
      (∃ s1 b1, getblk st_ones4 volA 7 3 = .ok (1, s1) ∧ s1.heap 1 = some b1 ∧
        b1.b_data = some [1, 1, 1, 1] ∧ b1.b_bufsize = 4 ∧ b1.b_bcount = 3) ∧
      (∀ (vp2 : vnode) (blkno2 size2 : Int) (p2 : Nat) (s2 : State),
        getblk st_ones4 vp2 blkno2 size2 = .ok (p2, s2) → s2.disk = st_ones4.disk) :=
  ⟨reachable_after _ (Reachable.start disk0) _, by decide,
    getblk_hit_keeps_data st_ones4 (reachable_after _ (Reachable.start disk0) _) volA rfl 1
      buf_ones4 (by decide) (by decide) 3 (by decide)⟩

/-- Counterexample to C6 as stated: buffer 1 holds block 7 of `volA` with the
caller's two ones, and nothing was released; the later `getblk(volA, 7, 4)`
returns buffer 1 with four zero bytes, not the bytes it held before the call. -/
theorem getblk_growth_loses_data :
    Reachable st_ones2 ∧ volA.v_logical = false ∧
      (st_ones2.heap 1).map (fun b => (b.b_lblkno, b.b_data)) = some (7, some [1, 1]) ∧
      st_ones2.buftail = [1] ∧
      returned (getblk st_ones2 volA 7 4) =
        some (1, [1], some { buf_zero with
          b_lblkno := 7, b_blkno := 7, b_bcount := 4, b_bufsize := 4,
          b_data := some [0, 0, 0, 0], b_fs := volA.fs, b_vp := some volA }) :=
  ⟨reachable_after _ (Reachable.start disk0) _, rfl, by decide, by decide, by decide⟩

/-! ## C7, C8, C9: what `brelse` does to a buffer -/

theorem brelse_negative (s : State) (p : Nat) (b : buf) (hinv : Inv s)
    (hp : s.heap p = some b) (hneg : b.b_lblkno < 0) :
    brelse s p = .ok { s with heap := heap_set s.heap p (some { b with b_bcount := 0 }) } := by
  have hd : b.b_data ≠ none := (hinv.alloc p b hp).1
  simp only [brelse, hp, if_neg hd, if_pos hneg]

theorem brelse_free (s : State) (p : Nat) (b : buf) (vp : vnode) (hinv : Inv s)
    (hp : s.heap p = some b) (hpos : 0 ≤ b.b_lblkno) (hvp : b.b_vp = some vp) :
    brelse s p = .ok { s with
      buftail := if !vp.v_logical then s.buftail.erase p else s.buftail,
      heap := heap_set s.heap p none } := by
  have hd : b.b_data ≠ none := (hinv.alloc p b hp).1
  simp only [brelse, hp, if_neg hd, if_neg (not_lt.mpr hpos), hvp]

/-- C7. In every reachable state, for every allocated buffer with
`b_lblkno < 0` (its data is never `NULL`), `brelse` returns, sets `b_bcount`
to 0 and changes nothing else: the queue is the same list, the buffer keeps
its data, `b_bufsize` and all other fields, every other buffer, the allocator
and the disk are unchanged. When the buffer is queued, a `getblk` that follows
on a cached volume for that negative block with `size <= b_bufsize` returns
that same buffer with `b_bcount = size` and nothing else changed: same data,
same `b_bufsize`, same queue. -/
theorem brelse_placeholder_kept (s : State) (hr : Reachable s) (p : Nat) (b : buf)
    (hp : s.heap p = some b) (hneg : b.b_lblkno < 0) :
    b.b_data ≠ none ∧
    ∃ s1, brelse s p = .ok s1 ∧
      s1.heap p = some { b with b_bcount := 0 } ∧
      s1.buftail = s.buftail ∧ (∀ q, q ≠ p → s1.heap q = s.heap q) ∧
      s1.next = s.next ∧ s1.buftailinitted = s.buftailinitted ∧ s1.disk = s.disk ∧
      (p ∈ s.buftail → ∀ (vp : vnode) (size : Int), vp.v_logical = false →
        size ≤ b.b_bufsize →
          ∃ s2, getblk s1 vp b.b_lblkno size = .ok (p, s2) ∧
            s2.heap p = some { b with b_bcount := size } ∧
            s2.buftail = s.buftail ∧ (∀ q, q ≠ p → s2.heap q = s.heap q)) := by
  have hinv := inv_reachable s hr
  have hd : b.b_data ≠ none := (hinv.alloc p b hp).1
  have hb := brelse_negative s p b hinv hp hneg
  have hinv1 := inv_brelse s p _ hinv hb
  refine ⟨hd, _, hb, heap_set_same _ _ _, rfl, fun q hq => heap_set_other _ _ _ _ hq,
    rfl, rfl, rfl, ?_⟩
  intro hmem vp size hv hsz
  have hg := getblk_hit _ vp b.b_lblkno size p { b with b_bcount := 0 } hinv1 hv hmem
    (heap_set_same _ _ _) rfl (Or.inr hsz)
  have hk : ¬ (b.b_data = none ∨ size > b.b_bufsize) := by
    push_neg
    exact ⟨hd, hsz⟩
  refine ⟨_, hg, ?_, rfl, ?_⟩
  · show heap_set _ p _ p = _
    rw [heap_set_same]
    simp only [resized, if_neg hk]
  · intro q hq
    show heap_set (heap_set s.heap p _) p _ q = _
    rw [heap_set_other _ _ _ _ hq, heap_set_other _ _ _ _ hq]

/-- Witness of C7: the queued buffer 1 holds the placeholder block -1 with the
caller's data 9, 8, 7, 6 and physical block 100; after `brelse` it is still
queued with `b_bcount = 0`, and `getblk(volA, -1, 2)` returns it with
`b_bcount = 2` and the same data. -/
theorem brelse_placeholder_kept_witness :
    Reachable st_placeholder ∧ st_placeholder.buftail = [1] ∧
      st_placeholder.heap 1 = some buf_placeholder ∧
      released (brelse st_placeholder 1) 1 =
        some ([1], some { buf_placeholder with b_bcount := 0 }) ∧
      returned (getblk (after st_placeholder [.brelse 1]) volA (-1) 2) =
        some (1, [1], some { buf_placeholder with b_bcount := 2 }) ∧
      (buf_placeholder.b_data ≠ none ∧
        ∃ s1, brelse st_placeholder 1 = .ok s1 ∧
          s1.heap 1 = some { buf_placeholder with b_bcount := 0 } ∧
          s1.buftail = st_placeholder.buftail ∧
          (∀ q, q ≠ 1 → s1.heap q = st_placeholder.heap q) ∧
          s1.next = st_placeholder.next ∧
          s1.buftailinitted = st_placeholder.buftailinitted ∧
          s1.disk = st_placeholder.disk ∧
          (1 ∈ st_placeholder.buftail → ∀ (vp : vnode) (size : Int), vp.v_logical = false →
            size ≤ buf_placeholder.b_bufsize →
              ∃ s2, getblk s1 vp buf_placeholder.b_lblkno size = .ok (1, s2) ∧
                s2.heap 1 = some { buf_placeholder with b_bcount := size } ∧
                s2.buftail = st_placeholder.buftail ∧
                (∀ q, q ≠ 1 → s2.heap q = st_placeholder.heap q))) :=
  ⟨reachable_after _ (Reachable.start disk0) _, by decide, by decide, by decide, by decide,
    brelse_placeholder_kept st_placeholder (reachable_after _ (Reachable.start disk0) _) 1
      buf_placeholder (by decide) (by decide)⟩

/-- C8. In every reachable state, for every queued buffer (its volume is a
cached one) with `b_lblkno >= 0`, `brelse` returns, unmaps the buffer and
takes exactly it off the queue: the other entries stay, in their order, and
no other buffer changes. A `getblk` that follows for that block number on a
cached volume with a size from 0 up allocates a new buffer (not the released
pointer), puts it at the head of the queue, and its data is `size` zero
bytes. -/
theorem brelse_getblk_round_trip (s : State) (hr : Reachable s) (p : Nat) (b : buf)
    (hmem : p ∈ s.buftail) (hp : s.heap p = some b) (hpos : 0 ≤ b.b_lblkno) :
    (∃ vp0, b.b_vp = some vp0 ∧ vp0.v_logical = false) ∧
    ∃ s1, brelse s p = .ok s1 ∧ s1.heap p = none ∧
      s1.buftail = s.buftail.filter (fun q => q ≠ p) ∧
      s1.buftail.length + 1 = s.buftail.length ∧
      (∀ q, q ≠ p → s1.heap q = s.heap q) ∧
      ∀ (vp : vnode) (size : Int), vp.v_logical = false → 0 ≤ size →
        ∃ s2 b2, getblk s1 vp b.b_lblkno size = .ok (s1.next, s2) ∧ s1.next ≠ p ∧
          s2.buftail = s1.next :: s1.buftail ∧ s2.heap s1.next = some b2 ∧
          b2.b_lblkno = b.b_lblkno ∧ b2.b_bcount = size ∧ b2.b_bufsize = size ∧
          b2.b_data = some (List.replicate size.toNat 0) := by
  have hinv := inv_reachable s hr
  obtain ⟨b0, vp0, hb0, _, hvp0, hv0⟩ := hinv.live p hmem
  rw [hp] at hb0
  cases hb0
  have hnd : s.buftail.Nodup := List.Nodup.of_map _ hinv.uniq
  have hb := brelse_free s p b vp0 hinv hp hpos hvp0
  simp only [hv0, Bool.not_false, if_true] at hb
  have hinv1 := inv_brelse s p _ hinv hb
  refine ⟨⟨vp0, hvp0, hv0⟩, _, hb, heap_set_same _ _ _, ?_, ?_,
    fun q hq => heap_set_other _ _ _ _ hq, ?_⟩
  · show s.buftail.erase p = _
    rw [List.Nodup.erase_eq_filter hnd]
    congr 1
    funext q
    by_cases hq : q = p <;> simp [hq, bne]
  · show (s.buftail.erase p).length + 1 = _
    rw [List.length_erase_of_mem hmem]
    have : 0 < s.buftail.length := List.length_pos_of_mem hmem
    omega
  · intro vp size hv h0
    have hm : ∀ q ∈ s.buftail.erase p,
        lblkno_at (heap_set s.heap p none) q ≠ some b.b_lblkno := by
      intro q hq
      have hq2 := (List.Nodup.mem_erase_iff hnd).mp hq
      obtain ⟨bq, _, hbq, _⟩ := hinv.live q hq2.2
      intro he
      apply hq2.1
      apply inv_lblkno_inj s hinv q p bq b hq2.2 hmem hbq hp
      simpa [lblkno_at, heap_set, hq2.1, hbq] using he
    have hg := getblk_miss _ vp b.b_lblkno size hinv1 hv hm h0
    refine ⟨_, new_buf vp b.b_lblkno size, hg, ?_, ?_, heap_set_same _ _ _, rfl, rfl, rfl, rfl⟩
    · show s.next ≠ p
      exact fun h => Nat.lt_irrefl _ (h ▸ queued_below_next s hinv p hmem)
    · simp [fresh_state, hv]

/-- Witness of C8: buffer 1 holds block 7 with the caller's four ones;
`brelse` empties the queue and unmaps it, and `getblk(volA, 7, 4)` then
returns the new buffer 2 with four zero bytes. -/
theorem brelse_getblk_round_trip_witness :
    Reachable st_ones4 ∧ st_ones4.buftail = [1] ∧
      released (brelse st_ones4 1) 1 = some ([], none) ∧
      returned (getblk (after st_ones4 [.brelse 1]) volA 7 4) =
        some (2, [2], some (new_buf volA 7 4)) ∧
      ((∃ vp0, buf_ones4.b_vp = some vp0 ∧ vp0.v_logical = false) ∧
        ∃ s1, brelse st_ones4 1 = .ok s1 ∧ s1.heap 1 = none ∧
          s1.buftail = st_ones4.buftail.filter (fun q => q ≠ 1) ∧
          s1.buftail.length + 1 = st_ones4.buftail.length ∧
          (∀ q, q ≠ 1 → s1.heap q = st_ones4.heap q) ∧
          ∀ (vp : vnode) (size : Int), vp.v_logical = false → 0 ≤ size →
            ∃ s2 b2, getblk s1 vp buf_ones4.b_lblkno size = .ok (s1.next, s2) ∧
              s1.next ≠ 1 ∧
              s2.buftail = s1.next :: s1.buftail ∧ s2.heap s1.next = some b2 ∧
              b2.b_lblkno = buf_ones4.b_lblkno ∧ b2.b_bcount = size ∧ b2.b_bufsize = size ∧
              b2.b_data = some (List.replicate size.toNat 0)) :=
  ⟨reachable_after _ (Reachable.start disk0) _, by decide, by decide, by decide,
    brelse_getblk_round_trip st_ones4 (reachable_after _ (Reachable.start disk0) _) 1
      buf_ones4 (by decide) (by decide) (by decide)⟩

/-- C9, as the code has it. In every reachable state, a buffer of a non-cached
volume (`b_vp->v_logical` set: one obtained from `getblk` on such a volume) is
not in the queue, and `brelse` of it returns and leaves the queue and every
other buffer unchanged. With `b_lblkno >= 0` the buffer and its data are
freed. With `b_lblkno < 0` the buffer stays allocated: only its `b_bcount`
is set to 0. -/
theorem brelse_logical (s : State) (hr : Reachable s) (p : Nat) (b : buf) (vp : vnode)
    (hp : s.heap p = some b) (hvp : b.b_vp = some vp) (hv : vp.v_logical = true) :
    p ∉ s.buftail ∧
    ∃ s1, brelse s p = .ok s1 ∧ s1.buftail = s.buftail ∧
      (∀ q, q ≠ p → s1.heap q = s.heap q) ∧
      (0 ≤ b.b_lblkno → s1.heap p = none) ∧
      (b.b_lblkno < 0 → s1.heap p = some { b with b_bcount := 0 }) := by
  have hinv := inv_reachable s hr
  refine ⟨logical_not_queued s hinv p b vp hp hvp hv, ?_⟩
  by_cases hneg : b.b_lblkno < 0
  · exact ⟨_, brelse_negative s p b hinv hp hneg, rfl,
      fun q hq => heap_set_other _ _ _ _ hq, fun h => absurd hneg (not_lt.mpr h),
      fun _ => heap_set_same _ _ _⟩
  · have hb := brelse_free s p b vp hinv hp (not_lt.mp hneg) hvp
    simp only [hv, Bool.not_true, Bool.false_eq_true, if_false] at hb
    exact ⟨_, hb, rfl, fun q hq => heap_set_other _ _ _ _ hq, fun _ => heap_set_same _ _ _,
      fun h => absurd h hneg⟩

/-- Witness of C9 (amended): buffer 2 holds block 3 of the non-cached `volL`
next to the queued buffers 3 and 1; `brelse` frees it and the queue stays
3, 1. -/
theorem brelse_logical_witness :
    Reachable st_loose ∧ st_loose.buftail = [3, 1] ∧
      st_loose.heap 2 = some (new_buf volL 3 4) ∧
      released (brelse st_loose 2) 2 = some ([3, 1], none) ∧
      (2 ∉ st_loose.buftail ∧
        ∃ s1, brelse st_loose 2 = .ok s1 ∧ s1.buftail = st_loose.buftail ∧
          (∀ q, q ≠ 2 → s1.heap q = st_loose.heap q) ∧
          (0 ≤ (new_buf volL 3 4).b_lblkno → s1.heap 2 = none) ∧
          ((new_buf volL 3 4).b_lblkno < 0 →
            s1.heap 2 = some { new_buf volL 3 4 with b_bcount := 0 })) :=
  ⟨reachable_after _ (Reachable.start disk0) _, by decide, by decide, by decide,
    brelse_logical st_loose (reachable_after _ (Reachable.start disk0) _) 2
      (new_buf volL 3 4) volL (by decide) rfl rfl⟩

/-- Counterexample to C9 as stated ("negative included"): buffer 1 was
obtained from `getblk(volL, -1, 4)` on the non-cached `volL`; `brelse` of it
returns and frees nothing: the buffer and its four data bytes are still
allocated, with `b_bcount` set to 0. -/
theorem brelse_logical_negative_not_freed :
    volL.v_logical = true ∧
      returned (getblk (State.init disk0) volL (-1) 4) =
        some (1, [], some (new_buf volL (-1) 4)) ∧
      st_loose_neg = after (State.init disk0) [.getblk volL (-1) 4] ∧
      released (brelse st_loose_neg 1) 1 =
        some ([], some { buf_zero with
          b_lblkno := -1, b_blkno := -1, b_bcount := 0, b_bufsize := 4,
          b_data := some [0, 0, 0, 0], b_fs := volL.fs, b_vp := some volL }) :=
  ⟨rfl, by decide, rfl, by decide⟩

/-! ## C10: only buffers of cached volumes are queued -/

theorem bcleanup_loop_ok (heap : Nat → Option buf) (l : List Nat)
    (hl : ∀ p ∈ l, ∃ b vp, heap p = some b ∧ b.b_vp = some vp ∧ vp.v_logical = false) :
    ∃ ls, bcleanup_loop heap l = .ok ls ∧ ls.length = l.length ∧
      ∀ x ∈ ls, x.logical = 0 ∧ ∃ vp, x.vp = some vp ∧ vp.v_logical = false := by
  induction l with
  | nil => exact ⟨[], rfl, rfl, by simp⟩
  | cons a t ih =>
    obtain ⟨b, vp, hb, hvp, hv⟩ := hl a (List.mem_cons_self a t)
    obtain ⟨ls, hls, hlen, hall⟩ := ih (fun p hp => hl p (List.mem_cons_of_mem a hp))
    refine ⟨bcleanup_line a b :: ls, ?_, by simp [hlen], ?_⟩
    · simp [bcleanup_loop, hb, hvp, hv, hls]
    · intro x hx
      rcases List.mem_cons.mp hx with h | h
      · rw [h]
        exact ⟨by simp [bcleanup_line, hvp, hv], vp, by simp [bcleanup_line, hvp], hv⟩
      · exact hall x h

/-- C10. In every state reached from process start by `getblk`, `bread`,
`bwrite` and `brelse` calls (and caller stores; the vnodes do not change),
every queued pointer is an allocated buffer with a non-NULL `b_vp` whose
`v_logical` is clear. So `bcleanup` returns, no assertion of its loop
failing, and when it lists buffers it lists one line per queued buffer, each
of a vnode with `v_logical` clear. -/
theorem registry_cached_only (s : State) (hr : Reachable s) :
    (∀ p ∈ s.buftail, ∃ b vp, s.heap p = some b ∧ b.b_vp = some vp ∧ vp.v_logical = false) ∧
    ∃ report, bcleanup s = .ok report ∧
      ∀ ls, report = .unflushed ls →
        ls.length = s.buftail.length ∧
        ∀ x ∈ ls, x.logical = 0 ∧ ∃ vp, x.vp = some vp ∧ vp.v_logical = false := by
  have hinv := inv_reachable s hr
  have hl : ∀ p ∈ s.buftail, ∃ b vp, s.heap p = some b ∧ b.b_vp = some vp ∧
      vp.v_logical = false := by
    intro p hp
    obtain ⟨b, vp, h1, _, h3, h4⟩ := hinv.live p hp
    exact ⟨b, vp, h1, h3, h4⟩
  refine ⟨hl, ?_⟩
  obtain ⟨ls, hls, hlen, hall⟩ := bcleanup_loop_ok s.heap s.buftail hl
  unfold bcleanup
  by_cases he : s.buftail.isEmpty = true
  · refine ⟨.clean, by simp [he], ?_⟩
    intro ls2 h
    cases h
  · refine ⟨.unflushed ls, by simp [he, hls], ?_⟩
    intro ls2 h
    cases h
    exact ⟨hlen, hall⟩

/-- Witness of C10: with a buffer of the non-cached `volL` allocated between
two buffers of `volA`, the queue is 3, 1 and `bcleanup` lists exactly the two
buffers of `volA`. -/
theorem registry_cached_only_witness :
    Reachable st_loose ∧ st_loose.buftail = [3, 1] ∧
      bcleanup st_loose = .ok (.unflushed
        [bcleanup_line 3 (new_buf volA 9 2), bcleanup_line 1 (new_buf volA 5 4)]) ∧
      ((∀ p ∈ st_loose.buftail, ∃ b vp, st_loose.heap p = some b ∧ b.b_vp = some vp ∧
          vp.v_logical = false) ∧
        ∃ report, bcleanup st_loose = .ok report ∧
          ∀ ls, report = .unflushed ls →
            ls.length = st_loose.buftail.length ∧
            ∀ x ∈ ls, x.logical = 0 ∧ ∃ vp, x.vp = some vp ∧ vp.v_logical = false) :=
  ⟨reachable_after _ (Reachable.start disk0) _, by decide, rfl,
    registry_cached_only st_loose (reachable_after _ (Reachable.start disk0) _)⟩

/-! ## What one call does to each buffer -/

theorem buf_step_refl (sz : Prop) (b : buf) : buf_step sz b b :=
  ⟨rfl, rfl, rfl, le_refl _, fun h => h, fun _ h => h⟩

theorem heap_step_refl (sz : Prop) (o : Option buf) : heap_step sz o o := by
  cases o with
  | none => simp [heap_step]
  | some b => simpa [heap_step] using buf_step_refl sz b

theorem heap_step_set (sz : Prop) (h : Nat → Option buf) (q : Nat) (v : Option buf)
    (hq : heap_step sz (h q) v) (p : Nat) : heap_step sz (h p) (heap_set h q v p) := by
  by_cases hpq : p = q
  · subst hpq
    rw [heap_set_same]
    exact hq
  · rw [heap_set_other _ _ _ _ hpq]
    exact heap_step_refl sz _

theorem zeros_length (size : Int) (h0 : 0 ≤ size) : ((zeros size).length : Int) = size := by
  simp [zeros, Int.toNat_of_nonneg h0]

theorem new_buf_shape (vp : vnode) (blkno size : Int) (h0 : 0 ≤ size) :
    buf_shape (new_buf vp blkno size) ∧ 0 ≤ (new_buf vp blkno size).b_bcount :=
  ⟨⟨le_refl _, ⟨zeros size, rfl, zeros_length size h0⟩, vp, rfl, rfl⟩, h0⟩

theorem resized_step (b : buf) (size : Int) (hd : b.b_data ≠ none)
    (h : 0 ≤ size ∨ size ≤ b.b_bufsize) : buf_step (0 ≤ size) b (resized b size) := by
  by_cases hg : b.b_data = none ∨ size > b.b_bufsize
  · have hgt : size > b.b_bufsize := by
      rcases hg with hg | hg
      · exact absurd hg hd
      · exact hg
    have h0 : 0 ≤ size := by
      rcases h with h | h
      · exact h
      · omega
    have he : resized b size =
        { b with b_bcount := size, b_data := some (zeros size), b_bufsize := size } := by
      simp only [resized, if_pos hg]
    rw [he]
    refine ⟨rfl, rfl, rfl, le_of_lt hgt, ?_, fun _ _ => h0⟩
    rintro ⟨_, _, hfs⟩
    exact ⟨le_refl _, ⟨zeros size, rfl, zeros_length size h0⟩, hfs⟩
  · have hle : size ≤ b.b_bufsize := by
      push_neg at hg
      exact hg.2
    have he : resized b size = { b with b_bcount := size } := by
      simp only [resized, if_neg hg]
    rw [he]
    refine ⟨rfl, rfl, rfl, le_refl _, ?_, fun h0 _ => h0⟩
    rintro ⟨_, hdat, hfs⟩
    exact ⟨hle, hdat, hfs⟩

theorem getblk_frame (s : State) (vp : vnode) (blkno size : Int) (p : Nat) (s1 : State)
    (hinv : Inv s) (h : getblk s vp blkno size = .ok (p, s1)) :
    (∀ q, q ≠ p → s1.heap q = s.heap q) ∧ s1.disk = s.disk ∧
      heap_step (0 ≤ size) (s.heap p) (s1.heap p) := by
  rcases getblk_cases s vp blkno size p s1 hinv h with
    ⟨h1, h2, h3, _⟩ | ⟨_, hmem, b, hb, _, h5, h6⟩
  · subst h1
    rw [h2]
    refine ⟨fun q hq => heap_set_other _ _ _ _ hq, rfl, ?_⟩
    show heap_step _ _ (heap_set s.heap s.next _ s.next)
    rw [heap_set_same, hinv.bound s.next (le_refl _)]
    simpa [heap_step] using new_buf_shape vp blkno size h3
  · rw [h6]
    refine ⟨fun q hq => heap_set_other _ _ _ _ hq, rfl, ?_⟩
    show heap_step _ _ (heap_set s.heap p _ p)
    rw [heap_set_same, hb]
    simpa [heap_step] using resized_step b size (hinv.alloc p b hb).1 h5

theorem brelse_cases (s : State) (q : Nat) (s1 : State) (hinv : Inv s)
    (h : brelse s q = .ok s1) :
    ∃ b, s.heap q = some b ∧
      ((b.b_lblkno < 0 ∧
          s1 = { s with heap := heap_set s.heap q (some { b with b_bcount := 0 }) }) ∨
       (0 ≤ b.b_lblkno ∧ ∃ vp, b.b_vp = some vp ∧
          s1 = { s with
            buftail := if !vp.v_logical then s.buftail.erase q else s.buftail,
            heap := heap_set s.heap q none })) := by
  cases hb : s.heap q with
  | none => simp [brelse, hb] at h
  | some b =>
    refine ⟨b, rfl, ?_⟩
    by_cases hn : b.b_lblkno < 0
    · rw [brelse_negative s q b hinv hb hn] at h
      simp only [Except.ok.injEq] at h
      exact Or.inl ⟨hn, h.symm⟩
    · obtain ⟨_, vp, hvp⟩ := hinv.alloc q b hb
      rw [brelse_free s q b vp hinv hb (not_lt.mp hn) hvp] at h
      simp only [Except.ok.injEq] at h
      exact Or.inr ⟨not_lt.mp hn, vp, hvp, h.symm⟩

theorem brelse_heap_step (sz : Prop) (s : State) (q : Nat) (s1 : State) (hinv : Inv s)
    (h : brelse s q = .ok s1) (p : Nat) :
    heap_step sz (s.heap p) (s1.heap p) ∧ s1.disk = s.disk := by
  obtain ⟨b, hb, hc⟩ := brelse_cases s q s1 hinv h
  rcases hc with ⟨_, h1⟩ | ⟨_, vp, _, h1⟩
  · rw [h1]
    refine ⟨heap_step_set sz s.heap q _ ?_ p, rfl⟩
    rw [hb]
    have hcap := hinv.cap q b hb
    refine ⟨rfl, rfl, rfl, le_refl _, ?_, fun _ _ => le_refl _⟩
    rintro ⟨_, hdat, hfs⟩
    exact ⟨hcap, hdat, hfs⟩
  · rw [h1]
    refine ⟨heap_step_set sz s.heap q _ ?_ p, rfl⟩
    simp [heap_step]

theorem bwrite_impl_total (env : sys_outcome) (s : State) (q : Nat) (b : buf)
    (hb : s.heap q = some b) :
    ∃ e d, bwrite_impl env s q = .ok (e, { s with disk := d }) := by
  unfold bwrite_impl
  simp only [hb]
  split
  · exact ⟨_, s.disk, rfl⟩
  · split
    · exact ⟨_, _, rfl⟩
    · split
      · exact ⟨_, _, rfl⟩
      · exact ⟨_, _, rfl⟩

/-- The two ways `bwrite` returns: without a `brelse` when `b_is_hammer2` is
clear, through `brelse` when it is set. -/
theorem bwrite_cases (env : sys_outcome) (s : State) (q : Nat) (e : Int) (s1 : State)
    (h : bwrite env s q = .ok (e, s1)) :
    ∃ b d, s.heap q = some b ∧ bwrite_impl env s q = .ok (e, { s with disk := d }) ∧
      ((b.b_is_hammer2 = false ∧ s1 = { s with disk := d }) ∨
       (b.b_is_hammer2 = true ∧ brelse { s with disk := d } q = .ok s1)) := by
  cases hb : s.heap q with
  | none => simp [bwrite, bwrite_impl, hb] at h
  | some b =>
    obtain ⟨e1, d, hi⟩ := bwrite_impl_total env s q b hb
    unfold bwrite at h
    simp only [hi, hb] at h
    cases hh : b.b_is_hammer2
    · simp only [hh, Bool.false_eq_true, if_false, Except.ok.injEq, Prod.mk.injEq] at h
      obtain ⟨h1, h2⟩ := h
      subst h1
      exact ⟨b, d, rfl, hi, Or.inl ⟨hh, h2.symm⟩⟩
    · simp only [hh, if_true] at h
      cases hr : brelse { s with disk := d } q with
      | error x => simp [hr] at h
      | ok s3 =>
        simp only [hr, Except.ok.injEq, Prod.mk.injEq] at h
        obtain ⟨h1, h2⟩ := h
        subst h1
        subst h2
        exact ⟨b, d, rfl, hi, Or.inr ⟨hh, hr⟩⟩

theorem sys_cap_length_le (env : sys_outcome) (l : List Nat) :
    (sys_cap env l).length ≤ l.length := by
  unfold sys_cap
  split
  · simp [List.length_take]
  · exact le_refl _

theorem sys_cap_full (env : sys_outcome) (l : List Nat)
    (h : l.length ≤ (sys_cap env l).length) : sys_cap env l = l := by
  unfold sys_cap at h ⊢
  split
  · rename_i k hk
    simp only [hk, List.length_take] at h
    exact List.take_of_length_le (by omega)
  · rfl

/-- A `read` that does not return -1 had a count from 0 up within the block,
returns the number of bytes it got, and leaves them at the start of the block. -/
theorem sys_read_ok (env : sys_outcome) (file : List Nat) (offset : Int) (d : List Nat)
    (count : Int) (h : (sys_read env file offset (some d) count).rv ≠ -1) :
    0 ≤ count ∧ count.toNat ≤ d.length ∧
      (sys_read env file offset (some d) count).rv =
        ((sys_cap env ((file.drop offset.toNat).take count.toNat)).length : Int) ∧
      (sys_read env file offset (some d) count).data =
        some (sys_cap env ((file.drop offset.toNat).take count.toNat) ++
          d.drop (sys_cap env ((file.drop offset.toNat).take count.toNat)).length) ∧
      (sys_cap env ((file.drop offset.toNat).take count.toNat)).length ≤ count.toNat := by
  unfold sys_read at h ⊢
  cases he : env.rw_errno with
  | some e => simp [he] at h
  | none =>
    simp only [he] at h ⊢
    by_cases hc : count < 0
    · simp [hc] at h
    · simp only [if_neg hc] at h ⊢
      by_cases hl : (Option.getD (some d) []).length < count.toNat
      · rw [if_pos hl] at h
        exact absurd rfl h
      · simp only [if_neg hl, Option.map_some', true_and]
        refine ⟨not_lt.mp hc, ?_, ?_⟩
        · simpa using hl
        · refine le_trans (sys_cap_length_le _ _) ?_
          simp [List.length_take]

/-- A `bread` that returns has gone through `getblk`, a successful `lseek`
and a `read` of exactly `b_bcount` bytes. -/
theorem bread_cases (env : sys_outcome) (s : State) (vp : vnode) (blkno size : Int)
    (r : Int × Nat × State) (h : bread_read env s vp blkno size = .ok r) :
    ∃ p s1 b, getblk s vp blkno size = .ok (p, s1) ∧ s1.heap p = some b ∧
      sys_lseek env (byte_offset b.b_blkno vp.fs) = none ∧
      (sys_read env (s1.disk b.b_fs.fd) (byte_offset b.b_blkno vp.fs)
        b.b_data b.b_bcount).rv ≠ -1 ∧
      (sys_read env (s1.disk b.b_fs.fd) (byte_offset b.b_blkno vp.fs)
        b.b_data b.b_bcount).rv = b.b_bcount ∧
      r = (0, p, { s1 with heap := heap_set s1.heap p (some { b with
        b_data := (sys_read env (s1.disk b.b_fs.fd)
          (byte_offset b.b_blkno vp.fs) b.b_data b.b_bcount).data }) }) := by
  unfold bread_read at h
  cases hg : getblk s vp blkno size with
  | error x => simp [hg] at h
  | ok g =>
    obtain ⟨p, s1⟩ := g
    simp only [hg] at h
    cases hb : s1.heap p with
    | none => simp [hb] at h
    | some b =>
      simp only [hb] at h
      cases hs : sys_lseek env (byte_offset b.b_blkno vp.fs) with
      | some x => simp [hs] at h
      | none =>
        simp only [hs] at h
        split at h
        · cases h
        · rename_i h1
          split at h
          · cases h
          · rename_i h2
            simp only [Except.ok.injEq] at h
            exact ⟨p, s1, b, rfl, hb, hs, h1, not_not.mp h2, h.symm⟩

theorem heap_step_mono (sz1 sz2 : Prop) (hs : sz2 → sz1) (o o1 : Option buf)
    (h : heap_step sz1 o o1) : heap_step sz2 o o1 := by
  cases o1 with
  | none => simp [heap_step]
  | some b1 =>
    cases o with
    | none => exact h
    | some b =>
      simp only [heap_step, buf_step] at h ⊢
      obtain ⟨h1, h2, h3, h4, h5, h6⟩ := h
      exact ⟨h1, h2, h3, h4, h5, fun x => h6 (hs x)⟩

theorem stored_step (sz : Prop) (b : buf) (blkno : Int) (is_hammer2 : Bool)
    (bytes : List Nat) : buf_step sz b (stored b blkno is_hammer2 bytes) := by
  refine ⟨rfl, rfl, rfl, le_refl _, ?_, fun _ h => h⟩
  rintro ⟨h1, ⟨d, hd, hlen⟩, hfs⟩
  refine ⟨h1, ⟨(bytes ++ d.drop bytes.length).take d.length, by simp [stored, hd], ?_⟩, hfs⟩
  have : ((bytes ++ d.drop bytes.length).take d.length).length = d.length := by
    simp only [List.length_take, List.length_append, List.length_drop]
    omega
  rw [this]
  exact hlen

theorem read_step (sz : Prop) (b : buf) (d got : List Nat) (hd : b.b_data = some d)
    (hgot : got.length ≤ d.length) (hc : 0 ≤ b.b_bcount) :
    buf_step sz b { b with b_data := some (got ++ d.drop got.length) } := by
  refine ⟨rfl, rfl, rfl, le_refl _, ?_, fun _ _ => hc⟩
  rintro ⟨h1, ⟨d2, hd2, hlen⟩, hfs⟩
  rw [hd] at hd2
  cases hd2
  refine ⟨h1, ⟨_, rfl, ?_⟩, hfs⟩
  have : (got ++ d.drop got.length).length = d.length := by
    simp only [List.length_append, List.length_drop]
    omega
  rw [this]
  exact hlen

theorem buf_step_trans (sz1 sz2 : Prop) (b b1 b2 : buf) (h1 : buf_step sz1 b b1)
    (h2 : buf_step sz2 b1 b2) (hc : 0 ≤ b2.b_bcount) : buf_step True b b2 := by
  obtain ⟨a1, a2, a3, a4, a5, _⟩ := h1
  obtain ⟨c1, c2, c3, c4, c5, _⟩ := h2
  exact ⟨c1.trans a1, c2.trans a2, c3.trans a3, le_trans a4 c4, fun x => c5 (a5 x),
    fun _ _ => hc⟩

/-- What a `bread` that returns has done to the buffer behind `*bpp`: the
data block holds the bytes read in front of what it held, and the size is the
number of bytes read. -/
theorem bread_target (env : sys_outcome) (s1 : State) (p : Nat) (b : buf) (offset : Int)
    (hinv1 : Inv s1) (hb : s1.heap p = some b)
    (h1 : (sys_read env (s1.disk b.b_fs.fd) offset b.b_data b.b_bcount).rv ≠ -1) :
    ∃ d, b.b_data = some d ∧ 0 ≤ b.b_bcount ∧ b.b_bcount.toNat ≤ d.length ∧
      (sys_read env (s1.disk b.b_fs.fd) offset b.b_data b.b_bcount).rv =
        ((sys_cap env (((s1.disk b.b_fs.fd).drop offset.toNat).take
          b.b_bcount.toNat)).length : Int) ∧
      (sys_read env (s1.disk b.b_fs.fd) offset b.b_data b.b_bcount).data =
        some (sys_cap env (((s1.disk b.b_fs.fd).drop offset.toNat).take b.b_bcount.toNat) ++
          d.drop (sys_cap env (((s1.disk b.b_fs.fd).drop offset.toNat).take
            b.b_bcount.toNat)).length) ∧
      (sys_cap env (((s1.disk b.b_fs.fd).drop offset.toNat).take
        b.b_bcount.toNat)).length ≤ d.length := by
  have hdn : b.b_data ≠ none := (hinv1.alloc p b hb).1
  cases hd : b.b_data with
  | none => exact absurd hd hdn
  | some d =>
    rw [hd] at h1
    obtain ⟨a1, a2, a3, a4, a5⟩ := sys_read_ok env _ offset d b.b_bcount h1
    exact ⟨d, rfl, a1, a2, a3, a4, le_trans a5 a2⟩

theorem bread_heap_step (env : sys_outcome) (s : State) (vp : vnode) (blkno size : Int)
    (r : Int × Nat × State) (hinv : Inv s) (h : bread_read env s vp blkno size = .ok r)
    (q : Nat) : heap_step True (s.heap q) (r.2.2.heap q) ∧ r.2.2.disk = s.disk := by
  obtain ⟨p, s1, b, hg, hb, _, h1, _, hr⟩ := bread_cases env s vp blkno size r h
  have hinv1 := inv_getblk s vp blkno size p s1 hinv hg
  obtain ⟨hfr, hdisk, htg⟩ := getblk_frame s vp blkno size p s1 hinv hg
  obtain ⟨d, hd, hc, _, _, hdat, hlen⟩ := bread_target env s1 p b _ hinv1 hb h1
  rw [hr, hdat]
  refine ⟨?_, hdisk⟩
  show heap_step True (s.heap q) (heap_set s1.heap p _ q)
  by_cases hqp : q = p
  · subst hqp
    rw [heap_set_same]
    have hrs := read_step True b d _ hd hlen hc
    rw [hb] at htg
    cases hs : s.heap q with
    | none =>
      rw [hs] at htg
      simp only [heap_step] at htg ⊢
      exact ⟨hrs.2.2.2.2.1 htg.1, hc⟩
    | some b0 =>
      rw [hs] at htg
      simp only [heap_step] at htg ⊢
      exact buf_step_trans _ _ b0 b _ htg hrs hc
  · rw [heap_set_other _ _ _ _ hqp, hfr q hqp]
    exact heap_step_refl True _

/-- Every call treats every address by `heap_step`. -/
theorem step_heap (s : State) (op : Op) (s1 : State) (hinv : Inv s)
    (h : step s op = .ok s1) (q : Nat) :
    heap_step (sized op = true) (s.heap q) (s1.heap q) := by
  cases op with
  | getblk vp blkno size =>
    simp only [step] at h
    cases hg : getblk s vp blkno size with
    | error x => simp [hg, Except.map] at h
    | ok g =>
      obtain ⟨p, s2⟩ := g
      simp only [hg, Except.map, Except.ok.injEq] at h
      subst h
      obtain ⟨hfr, _, htg⟩ := getblk_frame s vp blkno size p s2 hinv hg
      by_cases hqp : q = p
      · subst hqp
        exact heap_step_mono _ _ (by simp [sized]) _ _ htg
      · rw [hfr q hqp]
        exact heap_step_refl _ _
  | bread env vp blkno size bpp =>
    simp only [step] at h
    cases hg : bread env s vp blkno size bpp with
    | error x => simp [hg, Except.map] at h
    | ok g =>
      simp only [hg, Except.map, Except.ok.injEq] at h
      subst h
      exact heap_step_mono _ _ (fun _ => trivial) _ _
        (bread_heap_step env s vp blkno size g hinv (bread_returns hg) q).1
  | bwrite env p =>
    simp only [step] at h
    cases hg : bwrite env s p with
    | error x => simp [hg, Except.map] at h
    | ok g =>
      obtain ⟨e, s2⟩ := g
      simp only [hg, Except.map, Except.ok.injEq] at h
      subst h
      obtain ⟨b, d, _, _, hc⟩ := bwrite_cases env s p e s2 hg
      rcases hc with ⟨_, h1⟩ | ⟨_, h1⟩
      · rw [h1]
        exact heap_step_refl _ _
      · exact (brelse_heap_step _ _ p s2 (inv_disk s d hinv) h1 q).1
  | brelse p => exact (brelse_heap_step _ s p s1 hinv h q).1
  | store p blkno h2 bytes =>
    simp only [step] at h
    cases hb : s.heap p with
    | none => simp [caller_store, hb] at h
    | some b =>
      rw [caller_store_eq s p b blkno h2 bytes hb] at h
      simp only [Except.ok.injEq] at h
      subst h
      apply heap_step_set
      rw [hb]
      simpa [heap_step] using stored_step _ b blkno h2 bytes

theorem reachable_of_sized (s : State) (hr : ReachableSized s) : Reachable s := by
  induction hr with
  | start disk => exact Reachable.start disk
  | call op _ _ hstep ih => exact Reachable.call op ih hstep

theorem shape_reachable (s : State) (hr : Reachable s) (p : Nat) (b : buf)
    (hp : s.heap p = some b) : buf_shape b := by
  induction hr generalizing p b with
  | start disk => simp [State.init] at hp
  | call op hprev hstep ih =>
    rename_i s0 s1
    have hs := step_heap s0 op s1 (inv_reachable s0 hprev) hstep p
    rw [hp] at hs
    cases h0 : s0.heap p with
    | none =>
      rw [h0] at hs
      exact hs.1
    | some b0 =>
      rw [h0] at hs
      exact hs.2.2.2.2.1 (ih p b0 h0)

theorem counted_reachable (s : State) (hr : ReachableSized s) (p : Nat) (b : buf)
    (hp : s.heap p = some b) : 0 ≤ b.b_bcount := by
  induction hr generalizing p b with
  | start disk => simp [State.init] at hp
  | call op hprev hsz hstep ih =>
    rename_i s0 s1
    have hs := step_heap s0 op s1 (inv_reachable s0 (reachable_of_sized s0 hprev)) hstep p
    rw [hp] at hs
    cases h0 : s0.heap p with
    | none =>
      rw [h0] at hs
      exact hs.2
    | some b0 =>
      rw [h0] at hs
      exact hs.2.2.2.2.2 hsz (ih p b0 h0)

theorem sized_run (s : State) (ops : List Op) (s1 : State) (hr : ReachableSized s)
    (hops : ops.all sized = true) (h : run s ops = .ok s1) : ReachableSized s1 := by
  induction ops generalizing s with
  | nil =>
    simp only [run, Except.ok.injEq] at h
    rw [← h]
    exact hr
  | cons op ops ih =>
    simp only [List.all_cons, Bool.and_eq_true] at hops
    simp only [run] at h
    cases hs : step s op with
    | error e => simp [hs] at h
    | ok s2 =>
      simp only [hs] at h
      exact ih s2 (ReachableSized.call op hr hops.1 hs) hops.2 h

theorem sized_after (s : State) (hr : ReachableSized s) (ops : List Op)
    (hops : ops.all sized = true) : ReachableSized (after s ops) := by
  unfold after
  cases h : run s ops with
  | error e => exact hr
  | ok s1 => exact sized_run s ops s1 hr hops h

/-! ## C17: sizes, capacities and data blocks -/

/-- C17. In every state reached from process start by `getblk` calls with a
size from 0 up and by `bread`, `bwrite` and `brelse` calls (and caller
stores), every allocated buffer has `0 <= b_bcount <= b_bufsize` and a data
block of exactly `b_bufsize` bytes; and whatever call is made next, with any
arguments, a buffer that is still allocated after it has a `b_bufsize` at
least as large as before. -/
theorem size_capacity_invariant (s : State) (hr : ReachableSized s) :
    (∀ p b, s.heap p = some b →
      0 ≤ b.b_bcount ∧ b.b_bcount ≤ b.b_bufsize ∧
      ∃ d, b.b_data = some d ∧ (d.length : Int) = b.b_bufsize) ∧
    (∀ (op : Op) (s1 : State), step s op = .ok s1 →
      ∀ p b b1, s.heap p = some b → s1.heap p = some b1 → b.b_bufsize ≤ b1.b_bufsize) := by
  have hreach := reachable_of_sized s hr
  constructor
  · intro p b hp
    obtain ⟨h1, h2, _⟩ := shape_reachable s hreach p b hp
    exact ⟨counted_reachable s hr p b hp, h1, h2⟩
  · intro op s1 hstep p b b1 hp hp1
    have hs := step_heap s op s1 (inv_reachable s hreach) hstep p
    rw [hp, hp1] at hs
    exact hs.2.2.2.1

/-- Witness of C17: buffer 1 holds block 7 with `b_bcount = b_bufsize = 4`
and four data bytes; after `getblk(volA, 7, 1)` its capacity is still 4. -/
theorem size_capacity_invariant_witness :
    ReachableSized st_ones4 ∧ st_ones4.heap 1 = some buf_ones4 ∧
      returned (getblk st_ones4 volA 7 1) =
        some (1, [1], some { buf_ones4 with b_bcount := 1 }) ∧
      ((∀ p b, st_ones4.heap p = some b →
        0 ≤ b.b_bcount ∧ b.b_bcount ≤ b.b_bufsize ∧
        ∃ d, b.b_data = some d ∧ (d.length : Int) = b.b_bufsize) ∧
      (∀ (op : Op) (s1 : State), step st_ones4 op = .ok s1 →
        ∀ p b b1, st_ones4.heap p = some b → s1.heap p = some b1 →
          b.b_bufsize ≤ b1.b_bufsize)) :=
  ⟨sized_after _ (ReachableSized.start disk0) _ rfl, by decide, by decide,
    size_capacity_invariant st_ones4 (sized_after _ (ReachableSized.start disk0) _ rfl)⟩

/-! ## C11, C12: what `bwrite` returns and leaves behind -/

theorem brelse_total (s : State) (p : Nat) (b : buf) (hinv : Inv s)
    (hp : s.heap p = some b) : ∃ s1, brelse s p = .ok s1 := by
  by_cases hn : b.b_lblkno < 0
  · exact ⟨_, brelse_negative s p b hinv hp hn⟩
  · obtain ⟨_, vp, hvp⟩ := hinv.alloc p b hp
    exact ⟨_, brelse_free s p b vp hinv hp (not_lt.mp hn) hvp⟩

theorem brelse_disk (s : State) (p : Nat) (s1 : State) (hinv : Inv s)
    (h : brelse s p = .ok s1) : s1.disk = s.disk :=
  (brelse_heap_step True s p s1 hinv h p).2

/-- From what `bwrite_impl` returns to what `bwrite` returns. -/
theorem bwrite_of_impl (env : sys_outcome) (s : State) (p : Nat) (b : buf) (e : Int)
    (s2 : State) (hinv : Inv s) (hp : s.heap p = some b)
    (hi : bwrite_impl env s p = .ok (e, s2)) :
    s2.heap = s.heap ∧ s2.buftail = s.buftail ∧ s2.next = s.next ∧
      s2.buftailinitted = s.buftailinitted ∧
      (b.b_is_hammer2 = false → bwrite env s p = .ok (e, s2)) ∧
      (b.b_is_hammer2 = true →
        ∃ s3, brelse s2 p = .ok s3 ∧ bwrite env s p = .ok (e, s3) ∧ s3.disk = s2.disk) := by
  obtain ⟨d, hd⟩ := bwrite_impl_state env s p e s2 hi
  have hp2 : s2.heap p = some b := by
    rw [hd]
    exact hp
  have hinv2 : Inv s2 := by
    rw [hd]
    exact inv_disk s d hinv
  refine ⟨by rw [hd], by rw [hd], by rw [hd], by rw [hd], ?_, ?_⟩
  · intro hh
    simp only [bwrite, hi, hp2, hh, Bool.false_eq_true, if_false]
  · intro hh
    obtain ⟨s3, hs3⟩ := brelse_total s2 p b hinv2 hp2
    exact ⟨s3, hs3, by simp only [bwrite, hi, hp2, hh, if_true, hs3],
      brelse_disk s2 p s3 hinv2 hs3⟩

/-- The return value of `bwrite_impl`, case by case, for a buffer whose
`b_bcount` is not -1. -/
theorem bwrite_impl_code (env : sys_outcome) (s : State) (p : Nat) (b : buf)
    (hp : s.heap p = some b) (hc : b.b_bcount ≠ -1) :
    ∃ e s2, bwrite_impl env s p = .ok (e, s2) ∧
      (e = 0 ↔ sys_lseek env (byte_offset b.b_blkno b.b_fs) = none ∧
        (sys_write env (s.disk b.b_fs.fd) (byte_offset b.b_blkno b.b_fs)
          b.b_data b.b_bcount).rv = b.b_bcount) ∧
      (∀ err, sys_lseek env (byte_offset b.b_blkno b.b_fs) = some err →
        e = err.val ∧ s2 = s) ∧
      (sys_lseek env (byte_offset b.b_blkno b.b_fs) = none →
        (sys_write env (s.disk b.b_fs.fd) (byte_offset b.b_blkno b.b_fs)
          b.b_data b.b_bcount).rv = -1 →
        e = (sys_write env (s.disk b.b_fs.fd)
          (byte_offset b.b_blkno b.b_fs) b.b_data b.b_bcount).errno.val) ∧
      (sys_lseek env (byte_offset b.b_blkno b.b_fs) = none →
        (sys_write env (s.disk b.b_fs.fd) (byte_offset b.b_blkno b.b_fs)
          b.b_data b.b_bcount).rv ≠ -1 →
        (sys_write env (s.disk b.b_fs.fd) (byte_offset b.b_blkno b.b_fs)
          b.b_data b.b_bcount).rv ≠ b.b_bcount →
        e = EAGAIN.val) ∧
      (sys_lseek env (byte_offset b.b_blkno b.b_fs) = none →
        s2 = { s with disk := fun fd => if fd = b.b_fs.fd then
          (sys_write env (s.disk b.b_fs.fd) (byte_offset b.b_blkno b.b_fs)
            b.b_data b.b_bcount).file else s.disk fd }) := by
  unfold bwrite_impl
  simp only [hp]
  cases hs : sys_lseek env (byte_offset b.b_blkno b.b_fs) with
  | some err =>
    refine ⟨err.val, s, rfl, ?_, ?_, ?_, ?_, ?_⟩
    · constructor
      · intro h0
        have := err.property
        omega
      · rintro ⟨h, _⟩
        cases h
    · intro err2 h
      cases h
      exact ⟨rfl, rfl⟩
    · intro h
      cases h
    · intro h
      cases h
    · intro h
      cases h
  | none =>
    simp only []
    by_cases h1 : (sys_write env (s.disk b.b_fs.fd)
        (byte_offset b.b_blkno b.b_fs) b.b_data b.b_bcount).rv = b.b_bcount
    · simp only [if_pos h1]
      refine ⟨0, _, rfl, ?_, ?_, ?_, ?_, fun _ => rfl⟩
      · exact ⟨fun _ => ⟨trivial, h1⟩, fun _ => rfl⟩
      · intro err h
        cases h
      · intro _ h2
        rw [h2] at h1
        exact absurd h1.symm hc
      · intro _ _ h3
        exact absurd h1 h3
    · simp only [if_neg h1]
      by_cases h2 : (sys_write env (s.disk b.b_fs.fd)
          (byte_offset b.b_blkno b.b_fs) b.b_data b.b_bcount).rv = -1
      · simp only [if_pos h2]
        refine ⟨_, _, rfl, ?_, ?_, ?_, ?_, fun _ => rfl⟩
        · constructor
          · intro h0
            have := (sys_write env (s.disk b.b_fs.fd)
              (byte_offset b.b_blkno b.b_fs) b.b_data
              b.b_bcount).errno.property
            omega
          · rintro ⟨_, h⟩
            exact absurd h (by simpa using h1)
        · intro err h
          cases h
        · intro _ _
          rfl
        · intro _ h3
          exact absurd h2 h3
      · simp only [if_neg h2]
        refine ⟨_, _, rfl, ?_, ?_, ?_, ?_, fun _ => rfl⟩
        · constructor
          · intro h0
            simp [EAGAIN] at h0
          · rintro ⟨_, h⟩
            exact absurd h (by simpa using h1)
        · intro err h
          cases h
        · intro _ h3
          exact absurd h3 (by simpa using h2)
        · intro _ _ _
          rfl

/-- The result codes of `bwrite` away from `b_bcount = -1`. In every reachable
state, for every allocated buffer whose `b_bcount` is not -1 and whatever the
system does to the `lseek` and the `write`, `bwrite` returns (no assertion
fails). It returns 0 exactly when the seek succeeds and the write returns
`b_bcount`; it returns the `errno` of the seek when the seek fails, and the
disk is then untouched; it returns the `errno` of the write when the write
returns -1; and it returns `EAGAIN` when the write returns any other number. -/
theorem bwrite_codes_sound_count (s : State) (hr : Reachable s) (p : Nat) (b : buf)
    (hp : s.heap p = some b) (hc : b.b_bcount ≠ -1) (env : sys_outcome) :
    ∃ e s1, bwrite env s p = .ok (e, s1) ∧
      (e = 0 ↔ sys_lseek env (byte_offset b.b_blkno b.b_fs) = none ∧
        (sys_write env (s.disk b.b_fs.fd) (byte_offset b.b_blkno b.b_fs)
          b.b_data b.b_bcount).rv = b.b_bcount) ∧
      (∀ err, sys_lseek env (byte_offset b.b_blkno b.b_fs) = some err →
        e = err.val ∧ s1.disk = s.disk) ∧
      (sys_lseek env (byte_offset b.b_blkno b.b_fs) = none →
        (sys_write env (s.disk b.b_fs.fd) (byte_offset b.b_blkno b.b_fs)
          b.b_data b.b_bcount).rv = -1 →
        e = (sys_write env (s.disk b.b_fs.fd)
          (byte_offset b.b_blkno b.b_fs) b.b_data b.b_bcount).errno.val) ∧
      (sys_lseek env (byte_offset b.b_blkno b.b_fs) = none →
        (sys_write env (s.disk b.b_fs.fd) (byte_offset b.b_blkno b.b_fs)
          b.b_data b.b_bcount).rv ≠ -1 →
        (sys_write env (s.disk b.b_fs.fd) (byte_offset b.b_blkno b.b_fs)
          b.b_data b.b_bcount).rv ≠ b.b_bcount →
        e = EAGAIN.val) := by
  have hinv := inv_reachable s hr
  obtain ⟨e, s2, hi, h1, h2, h3, h4, _⟩ := bwrite_impl_code env s p b hp hc
  obtain ⟨_, _, _, _, hclear, hset⟩ := bwrite_of_impl env s p b e s2 hinv hp hi
  cases hh : b.b_is_hammer2
  · refine ⟨e, s2, hclear hh, h1, ?_, h3, h4⟩
    intro err herr
    obtain ⟨a1, a2⟩ := h2 err herr
    exact ⟨a1, by rw [a2]⟩
  · obtain ⟨s3, _, hbw, hdisk⟩ := hset hh
    refine ⟨e, s3, hbw, h1, ?_, h3, h4⟩
    intro err herr
    obtain ⟨a1, a2⟩ := h2 err herr
    exact ⟨a1, by rw [hdisk, a2]⟩

/-- The result codes at a buffer with `b_bcount = 4`: `bwrite` of buffer 1
(block 7, four ones) returns 0 when all goes well, 29 when the seek fails with
29, 5 when the write fails with 5, and 35 (`EAGAIN`) when the write stops
after two bytes. -/
theorem bwrite_codes_sound_count_witness :
    Reachable st_ones4 ∧ st_ones4.heap 1 = some buf_ones4 ∧ buf_ones4.b_bcount ≠ -1 ∧
      bwrite_view (bwrite sys_fine st_ones4 1) 1 = some (0, [1], some buf_ones4) ∧
      bwrite_view (bwrite { sys_fine with lseek_errno := some ⟨29, by decide⟩ } st_ones4 1) 1
        = some (29, [1], some buf_ones4) ∧
      bwrite_view (bwrite { sys_fine with rw_errno := some ⟨5, by decide⟩ } st_ones4 1) 1
        = some (5, [1], some buf_ones4) ∧
      bwrite_view (bwrite { sys_fine with rw_limit := some 2 } st_ones4 1) 1
        = some (35, [1], some buf_ones4) ∧
      ∃ e s1, bwrite sys_fine st_ones4 1 = .ok (e, s1) ∧
        (e = 0 ↔ sys_lseek sys_fine
            (byte_offset buf_ones4.b_blkno buf_ones4.b_fs) = none ∧
          (sys_write sys_fine (st_ones4.disk buf_ones4.b_fs.fd)
            (byte_offset buf_ones4.b_blkno buf_ones4.b_fs)
            buf_ones4.b_data buf_ones4.b_bcount).rv = buf_ones4.b_bcount) ∧
        (∀ err, sys_lseek sys_fine
            (byte_offset buf_ones4.b_blkno buf_ones4.b_fs)
              = some err →
          e = err.val ∧ s1.disk = st_ones4.disk) ∧
        (sys_lseek sys_fine
            (byte_offset buf_ones4.b_blkno buf_ones4.b_fs) = none →
          (sys_write sys_fine (st_ones4.disk buf_ones4.b_fs.fd)
            (byte_offset buf_ones4.b_blkno buf_ones4.b_fs)
            buf_ones4.b_data buf_ones4.b_bcount).rv = -1 →
          e = (sys_write sys_fine (st_ones4.disk buf_ones4.b_fs.fd)
            (byte_offset buf_ones4.b_blkno buf_ones4.b_fs)
            buf_ones4.b_data buf_ones4.b_bcount).errno.val) ∧
        (sys_lseek sys_fine
            (byte_offset buf_ones4.b_blkno buf_ones4.b_fs) = none →
          (sys_write sys_fine (st_ones4.disk buf_ones4.b_fs.fd)
            (byte_offset buf_ones4.b_blkno buf_ones4.b_fs)
            buf_ones4.b_data buf_ones4.b_bcount).rv ≠ -1 →
          (sys_write sys_fine (st_ones4.disk buf_ones4.b_fs.fd)
            (byte_offset buf_ones4.b_blkno buf_ones4.b_fs)
            buf_ones4.b_data buf_ones4.b_bcount).rv ≠ buf_ones4.b_bcount →
          e = EAGAIN.val) :=
  ⟨reachable_after _ (Reachable.start disk0) _, by decide, by decide, by decide, by decide,
    by decide, by decide,
    bwrite_codes_sound_count st_ones4 (reachable_after _ (Reachable.start disk0) _) 1
      buf_ones4 (by decide) (by decide) sys_fine⟩

/-- C11, where the code misses it. Buffer 1 of `st_minus` is reached by
`getblk(volA, 7, 4)` followed by `getblk(volA, 7, -1)` and has `b_bcount = -1`.
The system failing the `write` with `EIO`, the seek succeeds and the write
returns -1 with `errno` 5, and `bwrite` returns 0, the code of a full write,
not the `errno` of the write: line 145 compares the return value with
`b_bcount` before line 147 compares it with -1. The `bread` of the same block
with the same size, the `read` failing alike, tests -1 first and ends with
the read error. -/
theorem bwrite_failed_write_returns_zero :
    Reachable st_minus ∧ st_minus.heap 1 = some buf_minus ∧ buf_minus.b_bcount = -1 ∧
      sys_lseek sys_eio (byte_offset buf_minus.b_blkno buf_minus.b_fs) = none ∧
      (sys_write sys_eio (st_minus.disk buf_minus.b_fs.fd)
        (byte_offset buf_minus.b_blkno buf_minus.b_fs)
        buf_minus.b_data buf_minus.b_bcount).rv = -1 ∧
      (sys_write sys_eio (st_minus.disk buf_minus.b_fs.fd)
        (byte_offset buf_minus.b_blkno buf_minus.b_fs)
        buf_minus.b_data buf_minus.b_bcount).errno.val = 5 ∧
      bwrite_view (bwrite sys_eio st_minus 1) 1 = some (0, [1], some buf_minus) ∧
      bwrite_view (bwrite sys_fine st_minus 1) 1 = some (0, [1], some buf_minus) ∧
      (after st_minus [.bwrite sys_eio 1]).disk 3 = st_minus.disk 3 ∧
      bread_fatal (bread sys_eio st_minus volA 7 (-1) (some 0)) = some .read_error :=
  ⟨reachable_after _ (Reachable.start disk0) _, by decide, by decide, by decide, by decide,
    by decide, by decide, by decide, by decide, by decide⟩

/-- C12. In every reachable state, for every allocated buffer and whatever
the system does to the `lseek` and the `write`: the write attempt
`bwrite_impl` returns a code and a state that differs from the old one in
the disk only. When `b_is_hammer2` is set, `brelse` of the buffer in that
state returns, and `bwrite` returns that same code and the state `brelse`
leaves. When `b_is_hammer2` is clear, `bwrite` returns the code and the state
of the write attempt: the queue and every buffer, fields and data, are as
before. -/
theorem bwrite_release_mode (s : State) (hr : Reachable s) (p : Nat) (b : buf)
    (hp : s.heap p = some b) (env : sys_outcome) :
    ∃ e s2, bwrite_impl env s p = .ok (e, s2) ∧
      s2.heap = s.heap ∧ s2.buftail = s.buftail ∧ s2.next = s.next ∧
      s2.buftailinitted = s.buftailinitted ∧
      (b.b_is_hammer2 = true →
        ∃ s3, brelse s2 p = .ok s3 ∧ bwrite env s p = .ok (e, s3)) ∧
      (b.b_is_hammer2 = false → bwrite env s p = .ok (e, s2)) := by
  have hinv := inv_reachable s hr
  obtain ⟨e, d, hi⟩ := bwrite_impl_total env s p b hp
  obtain ⟨a1, a2, a3, a4, hclear, hset⟩ := bwrite_of_impl env s p b e _ hinv hp hi
  refine ⟨e, _, hi, a1, a2, a3, a4, ?_, hclear⟩
  intro hh
  obtain ⟨s3, h1, h2, _⟩ := hset hh
  exact ⟨s3, h1, h2⟩

/-- Witness of C12: buffer 1 of `st_hammer` (block 1 of `volC`, data 7, 8,
`b_is_hammer2` set) is written at byte 3 of descriptor 3 and released:
`bwrite` returns 0, the queue is empty and the buffer freed, also when the
seek fails with 29; buffer 1 of `st_ones4` has the flag clear and stays. -/
theorem bwrite_release_mode_witness :
    Reachable st_hammer ∧ st_hammer.buftail = [1] ∧
      (st_hammer.heap 1).map (fun b => (b.b_is_hammer2, b.b_data)) =
        some (true, some [7, 8]) ∧
      bwrite_view (bwrite sys_fine st_hammer 1) 1 = some (0, [], none) ∧
      (after st_hammer [.bwrite sys_fine 1]).disk 3 = [30, 31, 32, 7, 8, 35, 36, 37] ∧
      bwrite_view (bwrite { sys_fine with lseek_errno := some ⟨29, by decide⟩ } st_hammer 1) 1
        = some (29, [], none) ∧
      bwrite_view (bwrite sys_fine st_ones4 1) 1 = some (0, [1], some buf_ones4) ∧
      ∃ e s2, bwrite_impl sys_fine st_hammer 1 = .ok (e, s2) ∧
        s2.heap = st_hammer.heap ∧ s2.buftail = st_hammer.buftail ∧
        s2.next = st_hammer.next ∧ s2.buftailinitted = st_hammer.buftailinitted ∧
        ((stored (new_buf volC 1 2) 1 true [7, 8]).b_is_hammer2 = true →
          ∃ s3, brelse s2 1 = .ok s3 ∧ bwrite sys_fine st_hammer 1 = .ok (e, s3)) ∧
        ((stored (new_buf volC 1 2) 1 true [7, 8]).b_is_hammer2 = false →
          bwrite sys_fine st_hammer 1 = .ok (e, s2)) :=
  ⟨reachable_after _ (Reachable.start disk34) _, by decide, by decide, by decide, by decide,
    by decide, by decide,
    bwrite_release_mode st_hammer (reachable_after _ (Reachable.start disk34) _) 1
      (stored (new_buf volC 1 2) 1 true [7, 8]) (by decide) sys_fine⟩

/-! ## C16: the listing of `bcleanup` -/

theorem bcleanup_loop_lines (heap : Nat → Option buf) (l : List Nat)
    (hl : ∀ p ∈ l, ∃ b vp, heap p = some b ∧ b.b_vp = some vp ∧ vp.v_logical = false) :
    ∃ ls, bcleanup_loop heap l = .ok ls ∧ ls.map (fun x => x.bp) = l ∧
      ∀ x ∈ ls, ∃ b, heap x.bp = some b ∧ x = bcleanup_line x.bp b := by
  induction l with
  | nil => exact ⟨[], rfl, rfl, by simp⟩
  | cons a t ih =>
    obtain ⟨b, vp, hb, hvp, hv⟩ := hl a (List.mem_cons_self a t)
    obtain ⟨ls, hls, hmap, hall⟩ := ih (fun p hp => hl p (List.mem_cons_of_mem a hp))
    refine ⟨bcleanup_line a b :: ls, ?_, ?_, ?_⟩
    · simp [bcleanup_loop, hb, hvp, hv, hls]
    · simp [hmap, bcleanup_line]
    · intro x hx
      rcases List.mem_cons.mp hx with h | h
      · rw [h]
        exact ⟨b, hb, rfl⟩
      · exact hall x h

/-- C16. In every reachable state `bcleanup` returns and leaves the state it
found. It reports "clean" exactly when the queue is empty. Otherwise it lists
one line per queued buffer, in queue order from the head, no pointer missing
and none twice, each line carrying the `b_lblkno`, `b_blkno`, `b_bcount` and
`b_bufsize` of the buffer it is about. -/
theorem bcleanup_complete (s : State) (hr : Reachable s) :
    ∃ report, bcleanup_call s = .ok (report, s) ∧
      (report = .clean ↔ s.buftail = []) ∧
      (s.buftail ≠ [] →
        ∃ lines, report = .unflushed lines ∧
          lines.map (fun x => x.bp) = s.buftail ∧ lines.length = s.buftail.length ∧
          lines.Nodup ∧
          ∀ x ∈ lines, ∃ b, s.heap x.bp = some b ∧
            x.lblkno = b.b_lblkno ∧ x.blkno = b.b_blkno ∧
            x.count = b.b_bcount ∧ x.bufsize = b.b_bufsize) := by
  have hinv := inv_reachable s hr
  have hl : ∀ p ∈ s.buftail, ∃ b vp, s.heap p = some b ∧ b.b_vp = some vp ∧
      vp.v_logical = false := by
    intro p hp
    obtain ⟨b, vp, h1, _, h3, h4⟩ := hinv.live p hp
    exact ⟨b, vp, h1, h3, h4⟩
  obtain ⟨ls, hls, hmap, hall⟩ := bcleanup_loop_lines s.heap s.buftail hl
  cases hq : s.buftail with
  | nil =>
    refine ⟨.clean, by simp [bcleanup_call, bcleanup, hq], by simp, fun h => absurd rfl h⟩
  | cons a rest =>
    rw [hq] at hls hmap
    refine ⟨.unflushed ls, by simp [bcleanup_call, bcleanup, hq, hls], by simp, ?_⟩
    intro _
    have hnd : (a :: rest).Nodup := by
      rw [← hq]
      exact List.Nodup.of_map _ hinv.uniq
    refine ⟨ls, rfl, hmap, ?_, ?_, ?_⟩
    · rw [← hmap, List.length_map]
    · apply List.Nodup.of_map (fun x => x.bp)
      rw [hmap]
      exact hnd
    · intro x hx
      obtain ⟨b, hb, hx2⟩ := hall x hx
      refine ⟨b, hb, ?_, ?_, ?_, ?_⟩ <;> (rw [hx2]; rfl)

/-- Witness of C16: at process start `bcleanup` reports "clean"; with the
queue 3, 1 it lists buffer 3 (block 9) and then buffer 1 (block 5). -/
theorem bcleanup_complete_witness :
    bcleanup_call (State.init disk0) = .ok (.clean, State.init disk0) ∧
      Reachable st_loose ∧ st_loose.buftail = [3, 1] ∧
      bcleanup st_loose = .ok (.unflushed
        [bcleanup_line 3 (new_buf volA 9 2), bcleanup_line 1 (new_buf volA 5 4)]) ∧
      ∃ report, bcleanup_call st_loose = .ok (report, st_loose) ∧
        (report = .clean ↔ st_loose.buftail = []) ∧
        (st_loose.buftail ≠ [] →
          ∃ lines, report = .unflushed lines ∧
            lines.map (fun x => x.bp) = st_loose.buftail ∧
            lines.length = st_loose.buftail.length ∧
            lines.Nodup ∧
            ∀ x ∈ lines, ∃ b, st_loose.heap x.bp = some b ∧
              x.lblkno = b.b_lblkno ∧ x.blkno = b.b_blkno ∧
              x.count = b.b_bcount ∧ x.bufsize = b.b_bufsize) :=
  ⟨rfl, reachable_after _ (Reachable.start disk0) _, by decide, rfl,
    bcleanup_complete st_loose (reachable_after _ (Reachable.start disk0) _)⟩

/-! ## C18, C19: what a hit changes, and what decides a hit -/

/-- C18. In every reachable state, a `getblk` on a cached volume for the
block number of a queued buffer, with any size, returns that buffer and
leaves the queue the same list, the allocator, the disk and every other
buffer unchanged. On the buffer itself `b_bcount` becomes the size; the data
and `b_bufsize` stay when the size is within the old capacity and become
`size` zero bytes and `size` when it exceeds it; `b_lblkno`, `b_blkno`,
`b_vp`, `b_fs`, `b_is_hammer2`, `b_loffset` and `b_cmd` stay, `b_fs` being
the `fs` of the vnode in `b_vp`, as set at creation. -/
theorem getblk_hit_frame (s : State) (hr : Reachable s) (vp : vnode)
    (hv : vp.v_logical = false) (p : Nat) (b : buf) (hmem : p ∈ s.buftail)
    (hp : s.heap p = some b) (size : Int) :
    ∃ s1 b1, getblk s vp b.b_lblkno size = .ok (p, s1) ∧
      s1.buftail = s.buftail ∧ s1.buftailinitted = s.buftailinitted ∧
      s1.next = s.next ∧ s1.disk = s.disk ∧
      (∀ q, q ≠ p → s1.heap q = s.heap q) ∧
      s1.heap p = some b1 ∧ b1.b_bcount = size ∧
      b1.b_lblkno = b.b_lblkno ∧ b1.b_blkno = b.b_blkno ∧ b1.b_vp = b.b_vp ∧
      b1.b_fs = b.b_fs ∧ b1.b_is_hammer2 = b.b_is_hammer2 ∧
      b1.b_loffset = b.b_loffset ∧ b1.b_cmd = b.b_cmd ∧
      (∃ vp0, b.b_vp = some vp0 ∧ b.b_fs = vp0.fs) ∧
      (size ≤ b.b_bufsize → b1.b_data = b.b_data ∧ b1.b_bufsize = b.b_bufsize) ∧
      (b.b_bufsize < size →
        b1.b_data = some (List.replicate size.toNat 0) ∧ b1.b_bufsize = size) := by
  have hinv := inv_reachable s hr
  have hcap := hinv.cap p b hp
  have hd : b.b_data ≠ none := (hinv.alloc p b hp).1
  have h0 : 0 ≤ size ∨ size ≤ b.b_bufsize := by omega
  have hg := getblk_hit s vp b.b_lblkno size p b hinv hv hmem hp rfl h0
  have hfs := (shape_reachable s hr p b hp).2.2
  by_cases hgrow : b.b_bufsize < size
  · have hc : b.b_data = none ∨ size > b.b_bufsize := Or.inr hgrow
    have he : resized b size =
        { b with b_bcount := size, b_data := some (zeros size), b_bufsize := size } := by
      simp only [resized, if_pos hc]
    rw [he] at hg
    exact ⟨_, _, hg, rfl, rfl, rfl, rfl, fun q hq => heap_set_other _ _ _ _ hq,
      heap_set_same _ _ _, rfl, rfl, rfl, rfl, rfl, rfl, rfl, rfl, hfs,
      fun h => absurd hgrow (not_lt.mpr h), fun _ => ⟨rfl, rfl⟩⟩
  · have hc : ¬ (b.b_data = none ∨ size > b.b_bufsize) := by
      push_neg
      exact ⟨hd, not_lt.mp hgrow⟩
    have he : resized b size = { b with b_bcount := size } := by
      simp only [resized, if_neg hc]
    rw [he] at hg
    exact ⟨_, _, hg, rfl, rfl, rfl, rfl, fun q hq => heap_set_other _ _ _ _ hq,
      heap_set_same _ _ _, rfl, rfl, rfl, rfl, rfl, rfl, rfl, rfl, hfs,
      fun _ => ⟨rfl, rfl⟩, fun h => absurd h hgrow⟩

/-- Witness of C18: with the queue 2, 1, `getblk(volA, 5, 2)` returns the
older buffer 1 with `b_bcount = 2`, and the queue is still 2, 1. -/
theorem getblk_hit_frame_witness :
    Reachable st_two ∧ st_two.buftail = [2, 1] ∧
      st_two.heap 1 = some (new_buf volA 5 4) ∧
      returned (getblk st_two volA 5 2) =
        some (1, [2, 1], some { new_buf volA 5 4 with b_bcount := 2 }) ∧
      ∃ s1 b1, getblk st_two volA (new_buf volA 5 4).b_lblkno 2 = .ok (1, s1) ∧
        s1.buftail = st_two.buftail ∧ s1.buftailinitted = st_two.buftailinitted ∧
        s1.next = st_two.next ∧ s1.disk = st_two.disk ∧
        (∀ q, q ≠ 1 → s1.heap q = st_two.heap q) ∧
        s1.heap 1 = some b1 ∧ b1.b_bcount = 2 ∧
        b1.b_lblkno = (new_buf volA 5 4).b_lblkno ∧
        b1.b_blkno = (new_buf volA 5 4).b_blkno ∧ b1.b_vp = (new_buf volA 5 4).b_vp ∧
        b1.b_fs = (new_buf volA 5 4).b_fs ∧
        b1.b_is_hammer2 = (new_buf volA 5 4).b_is_hammer2 ∧
        b1.b_loffset = (new_buf volA 5 4).b_loffset ∧
        b1.b_cmd = (new_buf volA 5 4).b_cmd ∧
        (∃ vp0, (new_buf volA 5 4).b_vp = some vp0 ∧ (new_buf volA 5 4).b_fs = vp0.fs) ∧
        ((2 : Int) ≤ (new_buf volA 5 4).b_bufsize →
          b1.b_data = (new_buf volA 5 4).b_data ∧
          b1.b_bufsize = (new_buf volA 5 4).b_bufsize) ∧
        ((new_buf volA 5 4).b_bufsize < 2 →
          b1.b_data = some (List.replicate (2 : Int).toNat 0) ∧ b1.b_bufsize = 2) :=
  ⟨reachable_after _ (Reachable.start disk0) _, by decide, by decide, by decide,
    getblk_hit_frame st_two (reachable_after _ (Reachable.start disk0) _) volA rfl 1
      (new_buf volA 5 4) (by decide) (by decide) 2⟩

/-- C19. In every reachable state, when the queue holds a buffer whose `b_vp`
is the volume `vp1` (the buffer `getblk` created for `vp1`; `vp1` is then a
cached volume and `b_fs` is `vp1->fs`), a `getblk` for that buffer's block
number on any cached volume `vp2`, with any size, returns that very
buffer, still with `b_vp = vp1` and `b_fs = vp1->fs`, and allocates and
queues nothing; and the result of the call is the same for every cached
volume that asks. -/
theorem getblk_keyed_by_block (s : State) (hr : Reachable s) (vp1 vp2 : vnode)
    (hv2 : vp2.v_logical = false) (p : Nat) (b : buf) (hmem : p ∈ s.buftail)
    (hp : s.heap p = some b) (hvp : b.b_vp = some vp1) (size : Int) :
    vp1.v_logical = false ∧ b.b_fs = vp1.fs ∧
    (∃ s1 b1, getblk s vp2 b.b_lblkno size = .ok (p, s1) ∧ s1.heap p = some b1 ∧
      b1.b_vp = some vp1 ∧ b1.b_fs = vp1.fs ∧ b1.b_lblkno = b.b_lblkno ∧
      s1.buftail = s.buftail ∧ s1.next = s.next) ∧
    (∀ vp3 : vnode, vp3.v_logical = false →
      getblk s vp3 b.b_lblkno size = getblk s vp2 b.b_lblkno size) := by
  have hinv := inv_reachable s hr
  have hcap := hinv.cap p b hp
  have h0 : 0 ≤ size ∨ size ≤ b.b_bufsize := by omega
  have hv1 : vp1.v_logical = false := by
    obtain ⟨b0, v0, h1, _, h3, h4⟩ := hinv.live p hmem
    rw [hp] at h1
    cases h1
    rw [hvp] at h3
    cases h3
    exact h4
  have hfs : b.b_fs = vp1.fs := by
    obtain ⟨v0, h1, h2⟩ := (shape_reachable s hr p b hp).2.2
    rw [hvp] at h1
    cases h1
    exact h2
  have hg := getblk_hit s vp2 b.b_lblkno size p b hinv hv2 hmem hp rfl h0
  have hstep := resized_step b size (hinv.alloc p b hp).1 h0
  refine ⟨hv1, hfs, ⟨_, resized b size, hg, heap_set_same _ _ _, hstep.2.1.trans hvp,
    hstep.2.2.1.trans hfs, hstep.1, rfl, rfl⟩, ?_⟩
  intro vp3 hv3
  rw [hg, getblk_hit s vp3 b.b_lblkno size p b hinv hv3 hmem hp rfl h0]

/-- Witness of C19: block 1 was acquired for `volD` (descriptor 4) and is
buffer 1; `getblk(volC, 1, 2)` for `volC` (descriptor 3) returns buffer 1,
which still has `b_vp = volD` and the `fs` of `volD`, and the queue is still
the single entry 1. -/
theorem getblk_keyed_by_block_witness :
    Reachable st_volD ∧ st_volD.buftail = [1] ∧ st_volD.heap 1 = some (new_buf volD 1 2) ∧
      volC.fs ≠ volD.fs ∧
      returned (getblk st_volD volC 1 2) = some (1, [1], some (new_buf volD 1 2)) ∧
      (volD.v_logical = false ∧ (new_buf volD 1 2).b_fs = volD.fs ∧
      (∃ s1 b1, getblk st_volD volC (new_buf volD 1 2).b_lblkno 2 = .ok (1, s1) ∧
        s1.heap 1 = some b1 ∧
        b1.b_vp = some volD ∧ b1.b_fs = volD.fs ∧
        b1.b_lblkno = (new_buf volD 1 2).b_lblkno ∧
        s1.buftail = st_volD.buftail ∧ s1.next = st_volD.next) ∧
      (∀ vp3 : vnode, vp3.v_logical = false →
        getblk st_volD vp3 (new_buf volD 1 2).b_lblkno 2 =
          getblk st_volD volC (new_buf volD 1 2).b_lblkno 2)) :=
  ⟨reachable_after _ (Reachable.start disk34) _, by decide, by decide, by decide, by decide,
    getblk_keyed_by_block st_volD (reachable_after _ (Reachable.start disk34) _) volD volC
      rfl 1 (new_buf volD 1 2) (by decide) (by decide) rfl 2⟩

/-! ## C13, C14, C15: `bread`, and `bwrite` after it -/

/-- With a size from 0 up `getblk` returns, whatever the volume, a buffer of
that size; the buffer is new with `b_fs = vp->fs` when the volume is not
cached or no queued buffer carries the block number. -/
theorem getblk_total (s : State) (vp : vnode) (blkno size : Int) (hinv : Inv s)
    (h0 : 0 ≤ size) :
    ∃ p s1 b1, getblk s vp blkno size = .ok (p, s1) ∧ s1.heap p = some b1 ∧
      b1.b_bcount = size ∧
      ((vp.v_logical = true ∨
          ∀ q ∈ s.buftail, ∀ b, s.heap q = some b → b.b_lblkno ≠ blkno) →
        b1.b_fs = vp.fs) := by
  cases hv : vp.v_logical
  · by_cases hm : ∀ q ∈ s.buftail, lblkno_at s.heap q ≠ some blkno
    · exact ⟨s.next, _, new_buf vp blkno size, getblk_miss s vp blkno size hinv hv hm h0,
        heap_set_same _ _ _, rfl, fun _ => rfl⟩
    · push_neg at hm
      obtain ⟨q, hmem, hql⟩ := hm
      obtain ⟨b, _, hb, _⟩ := hinv.live q hmem
      have hbl : b.b_lblkno = blkno := by simpa [lblkno_at, hb] using hql
      refine ⟨q, _, resized b size,
        getblk_hit s vp blkno size q b hinv hv hmem hb hbl (Or.inl h0),
        heap_set_same _ _ _, ?_, ?_⟩
      · unfold resized
        split <;> rfl
      · rintro (h | h)
        · cases h
        · exact absurd hbl (h q hmem b hb)
  · exact ⟨s.next, _, new_buf vp blkno size, getblk_logical s vp blkno size hv h0,
      heap_set_same _ _ _, rfl, fun _ => rfl⟩

/-- Whatever the size, `getblk` either ends on the allocation, the size
then being negative, or returns a buffer of that size. -/
theorem getblk_outcome (s : State) (vp : vnode) (blkno size : Int) (hinv : Inv s) :
    (getblk s vp blkno size = .error .alloc_failed ∧ size < 0) ∨
    ∃ p s1 b1, getblk s vp blkno size = .ok (p, s1) ∧ s1.heap p = some b1 ∧
      b1.b_bcount = size := by
  by_cases h0 : 0 ≤ size
  · obtain ⟨p, s1, b1, hg, hb, hc, _⟩ := getblk_total s vp blkno size hinv h0
    exact Or.inr ⟨p, s1, b1, hg, hb, hc⟩
  · have hneg : size < 0 := not_le.mp h0
    cases hv : vp.v_logical
    · by_cases hm : ∀ q ∈ s.buftail, lblkno_at s.heap q ≠ some blkno
      · exact Or.inl ⟨getblk_miss_fail s vp blkno size hinv hv hm hneg, hneg⟩
      · push_neg at hm
        obtain ⟨q, hmem, hql⟩ := hm
        obtain ⟨b, _, hb, _⟩ := hinv.live q hmem
        have hbl : b.b_lblkno = blkno := by simpa [lblkno_at, hb] using hql
        have hcap := hinv.cap q b hb
        refine Or.inr ⟨q, _, resized b size,
          getblk_hit s vp blkno size q b hinv hv hmem hb hbl (Or.inr (by omega)),
          heap_set_same _ _ _, ?_⟩
        unfold resized
        split <;> rfl
    · exact Or.inl ⟨getblk_logical_fail s vp blkno size hv hneg, hneg⟩

/-- The four ways `bread` ends once `getblk` has returned. -/
theorem bread_outcomes (env : sys_outcome) (s : State) (vp : vnode) (blkno size : Int)
    (p : Nat) (s1 : State) (b : buf) (hg : getblk s vp blkno size = .ok (p, s1))
    (hb : s1.heap p = some b) :
    (sys_lseek env (byte_offset b.b_blkno vp.fs) ≠ none →
      bread_read env s vp blkno size = .error .lseek_failed) ∧
    (sys_lseek env (byte_offset b.b_blkno vp.fs) = none →
      (sys_read env (s1.disk b.b_fs.fd) (byte_offset b.b_blkno vp.fs)
        b.b_data b.b_bcount).rv = -1 →
      bread_read env s vp blkno size = .error .read_error) ∧
    (sys_lseek env (byte_offset b.b_blkno vp.fs) = none →
      (sys_read env (s1.disk b.b_fs.fd) (byte_offset b.b_blkno vp.fs)
        b.b_data b.b_bcount).rv ≠ -1 →
      (sys_read env (s1.disk b.b_fs.fd) (byte_offset b.b_blkno vp.fs)
        b.b_data b.b_bcount).rv ≠ b.b_bcount →
      bread_read env s vp blkno size = .error .short_read) ∧
    (sys_lseek env (byte_offset b.b_blkno vp.fs) = none →
      (sys_read env (s1.disk b.b_fs.fd) (byte_offset b.b_blkno vp.fs)
        b.b_data b.b_bcount).rv ≠ -1 →
      (sys_read env (s1.disk b.b_fs.fd) (byte_offset b.b_blkno vp.fs)
        b.b_data b.b_bcount).rv = b.b_bcount →
      bread_read env s vp blkno size = .ok (0, p,
        { s1 with heap := heap_set s1.heap p (some { b with
          b_data := (sys_read env (s1.disk b.b_fs.fd)
            (byte_offset b.b_blkno vp.fs) b.b_data b.b_bcount).data }) })) := by
  refine ⟨?_, ?_, ?_, ?_⟩
  · intro hs
    cases hl : sys_lseek env (byte_offset b.b_blkno vp.fs) with
    | none => exact absurd hl hs
    | some x => simp only [bread_read, hg, hb, hl]
  · intro hs h1
    simp only [bread_read, hg, hb, hs, if_pos h1]
  · intro hs h1 h2
    simp only [bread_read, hg, hb, hs, if_neg h1, if_pos h2]
  · intro hs h1 h2
    simp only [bread_read, hg, hb, hs, if_neg h1, if_neg (not_not.mpr h2)]

/-- A `read` that returns `count` has put the `count` bytes of the file from
`offset` on at the start of the block and kept the length of the block. -/
theorem sys_read_full (env : sys_outcome) (file : List Nat) (offset : Int) (d : List Nat)
    (count : Int) (h0 : 0 ≤ count)
    (h : (sys_read env file offset (some d) count).rv = count) :
    ∃ d2, (sys_read env file offset (some d) count).data = some d2 ∧
      d2 = (file.drop offset.toNat).take count.toNat ++ d.drop count.toNat ∧
      ((file.drop offset.toNat).take count.toNat).length = count.toNat ∧
      d2.take count.toNat = (file.drop offset.toNat).take count.toNat ∧
      d2.length = d.length := by
  have hne : (sys_read env file offset (some d) count).rv ≠ -1 := by
    rw [h]
    omega
  obtain ⟨_, a2, a3, a4, a5⟩ := sys_read_ok env file offset d count hne
  rw [h] at a3
  have hlen : (sys_cap env ((file.drop offset.toNat).take count.toNat)).length
      = count.toNat := by omega
  have hX : ((file.drop offset.toNat).take count.toNat).length ≤ count.toNat := by
    simp [List.length_take]
  have hfull := sys_cap_full env ((file.drop offset.toNat).take count.toNat) (by omega)
  rw [hfull] at a4 hlen
  refine ⟨_, a4, by rw [hlen], hlen, List.take_left' hlen, ?_⟩
  simp only [List.length_append, List.length_drop]
  omega

/-- A `write` that returns `count`, of a block that starts with the `count`
bytes the file holds from `offset` on, leaves the file as it was. -/
theorem sys_write_same (env : sys_outcome) (file : List Nat) (offset : Int)
    (d2 rest : List Nat) (count : Int) (h0 : 0 ≤ count)
    (hd2 : d2 = (file.drop offset.toNat).take count.toNat ++ rest)
    (hX : ((file.drop offset.toNat).take count.toNat).length = count.toNat)
    (h : (sys_write env file offset (some d2) count).rv = count) :
    (sys_write env file offset (some d2) count).file = file := by
  unfold sys_write at h ⊢
  cases he : env.rw_errno with
  | some e =>
    simp only [he] at h
    omega
  | none =>
    simp only [he] at h ⊢
    have hc : ¬ count < 0 := not_lt.mpr h0
    simp only [if_neg hc] at h ⊢
    by_cases hl : (Option.getD (some d2) []).length < count.toNat
    · rw [if_pos hl] at h
      simp only at h
      omega
    · rw [if_neg hl] at h
      rw [if_neg hl]
      simp only [Option.getD_some] at h ⊢
      have htake : d2.take count.toNat = (file.drop offset.toNat).take count.toNat := by
        rw [hd2]
        exact List.take_left' hX
      rw [htake] at h ⊢
      have hfull := sys_cap_full env ((file.drop offset.toNat).take count.toNat) (by omega)
      rw [hfull]
      by_cases hnil : (file.drop offset.toNat).take count.toNat = []
      · rw [if_pos hnil]
      · rw [if_neg hnil]
        have hpos : 0 < ((file.drop offset.toNat).take count.toNat).length :=
          List.length_pos.mpr hnil
        have hoff : offset.toNat ≤ file.length := by
          simp only [List.length_take, List.length_drop] at hpos
          omega
        rw [List.take_append_of_le_length hoff, hX, List.append_assoc]
        have hdd : file.drop (offset.toNat + count.toNat)
            = (file.drop offset.toNat).drop count.toNat := by
          rw [List.drop_drop, Nat.add_comm]
        rw [hdd, List.take_append_drop, List.take_append_drop]

/-- C13, as the code has it. In every reachable state, for every volume,
block number and size from 0 up, `getblk` returns a buffer, whose `b_fs` is
the `fs` of the vnode in its `b_vp`, and is `vp->fs` when the call created
the buffer. The byte offset of line 72, computed in the 64-bit `off_t` from
`b_blkno` and the sector size and offset of `vp->fs`, is
`b_blkno * sectorsize + offset` whenever that fits in 64 bits. When the seek
to it succeeds and the read returns `size`, `bread` returns 0 and that
buffer, the rest of the state being as `getblk` left it; the first `size`
data bytes are the `size` bytes found, in the file behind the buffer's own
descriptor `b_fs->fd`, at that byte offset; the data block keeps its length
and the disk is unchanged. -/
theorem bread_reads_storage (s : State) (hr : Reachable s) (vp : vnode)
    (blkno size : Int) (h0 : 0 ≤ size) (env : sys_outcome) (bpp : Nat) :
    ∃ p s1 b1, getblk s vp blkno size = .ok (p, s1) ∧ s1.heap p = some b1 ∧
      (∃ vp0, b1.b_vp = some vp0 ∧ b1.b_fs = vp0.fs) ∧
      ((vp.v_logical = true ∨
          ∀ q ∈ s.buftail, ∀ b, s.heap q = some b → b.b_lblkno ≠ blkno) →
        b1.b_fs = vp.fs) ∧
      (-9223372036854775808 ≤ b1.b_blkno * vp.fs.sectorsize + vp.fs.offset ∧
          b1.b_blkno * vp.fs.sectorsize + vp.fs.offset < 9223372036854775808 →
        byte_offset b1.b_blkno vp.fs = b1.b_blkno * vp.fs.sectorsize + vp.fs.offset) ∧
      (sys_lseek env (byte_offset b1.b_blkno vp.fs) = none →
        (sys_read env (s.disk b1.b_fs.fd) (byte_offset b1.b_blkno vp.fs)
          b1.b_data b1.b_bcount).rv = size →
        ∃ s2 d2, bread env s vp blkno size (some bpp) = .ok (0, p, s2) ∧
          s2.heap p = some { b1 with b_data := some d2 } ∧
          d2.take size.toNat =
            ((s.disk b1.b_fs.fd).drop
              (byte_offset b1.b_blkno vp.fs).toNat).take size.toNat ∧
          (d2.take size.toNat).length = size.toNat ∧
          (d2.length : Int) = b1.b_bufsize ∧
          (∀ q, q ≠ p → s2.heap q = s1.heap q) ∧
          s2.buftail = s1.buftail ∧ s2.disk = s.disk) := by
  have hinv := inv_reachable s hr
  obtain ⟨p, s1, b1, hg, hb1, hcnt, hnew⟩ := getblk_total s vp blkno size hinv h0
  have hr1 : Reachable s1 := Reachable.call (.getblk vp blkno size) hr
    (by simp [step, hg, Except.map])
  have hdisk : s1.disk = s.disk := getblk_disk s vp blkno size p s1 hinv hg
  obtain ⟨_, ⟨d, hd, hdlen⟩, hfs⟩ := shape_reachable s1 hr1 p b1 hb1
  refine ⟨p, s1, b1, hg, hb1, hfs, hnew, byte_offset_exact b1.b_blkno vp.fs, ?_⟩
  intro hseek hread
  rw [← hdisk, hd, hcnt] at hread
  obtain ⟨d2, e1, _, e3, e4, e5⟩ :=
    sys_read_full env (s1.disk b1.b_fs.fd) _ d size h0 hread
  have hdata : (sys_read env (s1.disk b1.b_fs.fd)
      (byte_offset b1.b_blkno vp.fs) b1.b_data b1.b_bcount).data
        = some d2 := by
    rw [hd, hcnt]
    exact e1
  have hok := (bread_outcomes env s vp blkno size p s1 b1 hg hb1).2.2.2 hseek
    (by rw [hd, hcnt, hread]; omega) (by rw [hd, hcnt, hread])
  rw [hdata] at hok
  refine ⟨_, d2, hok, heap_set_same _ _ _, ?_, ?_, ?_,
    fun q hq => heap_set_other _ _ _ _ hq, rfl, hdisk⟩
  · rw [← hdisk]
    exact e4
  · rw [e4]
    exact e3
  · rw [e5]
    exact hdlen

/-- Witness of C13 (amended): on `disk34`, `bread(volC, 1, 2)` from process
start creates buffer 1 and fills it with the bytes 33, 34 found at byte
1 * 2 + 1 = 3 behind descriptor 3. -/
theorem bread_reads_storage_witness :
    bread_view (bread sys_fine (State.init disk34) volC 1 2 (some 0)) =
        some (0, 1, some { new_buf volC 1 2 with b_data := some [33, 34] }) ∧
      byte_offset 1 volC.fs = 3 ∧
      ((disk34 3).drop 3).take 2 = [33, 34] ∧
      ∃ p s1 b1, getblk (State.init disk34) volC 1 2 = .ok (p, s1) ∧ s1.heap p = some b1 ∧
        (∃ vp0, b1.b_vp = some vp0 ∧ b1.b_fs = vp0.fs) ∧
        ((volC.v_logical = true ∨
            ∀ q ∈ (State.init disk34).buftail, ∀ b, (State.init disk34).heap q = some b →
              b.b_lblkno ≠ 1) →
          b1.b_fs = volC.fs) ∧
        (-9223372036854775808 ≤ b1.b_blkno * volC.fs.sectorsize + volC.fs.offset ∧
            b1.b_blkno * volC.fs.sectorsize + volC.fs.offset < 9223372036854775808 →
          byte_offset b1.b_blkno volC.fs =
            b1.b_blkno * volC.fs.sectorsize + volC.fs.offset) ∧
        (sys_lseek sys_fine (byte_offset b1.b_blkno volC.fs) = none →
          (sys_read sys_fine ((State.init disk34).disk b1.b_fs.fd)
            (byte_offset b1.b_blkno volC.fs) b1.b_data b1.b_bcount).rv
              = 2 →
          ∃ s2 d2, bread sys_fine (State.init disk34) volC 1 2 (some 0) = .ok (0, p, s2) ∧
            s2.heap p = some { b1 with b_data := some d2 } ∧
            d2.take (2 : Int).toNat =
              (((State.init disk34).disk b1.b_fs.fd).drop
                (byte_offset b1.b_blkno volC.fs).toNat).take
                  (2 : Int).toNat ∧
            (d2.take (2 : Int).toNat).length = (2 : Int).toNat ∧
            (d2.length : Int) = b1.b_bufsize ∧
            (∀ q, q ≠ p → s2.heap q = s1.heap q) ∧
            s2.buftail = s1.buftail ∧ s2.disk = (State.init disk34).disk) :=
  ⟨by decide, by decide, by decide,
    bread_reads_storage (State.init disk34) (Reachable.start disk34) volC 1 2 (by decide)
      sys_fine 0⟩

/-- Counterexample to C13 as stated: block 1 is queued as buffer 1, created
for `volD` (descriptor 4). `bread(volC, 1, 2)` for `volC` (descriptor 3, image
at byte 1) seeks to 1 * 2 + 1 = 3 and reads two bytes, returns 0, and the
buffer holds 43, 44, the bytes at offset 3 behind descriptor 4: not the bytes
33, 34 at that offset of the Storage Handle of `volC`. -/
theorem bread_other_volume_storage :
    Reachable st_volD ∧ volC.v_logical = false ∧ volC.fs.fd = 3 ∧
      bread_view (bread sys_fine st_volD volC 1 2 (some 0)) =
        some (0, 1, some { new_buf volD 1 2 with b_data := some [43, 44] }) ∧
      byte_offset 1 volC.fs = 1 * volC.fs.sectorsize + volC.fs.offset ∧
      ((st_volD.disk volC.fs.fd).drop
        (1 * volC.fs.sectorsize + volC.fs.offset).toNat).take 2 = [33, 34] ∧
      ((st_volD.disk volD.fs.fd).drop
        (1 * volC.fs.sectorsize + volC.fs.offset).toNat).take 2 = [43, 44] :=
  ⟨reachable_after _ (Reachable.start disk34) _, rfl, rfl, by decide, by decide, by decide,
    by decide⟩

/-- The byte offset where the exact value does not fit in 64 bits: for block
2^62 + 1 and four-byte sectors it is 4; for block 2^62 of `volC` it is
negative, the `lseek` fails with `EINVAL`, and so `bwrite` returns 22 with the
disk untouched and `bread` ends the process. -/
theorem byte_offset_overflow :
    byte_offset 4611686018427387905 { fd := 3, sectorsize := 4, offset := 0 } = 4 ∧
      byte_offset 4611686018427387904 volC.fs = -9223372036854775807 ∧
      Reachable st_far ∧
      st_far.heap 1 = some (new_buf volC 4611686018427387904 2) ∧
      bwrite_view (bwrite sys_fine st_far 1) 1 =
        some (22, [1], some (new_buf volC 4611686018427387904 2)) ∧
      (after st_far [.bwrite sys_fine 1]).disk 3 = disk34 3 ∧
      bread_fatal (bread sys_fine (State.init disk34) volC 4611686018427387904 2 (some 0)) =
        some .lseek_failed :=
  ⟨by decide, by decide, reachable_after _ (Reachable.start disk34) _, by decide, by decide,
    by decide, by decide⟩

/-- C14, as the code has it. In every reachable state, for every volume,
block number and size, whatever `bpp` is and whatever the system does to the
`lseek` and the `read`: `bread` ends the process exactly when `bpp` is `NULL`
(the assertion of line 66), or the allocation in `getblk` fails, or `getblk`
returns a buffer and then the seek fails, or the read returns -1, or the read
returns a number other than `size`. The endings are `assertion`,
`alloc_failed`, `lseek_failed`, `read_error` and `short_read` in that order of
precedence; `getblk` either fails on the allocation or returns a buffer with
`b_bcount = size`. In every other case `bread` returns 0; the value `bread`
returns is never anything but 0. -/
theorem bread_fatal_iff (s : State) (hr : Reachable s) (vp : vnode)
    (blkno size : Int) (env : sys_outcome) (bpp : Option Nat) :
    ((∃ e, bread env s vp blkno size bpp = .error e) ↔
      (bpp = none ∨ getblk s vp blkno size = .error .alloc_failed ∨
        ∃ p s1 b1, getblk s vp blkno size = .ok (p, s1) ∧ s1.heap p = some b1 ∧
          (sys_lseek env (byte_offset b1.b_blkno vp.fs) ≠ none ∨
           (sys_read env (s1.disk b1.b_fs.fd) (byte_offset b1.b_blkno vp.fs)
              b1.b_data b1.b_bcount).rv = -1 ∨
           (sys_read env (s1.disk b1.b_fs.fd) (byte_offset b1.b_blkno vp.fs)
              b1.b_data b1.b_bcount).rv ≠ size))) ∧
    (bpp = none → bread env s vp blkno size bpp = .error .assertion) ∧
    (bpp ≠ none → getblk s vp blkno size = .error .alloc_failed →
      bread env s vp blkno size bpp = .error .alloc_failed) ∧
    (getblk s vp blkno size = .error .alloc_failed ∨
      ∃ p s1 b1, getblk s vp blkno size = .ok (p, s1) ∧ s1.heap p = some b1 ∧
        b1.b_bcount = size) ∧
    (∀ (p : Nat) (s1 : State) (b1 : buf), bpp ≠ none →
      getblk s vp blkno size = .ok (p, s1) → s1.heap p = some b1 →
      (sys_lseek env (byte_offset b1.b_blkno vp.fs) ≠ none →
        bread env s vp blkno size bpp = .error .lseek_failed) ∧
      (sys_lseek env (byte_offset b1.b_blkno vp.fs) = none →
        (sys_read env (s1.disk b1.b_fs.fd) (byte_offset b1.b_blkno vp.fs)
          b1.b_data b1.b_bcount).rv = -1 →
        bread env s vp blkno size bpp = .error .read_error) ∧
      (sys_lseek env (byte_offset b1.b_blkno vp.fs) = none →
        (sys_read env (s1.disk b1.b_fs.fd) (byte_offset b1.b_blkno vp.fs)
          b1.b_data b1.b_bcount).rv ≠ -1 →
        (sys_read env (s1.disk b1.b_fs.fd) (byte_offset b1.b_blkno vp.fs)
          b1.b_data b1.b_bcount).rv ≠ size →
        bread env s vp blkno size bpp = .error .short_read) ∧
      (sys_lseek env (byte_offset b1.b_blkno vp.fs) = none →
        (sys_read env (s1.disk b1.b_fs.fd) (byte_offset b1.b_blkno vp.fs)
          b1.b_data b1.b_bcount).rv ≠ -1 →
        (sys_read env (s1.disk b1.b_fs.fd) (byte_offset b1.b_blkno vp.fs)
          b1.b_data b1.b_bcount).rv = size →
        ∃ s2, bread env s vp blkno size bpp = .ok (0, p, s2))) ∧
    (∀ (rc : Int) (q : Nat) (s2 : State),
      bread env s vp blkno size bpp = .ok (rc, q, s2) → rc = 0) ∧
    ((∀ e, bread env s vp blkno size bpp ≠ .error e) →
      ∃ q s2, bread env s vp blkno size bpp = .ok (0, q, s2)) := by
  have hinv := inv_reachable s hr
  have hout := getblk_outcome s vp blkno size hinv
  have hzero : ∀ (rc : Int) (q : Nat) (s2 : State),
      bread env s vp blkno size bpp = .ok (rc, q, s2) → rc = 0 := by
    intro rc q s2 h
    obtain ⟨_, _, _, _, _, _, _, _, hr2⟩ :=
      bread_cases env s vp blkno size _ (bread_returns h)
    simp only [Prod.mk.injEq] at hr2
    exact hr2.1
  have hcnt : ∀ (p : Nat) (s1 : State) (b1 : buf),
      getblk s vp blkno size = .ok (p, s1) → s1.heap p = some b1 → b1.b_bcount = size := by
    intro p s1 b1 hg hb
    rcases hout with ⟨hf, _⟩ | ⟨p0, s0, b0, hg0, hb0, hc0⟩
    · rw [hf] at hg
      cases hg
    · rw [hg0] at hg
      simp only [Except.ok.injEq, Prod.mk.injEq] at hg
      obtain ⟨h1, h2⟩ := hg
      subst h1
      subst h2
      rw [hb0] at hb
      cases hb
      exact hc0
  have hlast : (∀ e, bread env s vp blkno size bpp ≠ .error e) →
      ∃ q s2, bread env s vp blkno size bpp = .ok (0, q, s2) := by
    intro hne
    cases hres : bread env s vp blkno size bpp with
    | error e => exact absurd hres (hne e)
    | ok r =>
      obtain ⟨rc, q, s2⟩ := r
      have := hzero rc q s2 hres
      subst this
      exact ⟨q, s2, rfl⟩
  cases bpp with
  | none =>
    refine ⟨⟨fun _ => Or.inl rfl, fun _ => ⟨.assertion, rfl⟩⟩, fun _ => rfl,
      fun h => absurd rfl h, ?_, fun _ _ _ h => absurd rfl h, hzero, hlast⟩
    rcases hout with ⟨hf, _⟩ | h
    · exact Or.inl hf
    · exact Or.inr h
  | some a =>
    have hread : bread env s vp blkno size (some a) = bread_read env s vp blkno size := rfl
    have hfail : getblk s vp blkno size = .error .alloc_failed →
        bread env s vp blkno size (some a) = .error .alloc_failed := by
      intro hf
      rw [hread]
      simp only [bread_read, hf]
    refine ⟨⟨?_, ?_⟩, fun h => (by cases h), fun _ => hfail, ?_, ?_, hzero, hlast⟩
    · rintro ⟨e, he⟩
      rw [hread] at he
      rcases hout with ⟨hf, _⟩ | ⟨p, s1, b1, hg, hb, hc⟩
      · exact Or.inr (Or.inl hf)
      · refine Or.inr (Or.inr ⟨p, s1, b1, hg, hb, ?_⟩)
        obtain ⟨_, _, _, o4⟩ := bread_outcomes env s vp blkno size p s1 b1 hg hb
        by_contra hcon
        push_neg at hcon
        obtain ⟨c1, c2, c3⟩ := hcon
        rw [o4 c1 c2 (c3.trans hc.symm)] at he
        cases he
    · rintro (h | h | ⟨p, s1, b1, hg, hb, h⟩)
      · cases h
      · exact ⟨_, hfail h⟩
      · have hc := hcnt p s1 b1 hg hb
        obtain ⟨o1, o2, o3, _⟩ := bread_outcomes env s vp blkno size p s1 b1 hg hb
        rw [hread]
        rcases h with h | h | h
        · exact ⟨_, o1 h⟩
        · cases hs : sys_lseek env (byte_offset b1.b_blkno vp.fs) with
          | some x => exact ⟨_, o1 (by rw [hs]; simp)⟩
          | none => exact ⟨_, o2 hs h⟩
        · cases hs : sys_lseek env (byte_offset b1.b_blkno vp.fs) with
          | some x => exact ⟨_, o1 (by rw [hs]; simp)⟩
          | none =>
            by_cases h1 : (sys_read env (s1.disk b1.b_fs.fd)
                (byte_offset b1.b_blkno vp.fs) b1.b_data b1.b_bcount).rv = -1
            · exact ⟨_, o2 hs h1⟩
            · exact ⟨_, o3 hs h1 (fun heq => h (heq.trans hc))⟩
    · rcases hout with ⟨hf, _⟩ | h
      · exact Or.inl hf
      · exact Or.inr h
    · intro p s1 b1 _ hg hb
      have hc := hcnt p s1 b1 hg hb
      obtain ⟨o1, o2, o3, o4⟩ := bread_outcomes env s vp blkno size p s1 b1 hg hb
      rw [hread]
      refine ⟨o1, o2, ?_, ?_⟩
      · intro hs h1 h2
        exact o3 hs h1 (fun heq => h2 (heq.trans hc))
      · intro hs h1 h2
        exact ⟨_, o4 hs h1 (h2.trans hc.symm)⟩

/-- Witness of C14 (amended): on `disk34`, `bread(volC, 1, 2)` returns 0 when
all goes well; it ends with `lseek_failed` when the seek fails, with
`read_error` when the read fails, with `short_read` when the read stops after
one byte or when, for block 3, only one byte is left in the file, and with
`assertion` when `bpp` is `NULL`. -/
theorem bread_fatal_iff_witness :
    bread_view (bread sys_fine (State.init disk34) volC 1 2 (some 0)) =
        some (0, 1, some { new_buf volC 1 2 with b_data := some [33, 34] }) ∧
      bread_fatal (bread { sys_fine with lseek_errno := some ⟨29, by decide⟩ }
        (State.init disk34) volC 1 2 (some 0)) = some .lseek_failed ∧
      bread_fatal (bread sys_eio (State.init disk34) volC 1 2 (some 0)) = some .read_error ∧
      bread_fatal (bread { sys_fine with rw_limit := some 1 }
        (State.init disk34) volC 1 2 (some 0)) = some .short_read ∧
      bread_fatal (bread sys_fine (State.init disk34) volC 3 2 (some 0)) = some .short_read ∧
      bread_fatal (bread sys_fine (State.init disk34) volC 1 2 none) = some .assertion ∧
      (((∃ e, bread sys_fine (State.init disk34) volC 1 2 (some 0) = .error e) ↔
          ((some 0) = none ∨ getblk (State.init disk34) volC 1 2 = .error .alloc_failed ∨
            ∃ p s1 b1, getblk (State.init disk34) volC 1 2 = .ok (p, s1) ∧ s1.heap p = some b1 ∧
              (sys_lseek sys_fine (byte_offset b1.b_blkno volC.fs) ≠ none ∨
               (sys_read sys_fine (s1.disk b1.b_fs.fd) (byte_offset b1.b_blkno volC.fs)
                  b1.b_data b1.b_bcount).rv = -1 ∨
               (sys_read sys_fine (s1.disk b1.b_fs.fd) (byte_offset b1.b_blkno volC.fs)
                  b1.b_data b1.b_bcount).rv ≠ 2))) ∧
        ((some 0) = none → bread sys_fine (State.init disk34) volC 1 2 (some 0) = .error .assertion) ∧
        ((some 0) ≠ none → getblk (State.init disk34) volC 1 2 = .error .alloc_failed →
          bread sys_fine (State.init disk34) volC 1 2 (some 0) = .error .alloc_failed) ∧
        (getblk (State.init disk34) volC 1 2 = .error .alloc_failed ∨
          ∃ p s1 b1, getblk (State.init disk34) volC 1 2 = .ok (p, s1) ∧ s1.heap p = some b1 ∧
            b1.b_bcount = 2) ∧
        (∀ (p : Nat) (s1 : State) (b1 : buf), (some 0) ≠ none →
          getblk (State.init disk34) volC 1 2 = .ok (p, s1) → s1.heap p = some b1 →
          (sys_lseek sys_fine (byte_offset b1.b_blkno volC.fs) ≠ none →
            bread sys_fine (State.init disk34) volC 1 2 (some 0) = .error .lseek_failed) ∧
          (sys_lseek sys_fine (byte_offset b1.b_blkno volC.fs) = none →
            (sys_read sys_fine (s1.disk b1.b_fs.fd) (byte_offset b1.b_blkno volC.fs)
              b1.b_data b1.b_bcount).rv = -1 →
            bread sys_fine (State.init disk34) volC 1 2 (some 0) = .error .read_error) ∧
          (sys_lseek sys_fine (byte_offset b1.b_blkno volC.fs) = none →
            (sys_read sys_fine (s1.disk b1.b_fs.fd) (byte_offset b1.b_blkno volC.fs)
              b1.b_data b1.b_bcount).rv ≠ -1 →
            (sys_read sys_fine (s1.disk b1.b_fs.fd) (byte_offset b1.b_blkno volC.fs)
              b1.b_data b1.b_bcount).rv ≠ 2 →
            bread sys_fine (State.init disk34) volC 1 2 (some 0) = .error .short_read) ∧
          (sys_lseek sys_fine (byte_offset b1.b_blkno volC.fs) = none →
            (sys_read sys_fine (s1.disk b1.b_fs.fd) (byte_offset b1.b_blkno volC.fs)
              b1.b_data b1.b_bcount).rv ≠ -1 →
            (sys_read sys_fine (s1.disk b1.b_fs.fd) (byte_offset b1.b_blkno volC.fs)
              b1.b_data b1.b_bcount).rv = 2 →
            ∃ s2, bread sys_fine (State.init disk34) volC 1 2 (some 0) = .ok (0, p, s2))) ∧
        (∀ (rc : Int) (q : Nat) (s2 : State),
          bread sys_fine (State.init disk34) volC 1 2 (some 0) = .ok (rc, q, s2) → rc = 0) ∧
        ((∀ e, bread sys_fine (State.init disk34) volC 1 2 (some 0) ≠ .error e) →
          ∃ q s2, bread sys_fine (State.init disk34) volC 1 2 (some 0) = .ok (0, q, s2))) :=
  ⟨by decide, by decide, by decide, by decide, by decide, by decide,
    bread_fatal_iff (State.init disk34) (Reachable.start disk34) volC 1 2 sys_fine (some 0)⟩

/-- Counterexample to C14 as stated: from process start on `disk34`, the
system failing no call, `bread(volC, 1, -1)` has `getblk` create a buffer and
ends the process on the allocation of its data: no seek has failed and no
read has returned anything. With the size 2 the same call returns 0, and with
`bpp = NULL` it ends on the assertion of line 66. -/
theorem bread_fatal_without_read_failure :
    Reachable (State.init disk34) ∧
      sys_fine.lseek_errno = none ∧ sys_fine.rw_errno = none ∧ sys_fine.rw_limit = none ∧
      bread_fatal (bread sys_fine (State.init disk34) volC 1 (-1) (some 0)) =
        some .alloc_failed ∧
      returned (getblk (State.init disk34) volC 1 (-1)) = none ∧
      bread_view (bread sys_fine (State.init disk34) volC 1 2 (some 0)) =
        some (0, 1, some { new_buf volC 1 2 with b_data := some [33, 34] }) ∧
      bread_fatal (bread sys_fine (State.init disk34) volC 1 2 none) = some .assertion :=
  ⟨Reachable.start disk34, rfl, rfl, rfl, by decide, by decide, by decide, by decide⟩

/-- C15, as the code has it. In every reachable state, when
`bread(vp, blkno, size)` returns a buffer whose `b_fs` is `vp->fs` (a buffer
created for a volume with the Storage Handle of `vp`: always so when `bread`
created it), the disk is as before the read; and when the `bwrite` of that
buffer, unmodified, follows at once, its seek succeeds and its write returns
`b_bcount`, then `bwrite` returns 0 and the disk, every file at every offset,
is as it was before the read. -/
theorem bread_bwrite_idempotent (s : State) (hr : Reachable s) (vp : vnode)
    (blkno size : Int) (env env2 : sys_outcome) (bpp : Option Nat) (rc : Int) (p : Nat)
    (s1 : State) (hbr0 : bread env s vp blkno size bpp = .ok (rc, p, s1)) (b1 : buf)
    (hb1 : s1.heap p = some b1) (hfs : b1.b_fs = vp.fs) :
    s1.disk = s.disk ∧
    (sys_lseek env2 (byte_offset b1.b_blkno b1.b_fs) = none →
      (sys_write env2 (s1.disk b1.b_fs.fd)
        (byte_offset b1.b_blkno b1.b_fs) b1.b_data b1.b_bcount).rv
          = b1.b_bcount →
      ∃ s2, bwrite env2 s1 p = .ok (0, s2) ∧ s2.disk = s.disk) := by
  have hinv := inv_reachable s hr
  have hbr := bread_returns hbr0
  have hinv1 : Inv s1 := inv_bread env s vp blkno size (rc, p, s1) hinv hbr
  obtain ⟨p0, sg, b, hg, hb, _, hne, hrv, hr2⟩ := bread_cases env s vp blkno size _ hbr
  simp only [Prod.mk.injEq] at hr2
  obtain ⟨_, hpp, hs1⟩ := hr2
  subst hpp
  have hinvg := inv_getblk s vp blkno size p sg hinv hg
  have hdisk : s1.disk = s.disk := by
    rw [hs1]
    exact getblk_disk s vp blkno size p sg hinv hg
  have hdg : s1.disk = sg.disk := by rw [hs1]
  obtain ⟨d, hd, hc, _, _, _, _⟩ := bread_target env sg p b _ hinvg hb hne
  rw [hd] at hrv
  obtain ⟨d2, e1, e2, e3, _, _⟩ := sys_read_full env (sg.disk b.b_fs.fd) _ d b.b_bcount hc hrv
  have hb1eq : b1 = { b with b_data := some d2 } := by
    rw [hs1] at hb1
    have h2 : heap_set sg.heap p (some { b with
        b_data := (sys_read env (sg.disk b.b_fs.fd)
          (byte_offset b.b_blkno vp.fs) b.b_data b.b_bcount).data }) p
          = some b1 := hb1
    rw [heap_set_same, hd, e1] at h2
    cases h2
    rfl
  refine ⟨hdisk, ?_⟩
  intro hseek hw
  have hfsb : b.b_fs = vp.fs := by
    rw [hb1eq] at hfs
    exact hfs
  subst hb1eq
  simp only at hseek hw
  rw [hfsb] at hseek hw
  rw [hdg] at hw
  rw [hfsb] at e1 e2 e3
  have hfile := sys_write_same env2 (sg.disk vp.fs.fd) _ d2 (d.drop b.b_bcount.toNat)
    b.b_bcount hc e2 e3 hw
  obtain ⟨e, sI, hi, hiff, _, _, _, hstate⟩ := bwrite_impl_code env2 s1 p _ hb1
    (by show b.b_bcount ≠ -1; omega)
  simp only at hiff hstate
  rw [hfsb] at hiff hstate
  rw [hdg] at hiff hstate
  have he0 : e = 0 := hiff.mpr ⟨hseek, hw⟩
  subst he0
  have hsI : sI.disk = s1.disk := by
    rw [hstate hseek, hfile]
    funext fd
    by_cases hfd : fd = vp.fs.fd
    · simp [hfd, hdg]
    · simp [hfd, hdg]
  obtain ⟨_, _, _, _, hclear, hset⟩ := bwrite_of_impl env2 s1 p _ 0 sI hinv1 hb1 hi
  cases hh : b.b_is_hammer2
  · exact ⟨sI, hclear hh, by rw [hsI, hdisk]⟩
  · obtain ⟨s3, _, hbw, hd3⟩ := hset hh
    exact ⟨s3, hbw, by rw [hd3, hsI, hdisk]⟩

/-- Witness of C15 (amended): on `disk34`, `bread(volC, 1, 2)` from process
start creates buffer 1 with the bytes 33, 34 of byte 3 of descriptor 3;
`bwrite` of it returns 0 and both files are as before. -/
theorem bread_bwrite_idempotent_witness :
    bread sys_fine (State.init disk34) volC 1 2 (some 0) = .ok (0, 1, st_readC) ∧
      st_readC.heap 1 = some { new_buf volC 1 2 with b_data := some [33, 34] } ∧
      bwrite_view (bwrite sys_fine st_readC 1) 1 =
        some (0, [1], some { new_buf volC 1 2 with b_data := some [33, 34] }) ∧
      (after st_readC [.bwrite sys_fine 1]).disk 3 = disk34 3 ∧
      (after st_readC [.bwrite sys_fine 1]).disk 4 = disk34 4 ∧
      (st_readC.disk = (State.init disk34).disk ∧
        (sys_lseek sys_fine
            (byte_offset ({ new_buf volC 1 2 with b_data := some [33, 34] } : buf).b_blkno
              ({ new_buf volC 1 2 with b_data := some [33, 34] } : buf).b_fs) = none →
          (sys_write sys_fine
            (st_readC.disk ({ new_buf volC 1 2 with b_data := some [33, 34] } : buf).b_fs.fd)
            (byte_offset ({ new_buf volC 1 2 with b_data := some [33, 34] } : buf).b_blkno
              ({ new_buf volC 1 2 with b_data := some [33, 34] } : buf).b_fs)
            ({ new_buf volC 1 2 with b_data := some [33, 34] } : buf).b_data
            ({ new_buf volC 1 2 with b_data := some [33, 34] } : buf).b_bcount).rv
              = ({ new_buf volC 1 2 with b_data := some [33, 34] } : buf).b_bcount →
          ∃ s2, bwrite sys_fine st_readC 1 = .ok (0, s2) ∧
            s2.disk = (State.init disk34).disk)) :=
  ⟨rfl, by decide, by decide, by decide, by decide,
    bread_bwrite_idempotent (State.init disk34) (Reachable.start disk34) volC 1 2
      sys_fine sys_fine (some 0) 0 1 st_readC rfl { new_buf volC 1 2 with b_data := some [33, 34] }
      (by decide) rfl⟩

/-- Counterexample to C15 as stated: block 1 is queued as buffer 1, created
for `volD` (descriptor 4, image at byte 2). `bread(volC, 1, 2)` for `volC`
(image at byte 1) returns 0 with the bytes 43, 44 read at byte 3 of
descriptor 4; the `bwrite` of the unmodified buffer that follows returns 0,
having written both bytes at byte 1 * 2 + 2 = 4 of descriptor 4: the file is
no longer what it was before the read, also at byte 3. -/
theorem bread_bwrite_other_volume_changes_storage :
    Reachable st_volD ∧ volC.v_logical = false ∧
      st_volD.disk 4 = [40, 41, 42, 43, 44, 45, 46, 47] ∧
      bread_view (bread sys_fine st_volD volC 1 2 (some 0)) =
        some (0, 1, some { new_buf volD 1 2 with b_data := some [43, 44] }) ∧
      bwrite_view (bwrite sys_fine (after st_volD [.bread sys_fine volC 1 2 (some 0)]) 1) 1 =
        some (0, [1], some { new_buf volD 1 2 with b_data := some [43, 44] }) ∧
      (after st_volD [.bread sys_fine volC 1 2 (some 0), .bwrite sys_fine 1]).disk 4 =
        [40, 41, 42, 43, 43, 44, 46, 47] ∧
      (((after st_volD [.bread sys_fine volC 1 2 (some 0), .bwrite sys_fine 1]).disk 4).drop 3).take 2
        ≠ ((st_volD.disk 4).drop 3).take 2 :=
  ⟨reachable_after _ (Reachable.start disk34) _, rfl, by decide, by decide, by decide,
    by decide, by decide⟩

end Makefs
